import Mathlib

/-!
RadioLensfit: sampler, quadrature integrator and coordinate readers.

A shallow embedding of `src/generate_random_values.c` (the functions `CDF`,
`generate_random_data` and `generate_ellipticity`) and of `src/read_coordinates.c`
(the functions `read_coords_oskar` and `read_coord_ska`), together with the
properties of these functions that the specification states.

The C type `double` is embedded as an arbitrary linearly ordered field `α`
(exact arithmetic): every definition is computable and can be run at `α = ℚ`,
and every theorem also holds at `α = ℝ`.  C `int` values are embedded as `Nat`
or `Int`; the only shifted quantity, `it`, stays below `2 ^ 31`
(`shiftLoop_lt`), so no wrap-around occurs.  The functions of `math.h` (`cos`,
`sin`, `sqrt`), the conversion `%lf` of `sscanf` and the density `e_pdf` are
parameters.  A text file is the list of its characters.

A result `none` stands for a run that C leaves undefined: a read or a store
outside an allocated table, or the use of a variable that was never assigned.
-/

set_option linter.unusedSectionVars false
set_option linter.unusedVariables false

namespace RadioLensfit

variable {α : Type} [LinearOrderedField α]

/-! ## Constants of `generate_random_values.c` -/

/-- The constant `EPS` (`#define EPS 1.0e-5`). -/
def EPS : α := 1.0e-5

/-- The constant `JMAX` (`#define JMAX 30`). -/
def JMAX : Nat := 30

/-- The constant `N` (`#define N 1000`). -/
def N : Nat := 1000

/-! ## The integrator `CDF` -/

/-- The loop `for (it=1,j=1;j<k-1;j++) it <<= 1;`, started in the state `(j, it)`. -/
def shiftLoop (k j it : Nat) : Nat :=
  if j < k - 1 then shiftLoop k (j + 1) (it <<< 1) else it
termination_by k - j

/-- The loop `for (sum=0.,j=1; j<it; j++,x+=del) sum += (*pdf)(x);`, started in the
state `(j, x, sum)`. -/
def midpointLoop (pdf : α → α) (del : α) (it j : Nat) (x sum : α) : α :=
  if j < it then midpointLoop pdf del it (j + 1) (x + del) (sum + pdf x) else sum
termination_by it - j

/-- The body of the `k` loop of `CDF` up to the assignment
`s = 0.5*(s+del*sum)`: the new value of `s` from the old one. -/
def refineStep (pdf : α → α) (b : α) (k : Nat) (s : α) : α :=
  let it := shiftLoop k 1 1
  let tnm : α := (it : α)
  let del := b / tnm
  let x := 0.5 * del
  let sum := midpointLoop pdf del it 1 x 0
  0.5 * (s + del * sum)

/-- The convergence test of `CDF`:
`fabs(s-olds) < EPS*fabs(olds) || (s == 0.0 && olds == 0.0)`. -/
def converged (s olds : α) : Prop :=
  |s - olds| < EPS * |olds| ∨ (s = 0 ∧ olds = 0)

instance (s olds : α) : Decidable (converged s olds) := by
  unfold converged; infer_instance

/-- The loop `for (k=2; k<=JMAX; k++)` of `CDF`, started in the state `(k, s, olds)`.
The result is the returned value and a flag telling whether the diagnostic
`CDF: Too many steps` was printed (the fallback exit). -/
def cdfLoop (pdf : α → α) (b : α) (k : Nat) (s olds : α) : α × Bool :=
  if k ≤ JMAX then
    let s' := refineStep pdf b k s
    if k > 5 ∧ converged s' olds then (s', false)
    else cdfLoop pdf b (k + 1) s' s'
  else (0.0, true)
termination_by JMAX + 1 - k
decreasing_by omega

/-- The function `CDF` with its observable output: the returned value and whether
the diagnostic was printed. -/
def CDFrun (pdf : α → α) (b : α) : α × Bool :=
  cdfLoop pdf b 2 (0.5 * b * pdf b) 0

/-- The function `double CDF(double (*pdf)(double), double b)`. -/
def CDF (pdf : α → α) (b : α) : α :=
  (CDFrun pdf b).1

/-- The value of the variable `s` of `CDF` after the iteration `k` of its loop
(`k = 1`: the initial value `0.5*b*pdf(b)`), when the loop does not return
earlier. -/
def estimate (pdf : α → α) (b : α) : Nat → α
  | 0 => 0.5 * b * pdf b
  | k + 1 => if k = 0 then 0.5 * b * pdf b else refineStep pdf b (k + 1) (estimate pdf b k)

/-- The composite trapezoidal rule for the integral of `pdf` over `[0, b]` on `n`
equal sub-intervals, as the specification writes it:
`(b/n) * (pdf(0)/2 + sum_{j=1}^{n-1} pdf(j*b/n) + pdf(b)/2)`. -/
def trapezoid (pdf : α → α) (b : α) (n : Nat) : α :=
  (b / (n : α)) *
    (pdf 0 / 2 + ((List.range (n - 1)).map (fun j => pdf (((j + 1 : Nat) : α) * b / (n : α)))).sum
      + pdf b / 2)

/-- The convergence test as `CDF` evaluates it in iteration `k` (for `k > 2`, where
`olds` holds the estimate of iteration `k - 1`). -/
def convergedAt (pdf : α → α) (b : α) (k : Nat) : Prop :=
  converged (estimate pdf b k) (estimate pdf b (k - 1))

instance (pdf : α → α) (b : α) (k : Nat) : Decidable (convergedAt pdf b k) := by
  unfold convergedAt; infer_instance

/-- The factor of `b^2/2` in the estimate `k` of `CDF` on `pdf(x) = x`. -/
def idRatio (k : Nat) : α :=
  1 - (4 * (k : α) - 8) / (2 : α) ^ k - 8 / ((2 : α) ^ k) ^ 2

/-! ## The range sampler `generate_random_data` -/

/-- The read `F[i]` of a table entry; `none` when the index `i` is outside the
allocated table (the C read is then undefined). -/
def readF (F : List α) (i : Int) : Option α :=
  if 0 ≤ i then F[i.toNat]? else none

/-- The table `F[0..N]` of `generate_random_data`:
`F[0]=0.; for (i=1; i <= N; i++) F[i] = (*CDFunc)(param,min_value+i*h) - CFmin;`. -/
def dataTable (CDFunc : α → α → α) (param min_value h CFmin : α) : List α :=
  (List.range (N + 1)).map fun (i : Nat) =>
    if i = 0 then 0 else CDFunc param (min_value + (i : α) * h) - CFmin

/-- The variable `h` of `generate_random_data`. -/
def stepOf (min_value max_value : α) : α :=
  (max_value - min_value) / (N : α)

/-- The variable `CFrange` of `generate_random_data`. -/
def CFrangeOf (CDFunc : α → α → α) (param min_value max_value : α) : α :=
  CDFunc param max_value - CDFunc param min_value

/-- The table that `generate_random_data` builds from its arguments. -/
def tableOf (CDFunc : α → α → α) (param min_value max_value : α) : List α :=
  dataTable CDFunc param min_value (stepOf min_value max_value) (CDFunc param min_value)

/-- The scan `while ((k <= N) && (u > F[k])) k++;`, started at `k`; the result is
the value of `k` after the loop. -/
def scanData (F : List α) (u : α) (k : Nat) : Option Nat :=
  if k ≤ N then
    match readF F (k : Int) with
    | some Fk => if u > Fk then scanData F u (k + 1) else some k
    | none => none
  else some k
termination_by N + 1 - k
decreasing_by omega

/-- The inversion step of `generate_random_data`:
`k=0; while (...) k++; data[i] = min_value+h*(k-1)+h*(u-F[k-1])/(F[k]-F[k-1]);`.
The result is the value stored in `data[i]`. -/
def sampleData (F : List α) (min_value h u : α) : Option α := do
  let k ← scanData F u 0
  let Fk1 ← readF F ((k : Int) - 1)
  let Fk ← readF F (k : Int)
  pure (min_value + h * (((k : Int) - 1 : Int) : α) + h * (u - Fk1) / (Fk - Fk1))

/-- The loop `for (i=0; i < nr; i++)` of `generate_random_data`, started in the
state `(i, gen, data)`.  The generator is a state `gen : σ` and the function
`gsl_rng_uniform` returning the draw and the next state. -/
def dataLoop {σ : Type} (gsl_rng_uniform : σ → α × σ) (F : List α)
    (min_value h CFrange : α) (nr : Int) (i : Nat) (gen : σ) (data : Nat → α) :
    Option ((Nat → α) × σ) :=
  if (i : Int) < nr then
    let u := (gsl_rng_uniform gen).1 * CFrange
    match sampleData F min_value h u with
    | some x =>
      dataLoop gsl_rng_uniform F min_value h CFrange nr (i + 1) (gsl_rng_uniform gen).2
        (Function.update data i x)
    | none => none
  else some (data, gen)
termination_by (nr - i).toNat
decreasing_by omega

/-- The function `generate_random_data`: the final contents of `data` and the final
generator state, or `none` when a table read falls outside the table. -/
def generate_random_data {σ : Type} (gsl_rng_uniform : σ → α × σ) (gen : σ) (nr : Int)
    (data : Nat → α) (min_value max_value : α) (CDFunc : α → α → α) (param : α) :
    Option ((Nat → α) × σ) :=
  let h := (max_value - min_value) / (N : α)
  let CFmin := CDFunc param min_value
  let CFrange := CDFunc param max_value - CFmin
  let F := dataTable CDFunc param min_value h CFmin
  dataLoop gsl_rng_uniform F min_value h CFrange nr 0 gen data

/-- The generator state after `i` calls of `gsl_rng_uniform`. -/
def genAfter {σ : Type} (gsl_rng_uniform : σ → α × σ) (gen : σ) : Nat → σ
  | 0 => gen
  | i + 1 => (gsl_rng_uniform (genAfter gsl_rng_uniform gen i)).2

/-- The value that `gsl_rng_uniform(gen)` returns in iteration `i` of
`generate_random_data`. -/
def uniformOf {σ : Type} (gsl_rng_uniform : σ → α × σ) (gen : σ) (i : Nat) : α :=
  (gsl_rng_uniform (genAfter gsl_rng_uniform gen i)).1

/-- The value of `u` in iteration `i` of `generate_random_data`. -/
def drawOf {σ : Type} (gsl_rng_uniform : σ → α × σ) (gen : σ) (CFrange : α) (i : Nat) : α :=
  uniformOf gsl_rng_uniform gen i * CFrange

/-- The segment `j` of the grid `min_value + j*h` holding `x`: the least `j ≥ 1` with
`x ≤ min_value + j*h`, and `N` beyond the grid. -/
def segmentOf (min_value h x : α) : Nat → Nat → Nat
  | 0, j => j
  | n + 1, j => if x ≤ min_value + (j : α) * h then j else segmentOf min_value h x n (j + 1)

/-- The piecewise-linear interpolant `L` through the points `(min_value + j*h, F[j])`,
`j = 0..N`, of the specification: on segment `j` it is the line through
`(min_value + (j-1)*h, F[j-1])` and `(min_value + j*h, F[j])`. -/
def interpolant (F : List α) (min_value h x : α) : α :=
  let j := segmentOf min_value h x (N - 1) 1
  F.getD (j - 1) 0
    + (x - (min_value + ((j - 1 : Nat) : α) * h)) / h * (F.getD j 0 - F.getD (j - 1) 0)

/-! ## The ellipticity generator `generate_ellipticity` -/

/-- The constant `PI` (`#define PI 3.14159265358979323846`). -/
def PI : α := 3.14159265358979323846

/-- The table `F[0..N]` of `generate_ellipticity`:
`F[0]=0.; for (i=1; i <= N; i++) F[i] = CDF(e_pdf,i*h);`. -/
def ellipTable (e_pdf : α → α) (h : α) : List α :=
  (List.range (N + 1)).map fun (i : Nat) => if i = 0 then 0 else CDF e_pdf ((i : α) * h)

/-- The scan `while (u > F[k]) k++;` of `generate_ellipticity`, started at `k`;
`none` when the scan reads beyond the table. -/
def scanEllip (F : List α) (u : α) (k : Nat) : Option Nat :=
  if hk : k < F.length then
    if u > F[k] then scanEllip F u (k + 1) else some k
  else none
termination_by F.length - k

/-- The inversion step of `generate_ellipticity`:
`k=0; while (u > F[k]) k++; module = h*(k-1)+h*(u-F[k-1])/(F[k]-F[k-1]);`. -/
def ellipModule (F : List α) (h u : α) : Option α := do
  let k ← scanEllip F u 0
  let Fk1 ← readF F ((k : Int) - 1)
  let Fk ← readF F (k : Int)
  pure (h * (((k : Int) - 1 : Int) : α) + h * (u - Fk1) / (Fk - Fk1))

/-- The loop `for (k=0; k < NP; k++)` of `generate_ellipticity`, started in the
state `(k, ind, e1, e2)`; `cos` and `sin` are the functions of `math.h`.  The index
`ind` is a natural number: the buffers are indexed within the range of `int`. -/
def ringLoop (cos sin : α → α) (NP : Int) (module phi_0 inc : α) (k ind : Nat)
    (e1 e2 : Nat → α) : (Nat → α) × (Nat → α) × Nat :=
  if (k : Int) < NP then
    let phi := phi_0 + (k : α) * inc
    let e1a := Function.update e1 ind (module * cos phi)
    let e2a := Function.update e2 ind (module * sin phi)
    let ind1 := ind + 1
    let e1b := Function.update e1a ind1 (-e1a (ind1 - 1))
    let e2b := Function.update e2a ind1 (-e2a (ind1 - 1))
    let ind2 := ind1 + 1
    ringLoop cos sin NP module phi_0 inc (k + 1) ind2 e1b e2b
  else (e1, e2, ind)
termination_by (NP - k).toNat
decreasing_by omega

/-- The loop `for (i=0; i < ne; i++)` of `generate_ellipticity`, started in the
state `(i, gen, ind, e1, e2)`. -/
def ellipLoop {σ : Type} (gsl_rng_uniform gsl_rng_uniform_pos : σ → α × σ) (cos sin : α → α)
    (F : List α) (h inc : α) (ne NP : Int) (i : Nat) (gen : σ) (ind : Nat)
    (e1 e2 : Nat → α) : Option ((Nat → α) × (Nat → α) × σ) :=
  if (i : Int) < ne then
    let u := (gsl_rng_uniform gen).1
    let gen1 := (gsl_rng_uniform gen).2
    match ellipModule F h u with
    | some module =>
      let phi_0 := 2 * PI * (gsl_rng_uniform_pos gen1).1
      let gen2 := (gsl_rng_uniform_pos gen1).2
      let r := ringLoop cos sin NP module phi_0 inc 0 ind e1 e2
      ellipLoop gsl_rng_uniform gsl_rng_uniform_pos cos sin F h inc ne NP (i + 1) gen2
        r.2.2 r.1 r.2.1
    | none => none
  else some (e1, e2, gen)
termination_by (ne - i).toNat
decreasing_by omega

/-- The function `generate_ellipticity`: the final contents of `e1` and `e2` and the
final generator state, or `none` when a table read falls outside the table.  The
density `e_pdf` (of `distributions.h`) and the functions `cos`, `sin` (of `math.h`)
are parameters. -/
def generate_ellipticity {σ : Type} (gsl_rng_uniform gsl_rng_uniform_pos : σ → α × σ)
    (cos sin e_pdf : α → α) (gen : σ) (ne NP : Int) (e1 e2 : Nat → α) :
    Option ((Nat → α) × (Nat → α) × σ) :=
  let h := 0.804 / (N : α)
  let F := ellipTable e_pdf h
  let inc := PI / (NP : α)
  ellipLoop gsl_rng_uniform gsl_rng_uniform_pos cos sin F h inc ne NP 0 gen 0 e1 e2

/-- The generator state at the start of iteration `g` of the galaxy loop of
`generate_ellipticity`: each iteration calls `gsl_rng_uniform` and then
`gsl_rng_uniform_pos`. -/
def galaxyGen {σ : Type} (gsl_rng_uniform gsl_rng_uniform_pos : σ → α × σ) (gen : σ) : Nat → σ
  | 0 => gen
  | g + 1 =>
    (gsl_rng_uniform_pos
      (gsl_rng_uniform (galaxyGen gsl_rng_uniform gsl_rng_uniform_pos gen g)).2).2

/-- The value of `u` for galaxy `g` in `generate_ellipticity`. -/
def galaxyDraw {σ : Type} (gsl_rng_uniform gsl_rng_uniform_pos : σ → α × σ) (gen : σ)
    (g : Nat) : α :=
  (gsl_rng_uniform (galaxyGen gsl_rng_uniform gsl_rng_uniform_pos gen g)).1

/-- The value of `phi_0` for galaxy `g` in `generate_ellipticity`. -/
def galaxyPhase {σ : Type} (gsl_rng_uniform gsl_rng_uniform_pos : σ → α × σ) (gen : σ)
    (g : Nat) : α :=
  2 * PI * (gsl_rng_uniform_pos
    (gsl_rng_uniform (galaxyGen gsl_rng_uniform gsl_rng_uniform_pos gen g)).2).1

/-! ## Text files (`src/read_coordinates.c`)

A file opened with `fopen` is embedded as the list of its characters still to be read
and the end-of-file indicator that `feof` tests.  The conversion `%lf` of `sscanf` is
a parameter `sscanf_lf`: the number read from a string, `none` when no number is
read, which leaves the target of the conversion as it was. -/

/-- An open text file. -/
structure FILE where
  /-- The characters not read yet. -/
  rest : List Char
  /-- The end-of-file indicator. -/
  eof : Bool

/-- The call `fopen(filename, "r")` on an existing file with the characters
`contents`. -/
def fopen (contents : List Char) : FILE :=
  { rest := contents, eof := false }

/-- The characters that a call of `fgets` takes from the characters `cs` of a file
when its buffer has room for `n` of them: it stops behind a newline character, after
`n` characters, or at the end of the file.  The result is the characters taken, the
characters left, and whether the end of the file was met. -/
def getLine : Nat → List Char → List Char × List Char × Bool
  | 0, cs => ([], cs, false)
  | _ + 1, [] => ([], [], true)
  | n + 1, c :: cs =>
    if c = '\n' then ([c], cs, false)
    else (c :: (getLine n cs).1, (getLine n cs).2.1, (getLine n cs).2.2)

/-- The call `fgets(line, size, fp)`: the characters stored in the buffer (`none` for
the result `NULL`, when the end of the file is met before a character is read, which
leaves the buffer as it was) and the file afterwards.  The end-of-file indicator is
set when the read meets the end of the file. -/
def fgets (size : Nat) (fp : FILE) : Option (List Char) × FILE :=
  match fp.rest with
  | [] => (none, { rest := [], eof := true })
  | c :: cs =>
    (some (getLine (size - 1) (c :: cs)).1,
      { rest := (getLine (size - 1) (c :: cs)).2.1
        eof := fp.eof || (getLine (size - 1) (c :: cs)).2.2 })

/-- A bound on the number of calls of `fgets(line, 100, fp)` after which the
end-of-file indicator is set. -/
def FILE.left (fp : FILE) : Nat :=
  if fp.eof then 0 else fp.rest.length + 1

/-- The string that a buffer holds: its characters before the first null
character. -/
def cstring (buf : List Char) : List Char :=
  buf.takeWhile (fun c => !(c == '\x00'))

/-- The characters read by each of the calls `fgets(line, 100, fp)` of a loop
`while (!feof(fp))`, up to the call that sets the end-of-file indicator; a call that
reads no character adds nothing.  Each entry is a line of the file with its newline
character (the last line of the file may have none), or 99 characters of a longer
line. -/
def linesOf (fp : FILE) : List (List Char) :=
  if h : fp.eof = true then []
  else
    match (fgets 100 fp).1 with
    | none => []
    | some l => l :: linesOf (fgets 100 fp).2
termination_by fp.left
decreasing_by
  have key : ∀ (n : Nat) (cs : List Char),
      (getLine (n + 1) cs).2.1.length + (if (getLine (n + 1) cs).2.2 = true then 0 else 1)
        ≤ cs.length := by
    intro n
    induction n with
    | zero =>
      intro cs
      cases cs with
      | nil => simp [getLine]
      | cons c cs => by_cases hc : c = '\n' <;> simp [getLine, hc]
    | succ n ih =>
      intro cs
      cases cs with
      | nil => simp [getLine]
      | cons c cs =>
        have := ih cs
        by_cases hc : c = '\n'
        · simp [getLine, hc]
        · simp only [getLine, hc, if_false, List.length_cons]
          omega
  have h1 : fp.eof = false := by
    cases hb : fp.eof
    · rfl
    · exact absurd hb h
  unfold FILE.left fgets
  rw [h1]
  rcases hl : fp.rest with _ | ⟨c, cs⟩
  · simp
  · have h99 := key 98 (c :: cs)
    simp only [Nat.reduceAdd, Nat.reduceSub, List.length_cons] at h99 ⊢
    cases hh : (getLine 99 (c :: cs)).2.2
    · rw [hh] at h99
      simp only [Bool.false_or, Bool.false_eq_true, if_false] at h99 ⊢
      omega
    · simp

/-- Whether a loop `while (!feof(fp))` that calls `fgets(line, 100, fp)` runs an
iteration in which `fgets` reads no character: the file is empty, or the read of its
last characters does not meet the end of the file (the file ends with a newline
character, or with 99 characters that fill the buffer). -/
def extraRead (fp : FILE) : Bool :=
  if h : fp.eof = true then false
  else
    match (fgets 100 fp).1 with
    | none => true
    | some _ => extraRead (fgets 100 fp).2
termination_by fp.left
decreasing_by
  have key : ∀ (n : Nat) (cs : List Char),
      (getLine (n + 1) cs).2.1.length + (if (getLine (n + 1) cs).2.2 = true then 0 else 1)
        ≤ cs.length := by
    intro n
    induction n with
    | zero =>
      intro cs
      cases cs with
      | nil => simp [getLine]
      | cons c cs => by_cases hc : c = '\n' <;> simp [getLine, hc]
    | succ n ih =>
      intro cs
      cases cs with
      | nil => simp [getLine]
      | cons c cs =>
        have := ih cs
        by_cases hc : c = '\n'
        · simp [getLine, hc]
        · simp only [getLine, hc, if_false, List.length_cons]
          omega
  have h1 : fp.eof = false := by
    cases hb : fp.eof
    · rfl
    · exact absurd hb h
  unfold FILE.left fgets
  rw [h1]
  rcases hl : fp.rest with _ | ⟨c, cs⟩
  · simp
  · have h99 := key 98 (c :: cs)
    simp only [Nat.reduceAdd, Nat.reduceSub, List.length_cons] at h99 ⊢
    cases hh : (getLine 99 (c :: cs)).2.2
    · rw [hh] at h99
      simp only [Bool.false_or, Bool.false_eq_true, if_false] at h99 ⊢
      omega
    · simp

/-- The strings that the successive calls `fgets(line, 100, fp)` read from a file with
the characters `contents`. -/
def linesRead (contents : List Char) : List (List Char) :=
  (linesOf (fopen contents)).map cstring

/-- A conversion for the example runs: the number written by the leading decimal
digits of a string, and `none` when the string does not start with a digit.  On an
unsigned decimal integer followed by nothing or by a newline character, and on a word
of the letters `a`, `b`, `c`, it agrees with the conversion `%lf` of `sscanf`. -/
def scanDigits (s : List Char) : Option α :=
  match s with
  | [] => none
  | c :: _ =>
    if c.isDigit then
      some (((s.takeWhile Char.isDigit).foldl (fun acc d => 10 * acc + (d.toNat - 48)) 0 : Nat) : α)
    else none

/-! ## The multi-epoch reader `read_coord_ska` -/

/-- The variables of `read_coord_ska` other than the buffer `line`; `none` stands for
the indeterminate contents of a variable or array cell that was never assigned.  The
scratch arrays `temp_uu`, `temp_vv`, `index` have `num_coords` cells each. -/
structure SkaState (α : Type) where
  xp : Option α
  yp : Option α
  temp_uu : Nat → Option α
  temp_vv : Nat → Option α
  index : Nat → Option Nat
  i : Nat
  k : Nat
  newbaselines : Option Nat
  maxB : α
  maxx : α
  minx : α
  maxy : α
  miny : α
  x : Nat → α
  y : Nat → α

/-- The value of `num_coords`: the product `ntimes * (*nbaselines)` of two
`unsigned int`, computed modulo `2^32`. -/
def numCoords (ntimes nbaselines : Nat) : Nat :=
  (ntimes * nbaselines) % 2 ^ 32

/-- The update `if(v>max) max = v;`. -/
def updMax (v m : α) : α := if v > m then v else m

/-- The update `if(v<min) min = v;`. -/
def updMin (v m : α) : α := if v < m then v else m

/-- The block `if (i < (*nbaselines)) { ... }` of the reading loop of `read_coord_ska`
for defined `xp` and `yp`; `sqrt` is the function of `math.h` and `n` is `num_coords`.
The result is `none` when the store `index[k]=i` is outside the `n` cells of `index`. -/
def skaEpoch0 (sqrt : α → α) (ntimes n : Nat) (threshold : α) (xp yp : α)
    (st : SkaState α) : Option (SkaState α) :=
  let modulus := sqrt (xp * xp + yp * yp)
  if modulus > threshold then
    if st.k < n then
      some { st with
        index := Function.update st.index st.k (some st.i)
        maxB := updMax modulus st.maxB
        x := Function.update st.x (st.k * ntimes) xp
        y := Function.update st.y (st.k * ntimes) yp
        k := st.k + 1
        maxx := updMax xp st.maxx
        minx := updMin xp st.minx
        maxy := updMax yp st.maxy
        miny := updMin yp st.miny }
    else none
  else some st

/-- The body of the loop `while (!feof(fp1) && !feof(fp2))` of `read_coord_ska`, for
the results `r1`, `r2` of its two calls of `fgets` and the contents `line` of the
buffer before them (`none`: never filled).  The result is the contents of the buffer
and the variables after the body; it is `none` when the never-filled buffer is read,
when the stores `temp_uu[i]=xp; temp_vv[i]=yp;` are outside the `num_coords` cells of
the scratch arrays, or when an indeterminate `xp` or `yp` is used. -/
def skaIter (sscanf_lf : List Char → Option α) (sqrt : α → α) (ntimes nbaselines : Nat)
    (threshold : α) (r1 r2 : Option (List Char)) (line : Option (List Char))
    (st : SkaState α) : Option (List Char × SkaState α) :=
  let line1 := match r1 with
    | some l => some (cstring l)
    | none => line
  match line1 with
  | none => none
  | some s1 =>
    let xp := match sscanf_lf s1 with
      | some v => some v
      | none => st.xp
    let s2 := match r2 with
      | some l => cstring l
      | none => s1
    let yp := match sscanf_lf s2 with
      | some v => some v
      | none => st.yp
    if numCoords ntimes nbaselines ≤ st.i then none
    else
      let st1 : SkaState α :=
        { st with
          xp := xp
          yp := yp
          temp_uu := Function.update st.temp_uu st.i xp
          temp_vv := Function.update st.temp_vv st.i yp }
      let st2 : Option (SkaState α) :=
        if st.i < nbaselines then
          match xp, yp with
          | some a, some b =>
            skaEpoch0 sqrt ntimes (numCoords ntimes nbaselines) threshold a b st1
          | _, _ => none
        else some st1
      match st2 with
      | none => none
      | some t =>
        let s3 : SkaState α :=
          if t.i = nbaselines then { t with newbaselines := some t.k } else t
        some (s2, { s3 with i := s3.i + 1 })

/-- The loop `while (!feof(fp1) && !feof(fp2))` of `read_coord_ska`; `line` holds the
contents of the buffer. -/
def skaLoop (sscanf_lf : List Char → Option α) (sqrt : α → α) (ntimes nbaselines : Nat)
    (threshold : α) (fp1 fp2 : FILE) (line : Option (List Char)) (st : SkaState α) :
    Option (SkaState α) :=
  if h : fp1.eof = true ∨ fp2.eof = true then some st
  else
    match skaIter sscanf_lf sqrt ntimes nbaselines threshold (fgets 100 fp1).1 (fgets 100 fp2).1
        line st with
    | none => none
    | some r =>
      skaLoop sscanf_lf sqrt ntimes nbaselines threshold (fgets 100 fp1).2 (fgets 100 fp2).2
        (some r.1) r.2
termination_by fp1.left
decreasing_by
  have key : ∀ (n : Nat) (cs : List Char),
      (getLine (n + 1) cs).2.1.length + (if (getLine (n + 1) cs).2.2 = true then 0 else 1)
        ≤ cs.length := by
    intro n
    induction n with
    | zero =>
      intro cs
      cases cs with
      | nil => simp [getLine]
      | cons c cs => by_cases hc : c = '\n' <;> simp [getLine, hc]
    | succ n ih =>
      intro cs
      cases cs with
      | nil => simp [getLine]
      | cons c cs =>
        have := ih cs
        by_cases hc : c = '\n'
        · simp [getLine, hc]
        · simp only [getLine, hc, if_false, List.length_cons]
          omega
  have h1 : fp1.eof = false := by
    cases hb : fp1.eof
    · rfl
    · exact absurd (Or.inl hb) h
  unfold FILE.left fgets
  rw [h1]
  rcases hl : fp1.rest with _ | ⟨c, cs⟩
  · simp
  · have h99 := key 98 (c :: cs)
    simp only [Nat.reduceAdd, Nat.reduceSub, List.length_cons] at h99 ⊢
    cases hh : (getLine 99 (c :: cs)).2.2
    · rw [hh] at h99
      simp only [Bool.false_or, Bool.false_eq_true, if_false] at h99 ⊢
      omega
    · simp

/-- The read of the cell `j` of a scratch array of `n` cells; `none` when the cell is
outside the array or was never assigned. -/
def readCell {β : Type} (n : Nat) (t : Nat → Option β) (j : Nat) : Option β :=
  if j < n then t j else none

/-- The loop `for (i=0; i<newbaselines; i++)` of `read_coord_ska` for the epoch `nt`,
started at `i`; `n` is `num_coords`. -/
def skaInner (ntimes n start nt newbaselines : Nat) (i : Nat) (st : SkaState α) :
    Option (SkaState α) :=
  if i < newbaselines then
    match readCell n st.index i with
    | none => none
    | some idx =>
      match readCell n st.temp_uu (start + idx), readCell n st.temp_vv (start + idx) with
      | some xp, some yp =>
        skaInner ntimes n start nt newbaselines (i + 1)
          { st with
            xp := some xp
            yp := some yp
            maxx := updMax xp st.maxx
            minx := updMin xp st.minx
            maxy := updMax yp st.maxy
            miny := updMin yp st.miny
            k := i * ntimes + nt
            x := Function.update st.x (i * ntimes + nt) xp
            y := Function.update st.y (i * ntimes + nt) yp }
      | _, _ => none
  else some { st with i := i }
termination_by newbaselines - i

/-- The loop `for (nt=1; nt<ntimes; nt++)` of `read_coord_ska`, started at `nt` with
the value `start`; `none` when the indeterminate `newbaselines` is used. -/
def skaOuter (ntimes nbaselines n : Nat) (nt start : Nat) (st : SkaState α) :
    Option (SkaState α) :=
  if nt < ntimes then
    match st.newbaselines with
    | none => none
    | some nb' =>
      match skaInner ntimes n (start + nbaselines) nt nb' 0 st with
      | none => none
      | some st' => skaOuter ntimes nbaselines n (nt + 1) (start + nbaselines) st'
  else some st
termination_by ntimes - nt

/-- The outputs of `read_coord_ska` (built with `GRID`): the value stored in
`*nbaselines` (`none`: indeterminate), the arrays `x` and `y`, the value stored in
`*len`, and the returned `maxB`. -/
structure SkaResult (α : Type) where
  nbaselines : Option Nat
  x : Nat → α
  y : Nat → α
  len : α
  maxB : α

/-- The initial values of the variables of `read_coord_ska`. -/
def skaInit (x y : Nat → α) : SkaState α :=
  { xp := none, yp := none,
    temp_uu := fun _ => none, temp_vv := fun _ => none, index := fun _ => none,
    i := 0, k := 0, newbaselines := none, maxB := 0,
    maxx := 0, minx := 0, maxy := 0, miny := 0, x := x, y := y }

/-- The function `read_coord_ska` on two existing files with the characters `file1`
and `file2`.  The result is `none` when the run of the C function is undefined: a
store outside the scratch arrays, or the use of an indeterminate value in a test, an
index or an arithmetic operation. -/
def read_coord_ska [FloorRing α] (sscanf_lf : List Char → Option α) (sqrt : α → α)
    (file1 file2 : List Char) (ntimes nbaselines : Nat) (x y : Nat → α) (threshold : α) :
    Option (SkaResult α) :=
  let num_coords := numCoords ntimes nbaselines
  match skaLoop sscanf_lf sqrt ntimes nbaselines threshold (fopen file1) (fopen file2) none
      (skaInit x y) with
  | none => none
  | some st =>
    match skaOuter ntimes nbaselines num_coords 1 0 st with
    | none => none
    | some st' =>
      some { nbaselines := st'.newbaselines
             x := st'.x
             y := st'.y
             len := ((Int.ceil (max (max st'.maxx (-st'.minx)) (max st'.maxy (-st'.miny))) : Int) : α)
             maxB := st'.maxB }

/-- The block `if (i < (*nbaselines)) { ... }` of the reading loop of `read_coord_ska`
when the store `index[k]=i` is inside the array `index`. -/
def skaFirstEpoch (sqrt : α → α) (ntimes : Nat) (threshold : α) (xp yp : α)
    (st : SkaState α) : SkaState α :=
  let modulus := sqrt (xp * xp + yp * yp)
  if modulus > threshold then
    { st with
      index := Function.update st.index st.k (some st.i)
      maxB := updMax modulus st.maxB
      x := Function.update st.x (st.k * ntimes) xp
      y := Function.update st.y (st.k * ntimes) yp
      k := st.k + 1
      maxx := updMax xp st.maxx
      minx := updMin xp st.minx
      maxy := updMax yp st.maxy
      miny := updMin yp st.miny }
  else st

/-- One iteration of the reading loop of `read_coord_ska` in which the two lines read
hold the values `u` (first file) and `v` (second file) and every store is inside its
array: the variables after the body (`skaIter_some`). -/
def skaStep (sqrt : α → α) (ntimes nbaselines : Nat) (threshold : α) (u v : α)
    (st : SkaState α) : SkaState α :=
  let st1 : SkaState α :=
    { st with
      xp := some u
      yp := some v
      temp_uu := Function.update st.temp_uu st.i (some u)
      temp_vv := Function.update st.temp_vv st.i (some v) }
  let s2 : SkaState α :=
    if st.i < nbaselines then skaFirstEpoch sqrt ntimes threshold u v st1 else st1
  let s3 : SkaState α :=
    if s2.i = nbaselines then { s2 with newbaselines := some s2.k } else s2
  { s3 with i := s3.i + 1 }

/-- The variables of the reading loop after the iterations that read the values `ps`
(pairs of a value of the first file and a value of the second). -/
def skaFeed (sqrt : α → α) (ntimes nbaselines : Nat) (threshold : α) (ps : List (α × α))
    (st : SkaState α) : SkaState α :=
  ps.foldl (fun s p => skaStep sqrt ntimes nbaselines threshold p.1 p.2 s) st

/-- The modulus `sqrt(u_b^2 + v_b^2)` of the baseline at line `b` of the two files. -/
def modulusAt (sqrt : α → α) (U V : List α) (b : Nat) : α :=
  sqrt (U.getD b 0 * U.getD b 0 + V.getD b 0 * V.getD b 0)

/-- The positions `b < n` of the lines whose modulus exceeds `threshold`, in file
order. -/
def retainedUpTo (sqrt : α → α) (U V : List α) (threshold : α) (n : Nat) : List Nat :=
  (List.range n).filter (fun b => decide (modulusAt sqrt U V b > threshold))

/-- The state of the reading loop of `read_coord_ska` after the iterations that read
the first `n` lines of two files that hold the values `U` and `V`, described by the
values read: `x0`, `y0` are the initial contents of the output arrays. -/
structure SkaInv (sqrt : α → α) (U V : List α) (ntimes nbaselines : Nat) (threshold : α)
    (x0 y0 : Nat → α) (n : Nat) (st : SkaState α) : Prop where
  hi : st.i = n
  hk : st.k = (retainedUpTo sqrt U V threshold (min n nbaselines)).length
  hindex : ∀ j, j < st.k →
    st.index j = some ((retainedUpTo sqrt U V threshold (min n nbaselines)).getD j 0)
  huu : ∀ j, j < n → st.temp_uu j = some (U.getD j 0)
  hvv : ∀ j, j < n → st.temp_vv j = some (V.getD j 0)
  hx : ∀ j, j < st.k → st.x (j * ntimes)
    = U.getD ((retainedUpTo sqrt U V threshold (min n nbaselines)).getD j 0) 0
  hy : ∀ j, j < st.k → st.y (j * ntimes)
    = V.getD ((retainedUpTo sqrt U V threshold (min n nbaselines)).getD j 0) 0
  hxframe : ∀ m, (∀ j, j < st.k → m ≠ j * ntimes) → st.x m = x0 m
  hyframe : ∀ m, (∀ j, j < st.k → m ≠ j * ntimes) → st.y m = y0 m
  hnew : st.newbaselines
    = if nbaselines < n then some (retainedUpTo sqrt U V threshold nbaselines).length else none
  hmaxB : st.maxB = (retainedUpTo sqrt U V threshold (min n nbaselines)).foldl
    (fun m b => updMax (modulusAt sqrt U V b) m) 0
  hmaxx : st.maxx = (retainedUpTo sqrt U V threshold (min n nbaselines)).foldl
    (fun m b => updMax (U.getD b 0) m) 0
  hminx : st.minx = (retainedUpTo sqrt U V threshold (min n nbaselines)).foldl
    (fun m b => updMin (U.getD b 0) m) 0
  hmaxy : st.maxy = (retainedUpTo sqrt U V threshold (min n nbaselines)).foldl
    (fun m b => updMax (V.getD b 0) m) 0
  hminy : st.miny = (retainedUpTo sqrt U V threshold (min n nbaselines)).foldl
    (fun m b => updMin (V.getD b 0) m) 0

/-- The state of `read_coord_ska` after its reading loop on two files that hold the
`ntimes * nbaselines` values `U` and `V`, described by these values. -/
structure SkaPost (sqrt : α → α) (U V : List α) (ntimes nbaselines : Nat) (threshold : α)
    (x0 y0 : Nat → α) (st : SkaState α) : Prop where
  hk : st.k = (retainedUpTo sqrt U V threshold nbaselines).length
  hindex : ∀ j, j < (retainedUpTo sqrt U V threshold nbaselines).length →
    st.index j = some ((retainedUpTo sqrt U V threshold nbaselines).getD j 0)
  huu : ∀ j, j < U.length → st.temp_uu j = some (U.getD j 0)
  hvv : ∀ j, j < U.length → st.temp_vv j = some (V.getD j 0)
  hx : ∀ j, j < (retainedUpTo sqrt U V threshold nbaselines).length → st.x (j * ntimes)
    = U.getD ((retainedUpTo sqrt U V threshold nbaselines).getD j 0) 0
  hy : ∀ j, j < (retainedUpTo sqrt U V threshold nbaselines).length → st.y (j * ntimes)
    = V.getD ((retainedUpTo sqrt U V threshold nbaselines).getD j 0) 0
  hxframe : ∀ m, (∀ j, j < (retainedUpTo sqrt U V threshold nbaselines).length →
    m ≠ j * ntimes) → st.x m = x0 m
  hyframe : ∀ m, (∀ j, j < (retainedUpTo sqrt U V threshold nbaselines).length →
    m ≠ j * ntimes) → st.y m = y0 m
  hnew : st.newbaselines
    = if nbaselines < U.length then
        some (retainedUpTo sqrt U V threshold nbaselines).length
      else none
  hmaxB : st.maxB = (retainedUpTo sqrt U V threshold nbaselines).foldl
    (fun m b => updMax (modulusAt sqrt U V b) m) 0
  hmaxx : st.maxx = (retainedUpTo sqrt U V threshold nbaselines).foldl
    (fun m b => updMax (U.getD b 0) m) 0
  hminx : st.minx = (retainedUpTo sqrt U V threshold nbaselines).foldl
    (fun m b => updMin (U.getD b 0) m) 0
  hmaxy : st.maxy = (retainedUpTo sqrt U V threshold nbaselines).foldl
    (fun m b => updMax (V.getD b 0) m) 0
  hminy : st.miny = (retainedUpTo sqrt U V threshold nbaselines).foldl
    (fun m b => updMin (V.getD b 0) m) 0

/-- The pair `(mx, mn)` of a running maximum and minimum, both started at `0`, over
the values of the set `S`. -/
structure ExtInv (mx mn : α) (S : α → Prop) : Prop where
  hmn0 : mn ≤ 0
  hmx0 : 0 ≤ mx
  hbound : ∀ v, S v → mn ≤ v ∧ v ≤ mx
  hmx : mx = 0 ∨ S mx
  hmn : mn = 0 ∨ S mn

/-- The output entries written by `read_coord_ska` when the epochs before `nt` are
complete and the epoch `nt` is written for the retained baselines before `i`: the
entry of epoch `e` of the retained baseline `j`, among `k` retained baselines. -/
def skaWritten (k nt i : Nat) (e j : Nat) : Prop :=
  (e < nt ∧ j < k) ∨ (e = nt ∧ j < i)

/-- The state of `read_coord_ska` in its second loop, at the iteration `i` of the
epoch `nt`, described by the values of the files; `nw` is the value of
`newbaselines`. -/
structure SkaOut (sqrt : α → α) (U V : List α) (ntimes nbaselines : Nat) (threshold : α)
    (x0 y0 : Nat → α) (nw : Option Nat) (mB : α) (nt i : Nat)
    (st : SkaState α) : Prop where
  hindex : ∀ j, j < (retainedUpTo sqrt U V threshold nbaselines).length →
    st.index j = some ((retainedUpTo sqrt U V threshold nbaselines).getD j 0)
  huu : ∀ j, j < U.length → st.temp_uu j = some (U.getD j 0)
  hvv : ∀ j, j < U.length → st.temp_vv j = some (V.getD j 0)
  hx : ∀ e j, skaWritten (retainedUpTo sqrt U V threshold nbaselines).length nt i e j →
    st.x (j * ntimes + e)
      = U.getD (e * nbaselines + (retainedUpTo sqrt U V threshold nbaselines).getD j 0) 0
  hy : ∀ e j, skaWritten (retainedUpTo sqrt U V threshold nbaselines).length nt i e j →
    st.y (j * ntimes + e)
      = V.getD (e * nbaselines + (retainedUpTo sqrt U V threshold nbaselines).getD j 0) 0
  hxframe : ∀ m, (∀ e j,
    skaWritten (retainedUpTo sqrt U V threshold nbaselines).length nt i e j →
      m ≠ j * ntimes + e) → st.x m = x0 m
  hyframe : ∀ m, (∀ e j,
    skaWritten (retainedUpTo sqrt U V threshold nbaselines).length nt i e j →
      m ≠ j * ntimes + e) → st.y m = y0 m
  hextx : ExtInv st.maxx st.minx (fun w => ∃ e j,
    skaWritten (retainedUpTo sqrt U V threshold nbaselines).length nt i e j ∧
      w = U.getD (e * nbaselines + (retainedUpTo sqrt U V threshold nbaselines).getD j 0) 0)
  hexty : ExtInv st.maxy st.miny (fun w => ∃ e j,
    skaWritten (retainedUpTo sqrt U V threshold nbaselines).length nt i e j ∧
      w = V.getD (e * nbaselines + (retainedUpTo sqrt U V threshold nbaselines).getD j 0) 0)
  hnew : st.newbaselines = nw
  hmaxB : st.maxB = mB

/-! ## The single-epoch reader `read_coords_oskar` -/

/-- A token that `strtok(line, " ,\n")` finds in a line, by what the code observes of
it: whether its first character is `'#'`, and the number that
`sscanf(token, "%lf", ...)` reads from it (`none` when it reads none, which leaves the
target as it was). -/
structure Token (α : Type) where
  hash : Bool
  num : Option α

/-- Whether `c` is one of the delimiters `" ,\n"` of the calls of `strtok`. -/
def isDelim (c : Char) : Bool :=
  c == ' ' || c == ',' || c == '\n'

/-- The tokens of the string `s` behind the characters `cur` (held reversed) of a
token already begun: `strtokFrom s []` lists the tokens that the calls
`strtok(line, " ,\n")`, `strtok(NULL, " ,\n")`, ... find in `s` one after the other,
the maximal runs of characters other than the delimiters. -/
def strtokFrom : List Char → List Char → List (List Char)
  | [], cur => if cur = [] then [] else [cur.reverse]
  | c :: cs, cur =>
    if isDelim c then
      if cur = [] then strtokFrom cs [] else cur.reverse :: strtokFrom cs []
    else strtokFrom cs (c :: cur)

/-- What the code observes of the tokens of the string `s`: of each token, the test
`token[0] != '#'` and the conversion `sscanf(token, "%lf", ...)`. -/
def tokensOf (sscanf_lf : List Char → Option α) (s : List Char) : List (Token α) :=
  (strtokFrom s []).map (fun t => { hash := t.head? == some '#', num := sscanf_lf t })

/-- The variables of `read_coords_oskar` during its loop. -/
structure OskState (α : Type) where
  i : Nat
  x : Nat → α
  y : Nat → α
  maxx : α
  minx : α
  maxy : α
  miny : α

/-- The body of the loop of `read_coords_oskar` after the call of `fgets`, on the
tokens of the buffer `line`. -/
def oskProcess (tokens : List (Token α)) (st : OskState α) : OskState α :=
  match tokens with
  | [] => st
  | t0 :: rest =>
    if t0.hash then st
    else
      let st1 : OskState α :=
        match rest with
        | [] => st
        | t1 :: _ =>
          let x1 := match t1.num with
            | some v => Function.update st.x st.i v
            | none => st.x
          { st with x := x1, maxx := updMax (x1 st.i) st.maxx, minx := updMin (x1 st.i) st.minx }
      match rest.drop 1 with
      | [] => st1
      | t2 :: _ =>
        let y1 := match t2.num with
          | some v => Function.update st1.y st1.i v
          | none => st1.y
        { st1 with
          y := y1, maxy := updMax (y1 st1.i) st1.maxy, miny := updMin (y1 st1.i) st1.miny
          i := st1.i + 1 }

/-- The loop `while (!feof(fp) && i < ncoords)` of `read_coords_oskar`; `buf` holds the
tokens of the buffer `line` (`none`: never filled), which a failed `fgets` leaves as
they are; after `strtok` has cut the buffer behind its first token, only that token is
left in it.  The result is `none` when the never-filled buffer is tokenized. -/
def oskLoop (sscanf_lf : List Char → Option α) (ncoords : Nat) (fp : FILE)
    (buf : Option (List (Token α))) (st : OskState α) : Option (OskState α) :=
  if h : fp.eof = true ∨ ¬ st.i < ncoords then some st
  else
    let line := match (fgets 100 fp).1 with
      | some l => some (tokensOf sscanf_lf (cstring l))
      | none => buf
    match line with
    | none => none
    | some tokens =>
      oskLoop sscanf_lf ncoords (fgets 100 fp).2 (some (tokens.take 1)) (oskProcess tokens st)
termination_by fp.left
decreasing_by
  have key : ∀ (n : Nat) (cs : List Char),
      (getLine (n + 1) cs).2.1.length + (if (getLine (n + 1) cs).2.2 = true then 0 else 1)
        ≤ cs.length := by
    intro n
    induction n with
    | zero =>
      intro cs
      cases cs with
      | nil => simp [getLine]
      | cons c cs => by_cases hc : c = '\n' <;> simp [getLine, hc]
    | succ n ih =>
      intro cs
      cases cs with
      | nil => simp [getLine]
      | cons c cs =>
        have := ih cs
        by_cases hc : c = '\n'
        · simp [getLine, hc]
        · simp only [getLine, hc, if_false, List.length_cons]
          omega
  have h1 : fp.eof = false := by
    cases hb : fp.eof
    · rfl
    · exact absurd (Or.inl hb) h
  unfold FILE.left fgets
  rw [h1]
  rcases hl : fp.rest with _ | ⟨c, cs⟩
  · simp
  · have h99 := key 98 (c :: cs)
    simp only [Nat.reduceAdd, Nat.reduceSub, List.length_cons] at h99 ⊢
    cases hh : (getLine 99 (c :: cs)).2.2
    · rw [hh] at h99
      simp only [Bool.false_or, Bool.false_eq_true, if_false] at h99 ⊢
      omega
    · simp

/-- The conversion of the `unsigned long` value `i` to the return type `int`. -/
def toInt32 (i : Nat) : Int :=
  if i % 2 ^ 32 < 2 ^ 31 then ((i % 2 ^ 32 : Nat) : Int) else ((i % 2 ^ 32 : Nat) : Int) - 2 ^ 32

/-- The outputs of `read_coords_oskar`: the returned count, the arrays `x` and `y`,
and the values stored in `*lenu` and `*lenv`. -/
structure OskResult (α : Type) where
  ret : Int
  x : Nat → α
  y : Nat → α
  lenu : α
  lenv : α

/-- The function `read_coords_oskar` on an existing file with the characters `file`. -/
def read_coords_oskar (sscanf_lf : List Char → Option α) (file : List Char) (ncoords : Nat)
    (x y : Nat → α) : Option (OskResult α) :=
  match oskLoop sscanf_lf ncoords (fopen file) none
      { i := 0, x := x, y := y, maxx := 0, minx := 0, maxy := 0, miny := 0 } with
  | none => none
  | some st =>
    some { ret := toInt32 st.i
           x := st.x
           y := st.y
           lenu := if st.maxx > -st.minx then st.maxx else -st.minx
           lenv := if st.maxy > -st.miny then st.maxy else -st.miny }

/-- The lines that `read_coords_oskar` reads from a file with the characters `file`
(each a line of the file, or 99 characters of a longer line), as the lists of their
tokens. -/
def rowsRead (sscanf_lf : List Char → Option α) (file : List Char) : List (List (Token α)) :=
  (linesRead file).map (tokensOf sscanf_lf)

/-- A line that the loop of `read_coords_oskar` counts: at least three tokens, the
first one not starting with `'#'`. -/
def isData (l : List (Token α)) : Bool :=
  match l with
  | t0 :: _ :: _ :: _ => !t0.hash
  | _ => false

/-- A line with exactly two tokens, the first one not starting with `'#'`: its second
token is read into `x[i]`, and the line is not counted. -/
def isIncomplete (l : List (Token α)) : Bool :=
  match l with
  | [t0, _] => !t0.hash
  | _ => false

/-- A well-formed data row `index x y`: three tokens, the first one not starting with
`'#'`, the second and the third numbers. -/
def isRow (l : List (Token α)) : Bool :=
  match l with
  | [t0, t1, t2] => !t0.hash && t1.num.isSome && t2.num.isSome
  | _ => false

/-- The number read from the second token of a line. -/
def fieldX (l : List (Token α)) : Option α :=
  match l with
  | _ :: t1 :: _ => t1.num
  | _ => none

/-- The number read from the third token of a line. -/
def fieldY (l : List (Token α)) : Option α :=
  match l with
  | _ :: _ :: t2 :: _ => t2.num
  | _ => none

/-- One guarded iteration of the loop of `read_coords_oskar` on a line read. -/
def oskStep (ncoords : Nat) (st : OskState α) (l : List (Token α)) : OskState α :=
  if st.i < ncoords then oskProcess l st else st

/-- The state of the loop of `read_coords_oskar` after the lines `ls`. -/
def oskFeed (ncoords : Nat) (ls : List (List (Token α))) (st : OskState α) : OskState α :=
  ls.foldl (oskStep ncoords) st

/-- The state of the loop of `read_coords_oskar` after the lines `P`, described by the
lines: `i` counts the data lines (up to `ncoords`), `x[j]` and `y[j]` hold the numbers
of the data line `j`, and the extents run over the entries stored. -/
structure OskInv (ncoords : Nat) (P : List (List (Token α))) (st : OskState α) : Prop where
  hi : st.i = min ncoords (P.filter isData).length
  hx : ∀ j, j < st.i → ∀ v, fieldX ((P.filter isData).getD j []) = some v → st.x j = v
  hy : ∀ j, j < st.i → ∀ v, fieldY ((P.filter isData).getD j []) = some v → st.y j = v
  hexty : ExtInv st.maxy st.miny (fun w => ∃ j, j < st.i ∧ w = st.y j)
  hextx : (∀ l, l ∈ P → isIncomplete l = false) →
    ExtInv st.maxx st.minx (fun w => ∃ j, j < st.i ∧ w = st.x j)

/-! ## Facts about the loops of `CDF` -/

theorem shiftLoop_eq (k : Nat) : ∀ (n j it : Nat), j + n = k - 1 → 1 ≤ j →
    shiftLoop k j it = it * 2 ^ n := by
  intro n
  induction n with
  | zero =>
    intro j it h _
    rw [shiftLoop, if_neg (by omega)]
    simp
  | succ n ih =>
    intro j it h hj
    rw [shiftLoop, if_pos (by omega), ih (j + 1) (it <<< 1) (by omega) (by omega)]
    rw [Nat.shiftLeft_eq, pow_succ]
    ring

/-- After the shift loop, `it = 2^(k-2)`. -/
theorem shiftLoop_two_pow (k : Nat) (hk : 2 ≤ k) : shiftLoop k 1 1 = 2 ^ (k - 2) := by
  rw [shiftLoop_eq k (k - 2) 1 1 (by omega) (by omega)]
  simp

/-- The C variable `it` has type `int`: it stays below `2^31` for every `k` of the
loop, so the shift never wraps around. -/
theorem shiftLoop_lt (k : Nat) (hk : 2 ≤ k) (hk' : k ≤ JMAX) : shiftLoop k 1 1 < 2 ^ 31 := by
  rw [shiftLoop_two_pow k hk]
  exact Nat.pow_lt_pow_right (by norm_num) (by unfold JMAX at hk'; omega)

/-- The midpoint loop adds to `sum` the values of `pdf` at the `it - j` points
`x, x + del, x + 2 del, ...`. -/
theorem midpointLoop_eq (pdf : α → α) (del : α) (it : Nat) : ∀ (n j : Nat) (x sum : α),
    j + n = it → midpointLoop pdf del it j x sum
      = sum + ∑ i in Finset.range n, pdf (x + (i : α) * del) := by
  intro n
  induction n with
  | zero =>
    intro j x sum h
    rw [midpointLoop, if_neg (by omega)]
    simp
  | succ n ih =>
    intro j x sum h
    rw [midpointLoop, if_pos (by omega), ih (j + 1) (x + del) (sum + pdf x) (by omega)]
    rw [Finset.sum_range_succ', add_assoc]
    congr 1
    rw [add_comm]
    congr 1
    · apply Finset.sum_congr rfl
      intro i _
      congr 1
      push_cast
      ring
    · simp

/-- The refinement step in closed form: with `it = 2^(k-2)` and `del = b/it`, the
step adds the `it - 1` points `(i + 1/2) del`, `i = 0 .. it - 2`. -/
theorem refineStep_eq (pdf : α → α) (b : α) (k : Nat) (hk : 2 ≤ k) (s : α) :
    refineStep pdf b k s
      = 0.5 * (s + b / (2 : α) ^ (k - 2) *
          ∑ i in Finset.range (2 ^ (k - 2) - 1),
            pdf (0.5 * (b / (2 : α) ^ (k - 2)) + (i : α) * (b / (2 : α) ^ (k - 2)))) := by
  have hpos : 1 ≤ 2 ^ (k - 2) := Nat.one_le_two_pow
  unfold refineStep
  simp only [shiftLoop_two_pow k hk]
  rw [midpointLoop_eq pdf _ (2 ^ (k - 2)) (2 ^ (k - 2) - 1) 1 _ 0 (by omega)]
  simp

theorem estimate_one (pdf : α → α) (b : α) : estimate pdf b 1 = 0.5 * b * pdf b := by
  simp [estimate]

theorem estimate_succ (pdf : α → α) (b : α) (k : Nat) (hk : 1 ≤ k) :
    estimate pdf b (k + 1) = refineStep pdf b (k + 1) (estimate pdf b k) := by
  rw [estimate, if_neg (by omega)]

/-- The main loop of `CDF`, entered at iteration `k` with `s` the estimate of
iteration `k - 1`: it returns the estimate of the first iteration `m ≥ max k 6`
that passes the convergence test, and the fallback when there is none. -/
theorem cdfLoop_spec (pdf : α → α) (b : α) : ∀ (n k : Nat) (olds : α),
    k + n = JMAX + 1 → 2 ≤ k → (5 < k → olds = estimate pdf b (k - 1)) →
    (∃ m, k ≤ m ∧ 6 ≤ m ∧ m ≤ JMAX ∧ convergedAt pdf b m ∧
        (∀ j, k ≤ j → 6 ≤ j → j < m → ¬ convergedAt pdf b j) ∧
        cdfLoop pdf b k (estimate pdf b (k - 1)) olds = (estimate pdf b m, false)) ∨
    ((∀ j, k ≤ j → 6 ≤ j → j ≤ JMAX → ¬ convergedAt pdf b j) ∧
        cdfLoop pdf b k (estimate pdf b (k - 1)) olds = (0, true)) := by
  intro n
  induction n with
  | zero =>
    intro k olds hk _ _
    right
    refine ⟨fun j h1 _ h3 => by omega, ?_⟩
    rw [cdfLoop, if_neg (by omega)]
    norm_num
  | succ n ih =>
    intro k olds hk h2 holds
    have hstep : refineStep pdf b k (estimate pdf b (k - 1)) = estimate pdf b k := by
      have := estimate_succ pdf b (k - 1) (by omega)
      rw [show k - 1 + 1 = k by omega] at this
      exact this.symm
    rw [cdfLoop, if_pos (by omega)]
    simp only [hstep]
    by_cases hc : k > 5 ∧ converged (estimate pdf b k) olds
    · rw [if_pos hc]
      left
      have hconv : convergedAt pdf b k := by
        unfold convergedAt
        rw [← holds hc.1]
        exact hc.2
      exact ⟨k, le_refl k, hc.1, by omega, hconv, fun j h1 _ h3 => by omega, rfl⟩
    · rw [if_neg hc]
      have hnot : 6 ≤ k → ¬ convergedAt pdf b k := by
        intro h6 hcv
        apply hc
        refine ⟨h6, ?_⟩
        rw [holds h6]
        exact hcv
      have key := ih (k + 1) (estimate pdf b k) (by omega) (by omega) (fun _ => by simp)
      simp only [Nat.add_sub_cancel] at key
      rcases key with ⟨m, hm1, hm2, hm3, hm4, hm5, hm6⟩ | ⟨hall, hres⟩
      · left
        refine ⟨m, by omega, hm2, hm3, hm4, ?_, hm6⟩
        intro j hj1 hj2 hj3
        rcases Nat.eq_or_lt_of_le hj1 with h | h
        · rw [← h]; exact hnot (by omega)
        · exact hm5 j h hj2 hj3
      · right
        refine ⟨?_, hres⟩
        intro j hj1 hj2 hj3
        rcases Nat.eq_or_lt_of_le hj1 with h | h
        · rw [← h]; exact hnot (by omega)
        · exact hall j h hj2 hj3

/-- What `CDF` returns, for every density and bound: the estimate of the first
iteration `6 ≤ k ≤ JMAX` passing the convergence test, or the fallback `0.0` with
the diagnostic. -/
theorem CDFrun_spec (pdf : α → α) (b : α) :
    (∃ k, 6 ≤ k ∧ k ≤ JMAX ∧ convergedAt pdf b k ∧
        (∀ j, 6 ≤ j → j < k → ¬ convergedAt pdf b j) ∧
        CDFrun pdf b = (estimate pdf b k, false)) ∨
    ((∀ k, 6 ≤ k → k ≤ JMAX → ¬ convergedAt pdf b k) ∧ CDFrun pdf b = (0, true)) := by
  have key := cdfLoop_spec pdf b (JMAX - 1) 2 0 (by unfold JMAX; omega) (le_refl 2)
    (fun h => by omega)
  have h1 : estimate pdf b (2 - 1) = 0.5 * b * pdf b := estimate_one pdf b
  rw [h1] at key
  unfold CDFrun
  rcases key with ⟨m, hm1, hm2, hm3, hm4, hm5, hm6⟩ | ⟨hall, hres⟩
  · left
    exact ⟨m, hm2, hm3, hm4, fun j h6 hlt => hm5 j (by omega) h6 hlt, hm6⟩
  · right
    exact ⟨fun k h6 hle => hall k (by omega) h6 hle, hres⟩

/-! ## The integrator on the density `pdf(x) = x` -/

theorem sum_arith (x d : α) (n : Nat) :
    ∑ i in Finset.range n, (x + (i : α) * d) = (n : α) * x + d * ((n : α) * ((n : α) - 1) / 2) := by
  induction n with
  | zero => simp
  | succ n ih =>
    rw [Finset.sum_range_succ, ih]
    push_cast
    ring

/-- One refinement step on `pdf(x) = x`: the `2^m - 1` midpoints the loop visits
contribute `(b^2/2) (1 - 1/2^m)^2`. -/
theorem refineStep_id (b : α) (m : Nat) (s : α) :
    refineStep (fun x => x) b (m + 2) s
      = (s + b ^ 2 / 2 * (1 - 1 / (2 : α) ^ m) ^ 2) / 2 := by
  rw [refineStep_eq (fun x => x) b (m + 2) (by omega) s]
  simp only [Nat.add_sub_cancel]
  rw [sum_arith]
  have hpos : 1 ≤ 2 ^ m := Nat.one_le_two_pow
  rw [Nat.cast_sub hpos]
  push_cast
  have h2 : (2 : α) ^ m ≠ 0 := by positivity
  field_simp
  ring

/-- The estimates of `CDF` on `pdf(x) = x`, in closed form. -/
theorem estimate_id (b : α) (m : Nat) :
    estimate (fun x => x) b (m + 1)
      = b ^ 2 / 2 * (1 - (4 * ((m : α) + 1) - 8) / (2 : α) ^ (m + 1) - 8 / ((2 : α) ^ (m + 1)) ^ 2) := by
  induction m with
  | zero =>
    rw [estimate_one]
    norm_num
    ring
  | succ m ih =>
    rw [estimate_succ _ _ _ (by omega), refineStep_id, ih]
    have h2 : (2 : α) ^ m ≠ 0 := by positivity
    push_cast
    field_simp
    ring

/-- The convergence test is invariant under a common positive factor. -/
theorem converged_mul (c : α) (hc : 0 < c) (x y : α) :
    converged (c * x) (c * y) ↔ converged x y := by
  unfold converged
  have h1 : |c * x - c * y| = c * |x - y| := by
    rw [← mul_sub, abs_mul, abs_of_pos hc]
  have h2 : EPS * |c * y| = c * (EPS * |y|) := by
    rw [abs_mul, abs_of_pos hc]; ring
  have h3 : c * x = 0 ↔ x = 0 := by
    constructor
    · intro h; rcases mul_eq_zero.mp h with h | h
      · exact absurd h (ne_of_gt hc)
      · exact h
    · intro h; rw [h, mul_zero]
  have h4 : c * y = 0 ↔ y = 0 := by
    constructor
    · intro h; rcases mul_eq_zero.mp h with h | h
      · exact absurd h (ne_of_gt hc)
      · exact h
    · intro h; rw [h, mul_zero]
  rw [h1, h2, h3, h4, mul_lt_mul_left hc]

/-- The convergence test between a positive estimate and a larger one. -/
theorem converged_iff_of_le (x y : α) (hy : 0 < y) (hxy : y ≤ x) :
    converged x y ↔ x - y < EPS * y := by
  unfold converged
  rw [abs_of_nonneg (sub_nonneg.mpr hxy), abs_of_pos hy]
  constructor
  · rintro (h | ⟨_, h⟩)
    · exact h
    · exact absurd h (ne_of_gt hy)
  · intro h; exact Or.inl h

theorem estimate_id_ratio (b : α) (k : Nat) (hk : 1 ≤ k) :
    estimate (fun x => x) b k = b ^ 2 / 2 * idRatio k := by
  obtain ⟨m, rfl⟩ : ∃ m, k = m + 1 := ⟨k - 1, by omega⟩
  rw [estimate_id]
  unfold idRatio
  push_cast
  ring

theorem convergedAt_id_iff (b : α) (hb : 0 < b) (k : Nat) (hk : 2 ≤ k) :
    convergedAt (fun x => x) b k ↔ converged (idRatio k : α) (idRatio (k - 1)) := by
  unfold convergedAt
  rw [estimate_id_ratio b k (by omega), estimate_id_ratio b (k - 1) (by omega)]
  exact converged_mul (b ^ 2 / 2) (by positivity) _ _

theorem not_convergedAt_id (b : α) (hb : 0 < b) (j : Nat) (h6 : 6 ≤ j) (h23 : j < 23) :
    ¬ convergedAt (fun x => x) b j := by
  rw [convergedAt_id_iff b hb j (by omega)]
  interval_cases j <;>
  · rw [converged_iff_of_le _ _ (by norm_num [idRatio]) (by norm_num [idRatio])]
    norm_num [idRatio, EPS]

theorem convergedAt_id_23 (b : α) (hb : 0 < b) : convergedAt (fun x => x) b 23 := by
  rw [convergedAt_id_iff b hb 23 (by omega)]
  rw [converged_iff_of_le _ _ (by norm_num [idRatio]) (by norm_num [idRatio])]
  norm_num [idRatio, EPS]

/-- On `pdf(x) = x` and `b > 0`, `CDF` leaves its loop in iteration 23 and returns
`(b^2/2) (1 - 84/2^23 - 8/2^46)`. -/
theorem CDFrun_id (b : α) (hb : 0 < b) :
    CDFrun (fun x => x) b = (b ^ 2 / 2 * idRatio 23, false) := by
  rcases CDFrun_spec (fun x => x) b with ⟨k, h6, _, hk, hmin, hres⟩ | ⟨hall, _⟩
  · have hk23 : k = 23 := by
      rcases Nat.lt_trichotomy k 23 with h | h | h
      · exact absurd hk (not_convergedAt_id b hb k h6 h)
      · exact h
      · exact absurd (convergedAt_id_23 b hb) (hmin 23 (by omega) h)
    rw [hres, hk23, estimate_id_ratio b 23 (by omega)]
  · exact absurd (convergedAt_id_23 b hb) (hall 23 (by omega) (by unfold JMAX; omega))

/-! ## Facts about tables and scans -/

theorem readF_nat (F : List α) (k : Nat) : readF F (k : Int) = F[k]? := by
  unfold readF
  rw [if_pos (by omega)]
  simp

theorem readF_pred (F : List α) (k : Nat) (hk : 1 ≤ k) : readF F ((k : Int) - 1) = F[k - 1]? := by
  have h : ((k : Int) - 1) = ((k - 1 : Nat) : Int) := by omega
  rw [h, readF_nat]

theorem readF_neg (F : List α) : readF F ((0 : Nat) - 1 : Int) = none := by
  unfold readF
  rw [if_neg (by omega)]

theorem dataTable_length (CDFunc : α → α → α) (param min_value h CFmin : α) :
    (dataTable CDFunc param min_value h CFmin).length = N + 1 := by
  simp [dataTable]

theorem dataTable_get (CDFunc : α → α → α) (param min_value h CFmin : α) (i : Nat)
    (hi : i ≤ N) :
    (dataTable CDFunc param min_value h CFmin)[i]?
      = some (if i = 0 then 0 else CDFunc param (min_value + (i : α) * h) - CFmin) := by
  unfold dataTable
  rw [List.getElem?_map, List.getElem?_range (by omega)]
  rfl

theorem dataTable_get_none (CDFunc : α → α → α) (param min_value h CFmin : α) (i : Nat)
    (hi : N < i) : (dataTable CDFunc param min_value h CFmin)[i]? = none := by
  apply List.getElem?_eq_none
  rw [dataTable_length]
  omega

theorem ellipTable_get (e_pdf : α → α) (h : α) (i : Nat) (hi : i ≤ N) :
    (ellipTable e_pdf h)[i]? = some (if i = 0 then 0 else CDF e_pdf ((i : α) * h)) := by
  unfold ellipTable
  rw [List.getElem?_map, List.getElem?_range (by omega)]
  rfl

/-- Where the bounded scan stops: every entry passed is below `u`, and the entry at
the stop, when the stop is inside the table, is at least `u`. -/
theorem scanData_spec (F : List α) (u : α) : ∀ (n k m : Nat), k + n = N + 1 →
    scanData F u k = some m →
    k ≤ m ∧ m ≤ N + 1 ∧ (∀ j, k ≤ j → j < m → ∃ a, F[j]? = some a ∧ a < u) ∧
      (m ≤ N → ∃ b, F[m]? = some b ∧ u ≤ b) := by
  intro n
  induction n with
  | zero =>
    intro k m hk hs
    rw [scanData, if_neg (by omega)] at hs
    have hm : k = m := by simpa using hs
    subst hm
    exact ⟨le_refl _, by omega, fun j h1 h2 => by omega, fun h => by omega⟩
  | succ n ih =>
    intro k m hk hs
    rw [scanData, if_pos (by omega), readF_nat] at hs
    cases hFk : F[k]? with
    | none => rw [hFk] at hs; simp at hs
    | some Fk =>
      rw [hFk] at hs
      simp only at hs
      by_cases hu : u > Fk
      · rw [if_pos hu] at hs
        obtain ⟨h1, h2, h3, h4⟩ := ih (k + 1) m (by omega) hs
        refine ⟨by omega, h2, ?_, h4⟩
        intro j hj1 hj2
        rcases Nat.eq_or_lt_of_le hj1 with h | h
        · rw [← h]; exact ⟨Fk, hFk, hu⟩
        · exact h3 j h hj2
      · rw [if_neg hu] at hs
        have hm : k = m := by simpa using hs
        subst hm
        exact ⟨le_refl _, by omega, fun j h1 h2 => by omega,
          fun _ => ⟨Fk, hFk, not_lt.mp hu⟩⟩

/-- The bounded scan returns on every table of `N + 1` entries. -/
theorem scanData_total (F : List α) (hF : F.length = N + 1) (u : α) : ∀ (n k : Nat),
    k + n = N + 1 → ∃ m, scanData F u k = some m := by
  intro n
  induction n with
  | zero =>
    intro k hk
    rw [scanData, if_neg (by omega)]
    exact ⟨k, rfl⟩
  | succ n ih =>
    intro k hk
    rw [scanData, if_pos (by omega), readF_nat]
    have hlt : k < F.length := by omega
    rw [List.getElem?_eq_getElem hlt]
    simp only
    by_cases hu : u > F[k]
    · rw [if_pos hu]; exact ih (k + 1) (by omega)
    · rw [if_neg hu]; exact ⟨k, rfl⟩

/-- Where the unbounded scan of `generate_ellipticity` stops, when it stops. -/
theorem scanEllip_spec (F : List α) (u : α) : ∀ (n k m : Nat), k + n = F.length →
    scanEllip F u k = some m →
    k ≤ m ∧ m < F.length ∧ (∀ j, k ≤ j → j < m → ∃ a, F[j]? = some a ∧ a < u) ∧
      (∃ b, F[m]? = some b ∧ u ≤ b) := by
  intro n
  induction n with
  | zero =>
    intro k m hk hs
    rw [scanEllip, dif_neg (by omega)] at hs
    simp at hs
  | succ n ih =>
    intro k m hk hs
    have hlt : k < F.length := by omega
    rw [scanEllip, dif_pos hlt] at hs
    by_cases hu : u > F[k]
    · rw [if_pos hu] at hs
      obtain ⟨h1, h2, h3, h4⟩ := ih (k + 1) m (by omega) hs
      refine ⟨by omega, h2, ?_, h4⟩
      intro j hj1 hj2
      rcases Nat.eq_or_lt_of_le hj1 with h | h
      · rw [← h]; exact ⟨F[k], List.getElem?_eq_getElem hlt, hu⟩
      · exact h3 j h hj2
    · rw [if_neg hu] at hs
      have hm : k = m := by simpa using hs
      subst hm
      exact ⟨le_refl _, hlt, fun j h1 h2 => by omega,
        ⟨F[k], List.getElem?_eq_getElem hlt, not_lt.mp hu⟩⟩

/-! ## Facts about the inversion step -/

/-- A scan that stops inside the table at `k ≥ 1` brackets the draw:
`F[k-1] < u ≤ F[k]`. -/
theorem scanData_bracket (F : List α) (u : α) (k : Nat) (hs : scanData F u 0 = some k)
    (h1 : 1 ≤ k) (hN : k ≤ N) :
    ∃ a b, F[k - 1]? = some a ∧ F[k]? = some b ∧ a < u ∧ u ≤ b := by
  obtain ⟨_, _, h3, h4⟩ := scanData_spec F u (N + 1) 0 k (by omega) hs
  obtain ⟨a, ha, hau⟩ := h3 (k - 1) (by omega) (by omega)
  obtain ⟨b, hb, hub⟩ := h4 hN
  exact ⟨a, b, ha, hb, hau, hub⟩

theorem scanEllip_bracket (F : List α) (u : α) (k : Nat) (hs : scanEllip F u 0 = some k)
    (h1 : 1 ≤ k) :
    ∃ a b, F[k - 1]? = some a ∧ F[k]? = some b ∧ a < u ∧ u ≤ b := by
  obtain ⟨_, _, h3, h4⟩ := scanEllip_spec F u F.length 0 k (by omega) hs
  obtain ⟨a, ha, hau⟩ := h3 (k - 1) (by omega) (by omega)
  obtain ⟨b, hb, hub⟩ := h4
  exact ⟨a, b, ha, hb, hau, hub⟩

theorem sampleData_of_scan (F : List α) (min_value h u : α) (k : Nat) (a b : α)
    (hs : scanData F u 0 = some k) (h1 : 1 ≤ k) (ha : F[k - 1]? = some a)
    (hb : F[k]? = some b) :
    sampleData F min_value h u
      = some (min_value + h * ((k : α) - 1) + h * (u - a) / (b - a)) := by
  unfold sampleData
  rw [hs]
  simp only [Option.bind_eq_bind, Option.some_bind]
  rw [readF_pred F k h1, readF_nat, ha, hb]
  simp

theorem sampleData_some (F : List α) (hF : F.length = N + 1) (min_value h u x : α)
    (hx : sampleData F min_value h u = some x) :
    ∃ k a b, scanData F u 0 = some k ∧ 1 ≤ k ∧ k ≤ N ∧ F[k - 1]? = some a ∧
      F[k]? = some b ∧ a < u ∧ u ≤ b ∧
      x = min_value + h * ((k : α) - 1) + h * (u - a) / (b - a) := by
  obtain ⟨k, hk⟩ := scanData_total F hF u (N + 1) 0 (by omega)
  have h1 : 1 ≤ k := by
    by_contra hcon
    have hk0 : k = 0 := by omega
    subst hk0
    unfold sampleData at hx
    rw [hk] at hx
    simp only [Option.bind_eq_bind, Option.some_bind] at hx
    rw [readF_neg] at hx
    simp at hx
  have hN : k ≤ N := by
    by_contra hcon
    unfold sampleData at hx
    rw [hk] at hx
    simp only [Option.bind_eq_bind, Option.some_bind] at hx
    rw [readF_nat F k, List.getElem?_eq_none (by omega)] at hx
    cases hr : readF F ((k : Int) - 1) <;> rw [hr] at hx <;> simp at hx
  obtain ⟨a, b, ha, hb, hau, hub⟩ := scanData_bracket F u k hk h1 hN
  refine ⟨k, a, b, hk, h1, hN, ha, hb, hau, hub, ?_⟩
  rw [sampleData_of_scan F min_value h u k a b hk h1 ha hb] at hx
  exact (Option.some.inj hx).symm

/-- The interpolated value lies in the sub-interval `k` of the grid. -/
theorem interp_bounds (min_value h u a b : α) (k : Nat) (hh : 0 < h) (hau : a < u)
    (hub : u ≤ b) :
    min_value + h * ((k : α) - 1) < min_value + h * ((k : α) - 1) + h * (u - a) / (b - a) ∧
      min_value + h * ((k : α) - 1) + h * (u - a) / (b - a) ≤ min_value + h * (k : α) := by
  have hba : 0 < b - a := by linarith
  have hua : 0 < u - a := by linarith
  have hpos : 0 < h * (u - a) / (b - a) := by positivity
  have hle : h * (u - a) / (b - a) ≤ h := by
    rw [div_le_iff₀ hba]
    have : u - a ≤ b - a := by linarith
    exact mul_le_mul_of_nonneg_left this (le_of_lt hh)
  constructor
  · linarith
  · linarith

theorem genAfter_shift {σ : Type} (rng : σ → α × σ) (gen : σ) (n : Nat) :
    genAfter rng (rng gen).2 n = genAfter rng gen (n + 1) := by
  induction n with
  | zero => rfl
  | succ n ih =>
    show (rng (genAfter rng (rng gen).2 n)).2 = (rng (genAfter rng gen (n + 1))).2
    rw [ih]

/-- What the sampling loop writes: entry `j` is the inversion of the draw of
iteration `j`, and entries outside `i .. nr-1` keep their contents. -/
theorem dataLoop_spec {σ : Type} (rng : σ → α × σ) (F : List α) (min_value h CFrange : α)
    (nr : Int) : ∀ (n i : Nat) (gen : σ) (data data' : Nat → α) (gen' : σ),
    (nr - i).toNat = n →
    dataLoop rng F min_value h CFrange nr i gen data = some (data', gen') →
    (∀ j : Nat, i ≤ j → (j : Int) < nr →
        sampleData F min_value h (drawOf rng gen CFrange (j - i)) = some (data' j)) ∧
      (∀ j : Nat, (j < i ∨ nr ≤ (j : Int)) → data' j = data j) := by
  intro n
  induction n with
  | zero =>
    intro i gen data data' gen' hn hrun
    rw [dataLoop, if_neg (by omega)] at hrun
    have h1 : data = data' := by
      have := Option.some.inj hrun
      exact (Prod.mk.inj this).1
    subst h1
    exact ⟨fun j h1 h2 => by omega, fun j _ => rfl⟩
  | succ n ih =>
    intro i gen data data' gen' hn hrun
    rw [dataLoop, if_pos (by omega)] at hrun
    simp only at hrun
    cases hx : sampleData F min_value h ((rng gen).1 * CFrange) with
    | none => rw [hx] at hrun; simp at hrun
    | some x =>
      rw [hx] at hrun
      simp only at hrun
      obtain ⟨ih1, ih2⟩ := ih (i + 1) (rng gen).2 (Function.update data i x) data' gen'
        (by omega) hrun
      constructor
      · intro j hj1 hj2
        rcases Nat.eq_or_lt_of_le hj1 with hji | hji
        · subst hji
          rw [ih2 i (Or.inl (by omega))]
          simp only [Nat.sub_self, Function.update_same]
          exact hx
        · have := ih1 j (by omega) hj2
          rw [← this]
          unfold drawOf uniformOf
          rw [genAfter_shift, show j - (i + 1) + 1 = j - i by omega]
      · intro j hj
        rw [ih2 j (by omega)]
        apply Function.update_noteq
        omega

/-- The sampling loop returns when every inversion of its draws does. -/
theorem dataLoop_total {σ : Type} (rng : σ → α × σ) (F : List α) (min_value h CFrange : α)
    (nr : Int) : ∀ (n i : Nat) (gen : σ) (data : Nat → α),
    (nr - i).toNat = n →
    (∀ j : Nat, i ≤ j → (j : Int) < nr →
        ∃ x, sampleData F min_value h (drawOf rng gen CFrange (j - i)) = some x) →
    ∃ data' gen', dataLoop rng F min_value h CFrange nr i gen data = some (data', gen') := by
  intro n
  induction n with
  | zero =>
    intro i gen data hn _
    rw [dataLoop, if_neg (by omega)]
    exact ⟨data, gen, rfl⟩
  | succ n ih =>
    intro i gen data hn hall
    rw [dataLoop, if_pos (by omega)]
    simp only
    obtain ⟨x, hx⟩ := hall i (le_refl i) (by omega)
    simp only [Nat.sub_self] at hx
    have hx' : sampleData F min_value h ((rng gen).1 * CFrange) = some x := hx
    rw [hx']
    simp only
    apply ih (i + 1) (rng gen).2 (Function.update data i x) (by omega)
    intro j hj1 hj2
    obtain ⟨y, hy⟩ := hall j (by omega) hj2
    refine ⟨y, ?_⟩
    rw [← hy]
    unfold drawOf uniformOf
    rw [genAfter_shift, show j - (i + 1) + 1 = j - i by omega]

theorem generate_random_data_eq {σ : Type} (rng : σ → α × σ) (gen : σ) (nr : Int)
    (data : Nat → α) (min_value max_value : α) (CDFunc : α → α → α) (param : α) :
    generate_random_data rng gen nr data min_value max_value CDFunc param
      = dataLoop rng (tableOf CDFunc param min_value max_value) min_value
          (stepOf min_value max_value) (CFrangeOf CDFunc param min_value max_value)
          nr 0 gen data := rfl

/-! ## Facts about the table of `generate_random_data` -/

theorem N_cast_pos : (0 : α) < (N : α) := by
  unfold N; norm_num

theorem tableOf_length (CDFunc : α → α → α) (param min_value max_value : α) :
    (tableOf CDFunc param min_value max_value).length = N + 1 :=
  dataTable_length _ _ _ _ _

/-- Every entry of the table is `CDFunc(param, min_value + i*h) - CFmin` (for
`i = 0` this is the stored `0`). -/
theorem tableOf_get (CDFunc : α → α → α) (param min_value max_value : α) (i : Nat)
    (hi : i ≤ N) :
    (tableOf CDFunc param min_value max_value)[i]?
      = some (CDFunc param (min_value + (i : α) * stepOf min_value max_value)
          - CDFunc param min_value) := by
  unfold tableOf
  rw [dataTable_get _ _ _ _ _ i hi]
  by_cases h0 : i = 0
  · subst h0; simp
  · rw [if_neg h0]

theorem grid_last (min_value max_value : α) :
    min_value + (N : α) * stepOf min_value max_value = max_value := by
  unfold stepOf
  have hN : (N : α) ≠ 0 := ne_of_gt N_cast_pos
  field_simp

theorem tableOf_last (CDFunc : α → α → α) (param min_value max_value : α) :
    (tableOf CDFunc param min_value max_value)[N]?
      = some (CFrangeOf CDFunc param min_value max_value) := by
  rw [tableOf_get _ _ _ _ N (le_refl N), grid_last]
  rfl

theorem tableOf_zero (CDFunc : α → α → α) (param min_value max_value : α) :
    (tableOf CDFunc param min_value max_value)[0]? = some 0 := by
  unfold tableOf
  rw [dataTable_get _ _ _ _ _ 0 (Nat.zero_le _)]
  simp

theorem stepOf_nonneg (min_value max_value : α) (hle : min_value ≤ max_value) :
    0 ≤ stepOf min_value max_value := by
  unfold stepOf
  exact div_nonneg (sub_nonneg.mpr hle) (le_of_lt N_cast_pos)

theorem stepOf_pos (min_value max_value : α) (hlt : min_value < max_value) :
    0 < stepOf min_value max_value := by
  unfold stepOf
  exact div_pos (sub_pos.mpr hlt) N_cast_pos

/-- The grid point `min_value + i*h`, `i ≤ N`, lies in `[min_value, max_value]`. -/
theorem grid_mem (min_value max_value : α) (hle : min_value ≤ max_value) (i : Nat)
    (hi : i ≤ N) :
    min_value ≤ min_value + (i : α) * stepOf min_value max_value ∧
      min_value + (i : α) * stepOf min_value max_value ≤ max_value := by
  have hh := stepOf_nonneg min_value max_value hle
  have hi' : (i : α) ≤ (N : α) := by exact_mod_cast hi
  have h0 : (0 : α) ≤ (i : α) := Nat.cast_nonneg i
  constructor
  · have := mul_nonneg h0 hh
    linarith
  · have h1 := mul_le_mul_of_nonneg_right hi' hh
    have h2 := grid_last min_value max_value
    linarith

/-! ## Facts about the interpolant of the specification -/

theorem segmentOf_eq (min_value h x : α) (k : Nat) (hx : x ≤ min_value + (k : α) * h) :
    ∀ (n j : Nat), j ≤ k → k ≤ j + n →
      (∀ i, j ≤ i → i < k → ¬ x ≤ min_value + (i : α) * h) →
      segmentOf min_value h x n j = k := by
  intro n
  induction n with
  | zero =>
    intro j h1 h2 _
    show j = k
    omega
  | succ n ih =>
    intro j h1 h2 h3
    show (if x ≤ min_value + (j : α) * h then j else segmentOf min_value h x n (j + 1)) = k
    rcases Nat.eq_or_lt_of_le h1 with hjk | hjk
    · subst hjk
      rw [if_pos hx]
    · rw [if_neg (h3 j (le_refl j) hjk)]
      exact ih (j + 1) (by omega) (by omega) (fun i hi1 hi2 => h3 i (by omega) hi2)

/-- On the sub-interval `k` of the grid, the interpolant is the line through
`(min_value + (k-1) h, F[k-1])` and `(min_value + k h, F[k])`. -/
theorem interpolant_on_segment (F : List α) (min_value h x a b : α) (k : Nat) (hh : 0 < h)
    (h1 : 1 ≤ k) (hN : k ≤ N) (ha : F[k - 1]? = some a) (hb : F[k]? = some b)
    (hlo : k = 1 ∨ min_value + ((k : α) - 1) * h < x)
    (hhi : x ≤ min_value + (k : α) * h) :
    interpolant F min_value h x
      = a + (x - (min_value + ((k : α) - 1) * h)) / h * (b - a) := by
  have hseg : segmentOf min_value h x (N - 1) 1 = k := by
    apply segmentOf_eq min_value h x k hhi (N - 1) 1 h1 (by omega)
    intro i hi1 hi2 hcon
    rcases hlo with hlo | hlo
    · omega
    have hik : (i : α) ≤ (k : α) - 1 := by
      have : i + 1 ≤ k := hi2
      have h' : ((i + 1 : Nat) : α) ≤ (k : α) := by exact_mod_cast this
      push_cast at h'
      linarith
    have := mul_le_mul_of_nonneg_right hik (le_of_lt hh)
    linarith
  unfold interpolant
  simp only [hseg, List.getD_eq_getElem?_getD, ha, hb, Option.getD_some]
  rw [Nat.cast_sub h1]
  simp

/-- The interpolant of the specification passes through the points
`(min_value + j*h, F[j])`, `j = 0..N`. -/
theorem interpolant_node (F : List α) (hF : F.length = N + 1) (min_value h : α) (hh : 0 < h)
    (j : Nat) (hj : j ≤ N) :
    some (interpolant F min_value h (min_value + (j : α) * h)) = F[j]? := by
  have hne : h ≠ 0 := ne_of_gt hh
  have hN : 1 ≤ N := by unfold N; omega
  by_cases h0 : j = 0
  · subst h0
    have h0lt : 0 < F.length := by omega
    have h1lt : 1 < F.length := by omega
    rw [interpolant_on_segment F min_value h _ F[0] F[1] 1 hh (le_refl 1) hN
      (List.getElem?_eq_getElem h0lt) (List.getElem?_eq_getElem h1lt)
      (Or.inl rfl) (by simp; linarith)]
    rw [List.getElem?_eq_getElem h0lt]
    simp
  · have hjlt : j < F.length := by omega
    have hj1lt : j - 1 < F.length := by omega
    rw [interpolant_on_segment F min_value h _ F[j - 1] F[j] j hh (by omega) hj
      (List.getElem?_eq_getElem hj1lt) (List.getElem?_eq_getElem hjlt)
      (Or.inr (by nlinarith)) (le_refl _)]
    rw [List.getElem?_eq_getElem hjlt]
    congr 1
    field_simp
    ring

/-! ## The integrator: refinement steps, convergence policy, example density -/

/-- The first refinement step of `CDF` evaluates no midpoint: `it = 1` and the loop
`for (...; j<it; ...)` is not entered, so `s` is only halved. -/
theorem estimate_two (pdf : α → α) (b : α) : estimate pdf b 2 = b * pdf b / 4 := by
  rw [estimate_succ pdf b 1 (le_refl 1), estimate_one, refineStep_eq pdf b 2 (le_refl 2)]
  norm_num
  ring

/-- For every density with `pdf(0) = 0`, the estimate after the first refinement step
is the trapezoidal rule on two sub-intervals without the term of the midpoint `b/2`. -/
theorem estimate_two_trapezoid (pdf : α → α) (b : α) (h0 : pdf 0 = 0) :
    estimate pdf b 2 = trapezoid pdf b 2 - b / 2 * pdf (b / 2) := by
  rw [estimate_two]
  simp only [trapezoid, List.range_succ, List.range_zero, List.nil_append, List.map_cons,
    List.map_nil, List.sum_cons, List.sum_nil, h0]
  norm_num
  ring

/-- C1 (code defect): on `pdf(x) = x` (so `pdf(0) = 0`) and `b = 1`, the estimate held
after refinement step `k = 2` is `1/4`, whereas the composite trapezoidal rule on
`2^(k-1) = 2` sub-intervals is `1/2`: the midpoint loop `j<it` leaves out the last of
the `2^(k-2)` new midpoints (here the only one, `b/2`). -/
theorem estimate_differs_from_trapezoid :
    (fun x : ℚ => x) 0 = 0 ∧
      estimate (fun x : ℚ => x) 1 2 = 1 / 4 ∧
      trapezoid (fun x : ℚ => x) 1 (2 ^ (2 - 1)) = 1 / 2 ∧
      estimate (fun x : ℚ => x) 1 2 ≠ trapezoid (fun x : ℚ => x) 1 (2 ^ (2 - 1)) := by
  have h1 : estimate (fun x : ℚ => x) 1 2 = 1 / 4 := by
    rw [estimate_two]; norm_num
  have h2 : trapezoid (fun x : ℚ => x) 1 (2 ^ (2 - 1)) = 1 / 2 := by
    simp [trapezoid, List.range_succ]
    norm_num
  refine ⟨rfl, h1, h2, ?_⟩
  rw [h1, h2]
  norm_num

/-- C2: with `s_1 = 0.5*b*pdf(b)` and `s_k` the estimate after refinement step `k`,
`CDF(pdf, b)` returns `s_k` for the smallest `k` with `6 ≤ k ≤ 30` such that
`|s_k - s_(k-1)| < 1e-5 * |s_(k-1)|` or `s_k = s_(k-1) = 0`, without the diagnostic;
and when there is no such `k` it prints the diagnostic and returns `0.0`. -/
theorem CDF_convergence_policy (pdf : α → α) (b : α) :
    estimate pdf b 1 = 0.5 * b * pdf b ∧
    (∀ k, 2 ≤ k → estimate pdf b k = refineStep pdf b k (estimate pdf b (k - 1))) ∧
    ((∃ k, 6 ≤ k ∧ k ≤ 30 ∧
        (|estimate pdf b k - estimate pdf b (k - 1)| < 1.0e-5 * |estimate pdf b (k - 1)| ∨
          (estimate pdf b k = 0 ∧ estimate pdf b (k - 1) = 0)) ∧
        (∀ j, 6 ≤ j → j < k →
          ¬ (|estimate pdf b j - estimate pdf b (j - 1)| < 1.0e-5 * |estimate pdf b (j - 1)| ∨
            (estimate pdf b j = 0 ∧ estimate pdf b (j - 1) = 0))) ∧
        CDFrun pdf b = (estimate pdf b k, false) ∧ CDF pdf b = estimate pdf b k) ∨
      ((∀ k, 6 ≤ k → k ≤ 30 →
          ¬ (|estimate pdf b k - estimate pdf b (k - 1)| < 1.0e-5 * |estimate pdf b (k - 1)| ∨
            (estimate pdf b k = 0 ∧ estimate pdf b (k - 1) = 0))) ∧
        CDFrun pdf b = (0.0, true) ∧ CDF pdf b = 0.0)) := by
  refine ⟨estimate_one pdf b, ?_, ?_⟩
  · intro k hk
    have := estimate_succ pdf b (k - 1) (by omega)
    rw [show k - 1 + 1 = k by omega] at this
    exact this
  · rcases CDFrun_spec pdf b with ⟨k, h6, h30, hk, hmin, hres⟩ | ⟨hall, hres⟩
    · left
      refine ⟨k, h6, h30, hk, hmin, hres, ?_⟩
      unfold CDF; rw [hres]
    · right
      have h0 : ((0.0 : α), true) = ((0 : α), true) := by norm_num
      refine ⟨hall, ?_, ?_⟩
      · rw [hres, h0]
      · unfold CDF; rw [hres]; norm_num

/-- The value `CDF` returns on `pdf(x) = x` misses `b^2/2` by more than the
tolerance: the relative error is `84/2^23 + 8/2^46 > 1e-5`. -/
theorem CDF_id_error (b : α) (hb : 0 < b) :
    CDF (fun x => x) b = b ^ 2 / 2 * idRatio 23 ∧
      ¬ |CDF (fun x => x) b - b ^ 2 / 2| ≤ 1.0e-5 * (b ^ 2 / 2) := by
  have hres : CDF (fun x => x) b = b ^ 2 / 2 * idRatio 23 := by
    unfold CDF; rw [CDFrun_id b hb]
  refine ⟨hres, ?_⟩
  rw [hres]
  have hb2 : 0 < b ^ 2 / 2 := by positivity
  have hdiff : b ^ 2 / 2 * idRatio 23 - b ^ 2 / 2 = -(b ^ 2 / 2 * (1 - idRatio 23)) := by ring
  have h1 : (0 : α) < 1 - idRatio 23 := by norm_num [idRatio]
  rw [hdiff, abs_neg, abs_of_pos (mul_pos hb2 h1), not_le, mul_comm (1.0e-5 : α)]
  apply mul_lt_mul_of_pos_left _ hb2
  norm_num [idRatio]

/-- C3 (code defect): on `pdf(x) = x` and `b = 1`, `CDF` converges (iteration 23, no
fallback) but returns `8796004941823/17592186044416`, whose distance to the
closed-form integral `b^2/2 = 1/2` exceeds `1e-5 * (b^2/2)`. -/
theorem CDF_id_misses_tolerance :
    CDFrun (fun x : ℚ => x) 1 = (8796004941823 / 17592186044416, false) ∧
      ¬ |CDF (fun x : ℚ => x) 1 - 1 ^ 2 / 2| ≤ 1.0e-5 * (1 ^ 2 / 2) := by
  refine ⟨?_, (CDF_id_error (1 : ℚ) (by norm_num)).2⟩
  rw [CDFrun_id (1 : ℚ) (by norm_num)]
  norm_num [idRatio]

/-! ## The range sampler: inversion, safety of the reads, range of the samples -/

/-- The bounded scan stops at `k` when the entries before `k` are below `u` and the
entry `k` is not. -/
theorem scanData_of_bracket (F : List α) (hF : F.length = N + 1) (u : α) (k : Nat)
    (hN : k ≤ N) (hlo : ∀ j, j < k → ∃ a, F[j]? = some a ∧ a < u)
    (hhi : ∃ b, F[k]? = some b ∧ u ≤ b) : scanData F u 0 = some k := by
  obtain ⟨m, hm⟩ := scanData_total F hF u (N + 1) 0 (by omega)
  obtain ⟨_, _, h3, h4⟩ := scanData_spec F u (N + 1) 0 m (by omega) hm
  rcases Nat.lt_trichotomy m k with h | h | h
  · obtain ⟨a, ha, hau⟩ := hlo m h
    obtain ⟨b, hb, hub⟩ := h4 (by omega)
    rw [ha] at hb
    have := Option.some.inj hb
    subst this
    exact absurd hau (not_lt.mpr hub)
  · rw [hm, h]
  · obtain ⟨a, ha, hau⟩ := h3 k (Nat.zero_le k) h
    obtain ⟨b, hb, hub⟩ := hhi
    rw [ha] at hb
    have := Option.some.inj hb
    subst this
    exact absurd hau (not_lt.mpr hub)

/-- The draw `u = 0` stops the scan at `k = 0`, and the read `F[k-1]` is then the
read `F[-1]`, outside the table. -/
theorem sampleData_zero (F : List α) (hF : F[0]? = some 0) (min_value h : α) :
    scanData F 0 0 = some 0 ∧ sampleData F min_value h 0 = none := by
  have hs : scanData F (0 : α) 0 = some 0 := by
    rw [scanData, if_pos (Nat.zero_le _), readF_nat, hF]
    simp
  refine ⟨hs, ?_⟩
  unfold sampleData
  rw [hs]
  simp only [Option.bind_eq_bind, Option.some_bind]
  rw [readF_neg]
  rfl

/-- The inversion of one draw `0 < u < CFrange` on the table of
`generate_random_data`, for `min_value < max_value`. -/
theorem sample_inverse (CDFunc : α → α → α) (param min_value max_value u : α)
    (hlt : min_value < max_value) (h0 : 0 < u)
    (hu : u < CFrangeOf CDFunc param min_value max_value) :
    ∃ (k : Nat) (a b : α),
      scanData (tableOf CDFunc param min_value max_value) u 0 = some k ∧ 1 ≤ k ∧ k ≤ N ∧
      (tableOf CDFunc param min_value max_value)[k - 1]? = some a ∧
      (tableOf CDFunc param min_value max_value)[k]? = some b ∧ a < u ∧ u ≤ b ∧
      sampleData (tableOf CDFunc param min_value max_value) min_value
          (stepOf min_value max_value) u
        = some (min_value + stepOf min_value max_value * ((k : α) - 1)
            + stepOf min_value max_value * (u - a) / (b - a)) ∧
      interpolant (tableOf CDFunc param min_value max_value) min_value
          (stepOf min_value max_value)
          (min_value + stepOf min_value max_value * ((k : α) - 1)
            + stepOf min_value max_value * (u - a) / (b - a)) = u := by
  have hF := tableOf_length CDFunc param min_value max_value
  have hh := stepOf_pos min_value max_value hlt
  obtain ⟨k, hk⟩ := scanData_total _ hF u (N + 1) 0 (by omega)
  obtain ⟨_, hkN, h3, h4⟩ := scanData_spec _ u (N + 1) 0 k (by omega) hk
  have h1 : 1 ≤ k := by
    by_contra hcon
    have hk0 : k = 0 := by omega
    subst hk0
    obtain ⟨b, hb, hub⟩ := h4 (Nat.zero_le _)
    rw [tableOf_zero] at hb
    have := Option.some.inj hb
    subst this
    exact absurd h0 (not_lt.mpr hub)
  have hN : k ≤ N := by
    by_contra hcon
    obtain ⟨a, ha, hau⟩ := h3 N (Nat.zero_le _) (by omega)
    rw [tableOf_last] at ha
    have := Option.some.inj ha
    subst this
    exact absurd hu (not_lt.mpr (le_of_lt hau))
  obtain ⟨a, b, ha, hb, hau, hub⟩ := scanData_bracket _ u k hk h1 hN
  refine ⟨k, a, b, hk, h1, hN, ha, hb, hau, hub,
    sampleData_of_scan _ min_value _ u k a b hk h1 ha hb, ?_⟩
  obtain ⟨hlo, hhi⟩ := interp_bounds min_value (stepOf min_value max_value) u a b k hh hau hub
  rw [interpolant_on_segment _ min_value _ _ a b k hh h1 hN ha hb
    (Or.inr (by linarith)) (by linarith)]
  have hba : b - a ≠ 0 := ne_of_gt (by linarith)
  have hne : stepOf min_value max_value ≠ 0 := ne_of_gt hh
  field_simp
  ring

/-- C4: for a non-decreasing `CDFunc` with `CFrange > 0` and draws `0 < u < CFrange`,
`generate_random_data` returns, and every sample `x = data[i]` satisfies `L(x) = u`
for the piecewise-linear interpolant `L` through the points
`(min_value + j*h, F[j])`; for the linear ramp `CDFunc(param, x) = param*x` with
`param > 0` the sample of the uniform draw `r` is `min_value + r*(max_value - min_value)`. -/
theorem inverse_cdf_correct {σ : Type} (rng : σ → α × σ) (gen : σ) (nr : Int)
    (data : Nat → α) (min_value max_value : α) (CDFunc : α → α → α) (param : α)
    (hmono : Monotone (CDFunc param))
    (hrange : 0 < CFrangeOf CDFunc param min_value max_value)
    (hdraw : ∀ i : Nat, (i : Int) < nr →
      0 < drawOf rng gen (CFrangeOf CDFunc param min_value max_value) i ∧
      drawOf rng gen (CFrangeOf CDFunc param min_value max_value) i
        < CFrangeOf CDFunc param min_value max_value) :
    ∃ data' gen',
      generate_random_data rng gen nr data min_value max_value CDFunc param
        = some (data', gen') ∧
      ∀ i : Nat, (i : Int) < nr →
        interpolant (tableOf CDFunc param min_value max_value) min_value
            (stepOf min_value max_value) (data' i)
          = drawOf rng gen (CFrangeOf CDFunc param min_value max_value) i ∧
        ((∀ x, CDFunc param x = param * x) → 0 < param →
          data' i = min_value + uniformOf rng gen i * (max_value - min_value)) := by
  have hlt : min_value < max_value := by
    by_contra hcon
    have := hmono (not_lt.mp hcon)
    unfold CFrangeOf at hrange
    linarith
  have hh := stepOf_pos min_value max_value hlt
  rw [generate_random_data_eq]
  obtain ⟨data', gen', hrun⟩ := dataLoop_total rng (tableOf CDFunc param min_value max_value)
    min_value (stepOf min_value max_value) (CFrangeOf CDFunc param min_value max_value)
    nr (nr - (0 : Nat)).toNat 0 gen data rfl (by
      intro j _ hj
      obtain ⟨k, a, b, _, _, _, _, _, _, _, hsample, _⟩ :=
        sample_inverse CDFunc param min_value max_value _ hlt (hdraw j hj).1 (hdraw j hj).2
      exact ⟨_, hsample⟩)
  refine ⟨data', gen', hrun, ?_⟩
  intro i hi
  obtain ⟨hwritten, _⟩ := dataLoop_spec rng _ min_value _ _ nr _ 0 gen data data' gen' rfl hrun
  have hdi := hwritten i (Nat.zero_le _) hi
  simp only [Nat.sub_zero] at hdi
  obtain ⟨k, a, b, _, h1, hN, ha, hb, hau, hub, hsample, hinterp⟩ :=
    sample_inverse CDFunc param min_value max_value _ hlt (hdraw i hi).1 (hdraw i hi).2
  rw [hsample] at hdi
  have hx := Option.some.inj hdi
  refine ⟨by rw [← hx]; exact hinterp, ?_⟩
  intro hramp hparam
  rw [← hx]
  rw [tableOf_get _ _ _ _ (k - 1) (by omega)] at ha
  rw [tableOf_get _ _ _ _ k hN] at hb
  have ha' := Option.some.inj ha
  have hb' := Option.some.inj hb
  rw [hramp, hramp, Nat.cast_sub h1] at ha'
  rw [hramp, hramp] at hb'
  have hne : stepOf min_value max_value ≠ 0 := ne_of_gt hh
  have hpne : param ≠ 0 := ne_of_gt hparam
  have hdr : drawOf rng gen (CFrangeOf CDFunc param min_value max_value) i
      = uniformOf rng gen i * (param * max_value - param * min_value) := by
    unfold drawOf CFrangeOf
    rw [hramp, hramp]
  rw [hdr, ← ha', ← hb']
  push_cast
  have hden : param * (min_value + (k : α) * stepOf min_value max_value) - param * min_value
      - (param * (min_value + ((k : α) - 1) * stepOf min_value max_value) - param * min_value)
      = param * stepOf min_value max_value := by ring
  rw [hden]
  field_simp
  ring

/-- Witness of `inverse_cdf_correct`: the ramp `CDFunc(param, x) = param*x` with
`param = 1`, `min_value = 0`, `max_value = 10`, one draw `r = 1/2000`. -/
theorem inverse_cdf_correct_witness :
    ∃ (data' : Nat → ℚ) (gen' : Unit),
      generate_random_data (fun g : Unit => ((1 / 2000 : ℚ), g)) () 1 (fun _ => 0) 0 10
        (fun p x => p * x) 1 = some (data', gen') ∧
      ∀ i : Nat, (i : Int) < 1 →
        interpolant (tableOf (fun p x : ℚ => p * x) 1 0 10) 0 (stepOf 0 10) (data' i)
          = drawOf (fun g : Unit => ((1 / 2000 : ℚ), g)) ()
              (CFrangeOf (fun p x : ℚ => p * x) 1 0 10) i ∧
        ((∀ x : ℚ, (fun p x : ℚ => p * x) 1 x = 1 * x) → (0 : ℚ) < 1 →
          data' i = 0 + uniformOf (fun g : Unit => ((1 / 2000 : ℚ), g)) () i * (10 - 0)) :=
  inverse_cdf_correct (fun g : Unit => ((1 / 2000 : ℚ), g)) () 1 (fun _ => 0) 0 10
    (fun p x => p * x) 1
    (fun x y hxy => by simpa using hxy)
    (by norm_num [CFrangeOf])
    (fun i _ => by
      have hu : uniformOf (fun g : Unit => ((1 / 2000 : ℚ), g)) () i = 1 / 2000 := rfl
      unfold drawOf
      rw [hu]
      norm_num [CFrangeOf])

/-- C5 (code defect): on the ramp table (`CDFunc(param, x) = param*x`, `param = 1`,
`min_value = 0`, `max_value = 10`: non-decreasing, `F[0] = 0`, `F[N] = CFrange = 10`),
the draw `r = 0` of `[0, 1)` gives `u = 0`; the scan stops at `k = 0`, not at an index
`1 ≤ k`, the read `F[k-1]` is the read `F[-1]` outside the table, and
`generate_random_data` has no defined result. -/
theorem zero_draw_reads_outside_table :
    (tableOf (fun p x : ℚ => p * x) 1 0 10)[0]? = some 0 ∧
      (tableOf (fun p x : ℚ => p * x) 1 0 10)[N]? = some 10 ∧
      scanData (tableOf (fun p x : ℚ => p * x) 1 0 10)
        (0 * CFrangeOf (fun p x : ℚ => p * x) 1 0 10) 0 = some 0 ∧
      readF (tableOf (fun p x : ℚ => p * x) 1 0 10) (((0 : Nat) : Int) - 1) = none ∧
      generate_random_data (fun g : Unit => ((0 : ℚ), g)) () 1 (fun _ => 0) 0 10
        (fun p x => p * x) 1 = none := by
  have hz := tableOf_zero (fun p x : ℚ => p * x) 1 0 10
  have hs := sampleData_zero (tableOf (fun p x : ℚ => p * x) 1 0 10) hz 0 (stepOf 0 10)
  refine ⟨hz, ?_, ?_, readF_neg _, ?_⟩
  · rw [tableOf_last]; norm_num [CFrangeOf]
  · rw [zero_mul]; exact hs.1
  · rw [generate_random_data_eq, dataLoop, if_pos (by norm_num)]
    simp only [zero_mul]
    rw [hs.2]

/-- C6: for `min_value ≤ max_value`, every draw whose scan stops at an index
`1 ≤ k ≤ N` gives a sample in the sub-interval
`(min_value + h*(k-1), min_value + h*k]`, hence in `[min_value, max_value]`; and a run
of `generate_random_data` stores in `data[i]`, `i < nr`, the sample of the draw of
iteration `i`, and leaves every other entry of `data` as it was. -/
theorem samples_in_range (min_value max_value : α) (CDFunc : α → α → α) (param : α)
    (hle : min_value ≤ max_value) :
    (∀ (u : α) (k : Nat),
        scanData (tableOf CDFunc param min_value max_value) u 0 = some k → 1 ≤ k → k ≤ N →
        ∃ x, sampleData (tableOf CDFunc param min_value max_value) min_value
              (stepOf min_value max_value) u = some x ∧
          min_value + stepOf min_value max_value * ((k : α) - 1) < x ∧
          x ≤ min_value + stepOf min_value max_value * (k : α) ∧
          min_value ≤ x ∧ x ≤ max_value) ∧
    (∀ (σ : Type) (rng : σ → α × σ) (gen gen' : σ) (nr : Int) (data data' : Nat → α),
        generate_random_data rng gen nr data min_value max_value CDFunc param
          = some (data', gen') →
        (∀ i : Nat, (i : Int) < nr →
          sampleData (tableOf CDFunc param min_value max_value) min_value
            (stepOf min_value max_value)
            (drawOf rng gen (CFrangeOf CDFunc param min_value max_value) i)
            = some (data' i)) ∧
        (∀ j : Nat, nr ≤ (j : Int) → data' j = data j)) := by
  constructor
  · intro u k hk h1 hN
    obtain ⟨a, b, ha, hb, hau, hub⟩ := scanData_bracket _ u k hk h1 hN
    have hlt : min_value < max_value := by
      rcases lt_or_eq_of_le hle with h | h
      · exact h
      · exfalso
        have hstep : stepOf min_value max_value = 0 := by
          unfold stepOf; rw [h]; simp
        rw [tableOf_get _ _ _ _ (k - 1) (by omega), hstep] at ha
        rw [tableOf_get _ _ _ _ k hN, hstep] at hb
        have ha' := Option.some.inj ha
        have hb' := Option.some.inj hb
        simp only [mul_zero, add_zero, sub_self] at ha' hb'
        rw [← ha'] at hau
        rw [← hb'] at hub
        exact absurd hau (not_lt.mpr hub)
    have hh := stepOf_pos min_value max_value hlt
    obtain ⟨hlo, hhi⟩ := interp_bounds min_value (stepOf min_value max_value) u a b k hh hau hub
    refine ⟨_, sampleData_of_scan _ min_value _ u k a b hk h1 ha hb, hlo, hhi, ?_, ?_⟩
    · have hk1 : (0 : α) ≤ (k : α) - 1 := by
        have : (1 : α) ≤ (k : α) := by exact_mod_cast h1
        linarith
      have := mul_nonneg (le_of_lt hh) hk1
      linarith
    · have := (grid_mem min_value max_value hle k hN).2
      linarith
  · intro σ rng gen gen' nr data data' hrun
    rw [generate_random_data_eq] at hrun
    obtain ⟨hw, hframe⟩ := dataLoop_spec rng _ min_value _ _ nr _ 0 gen data data' gen' rfl hrun
    constructor
    · intro i hi
      have := hw i (Nat.zero_le _) hi
      simpa using this
    · intro j hj
      exact hframe j (Or.inr hj)

/-- Witness of `samples_in_range`: the ramp `CDFunc(param, x) = param*x` with
`param = 1` on `[0, 10]`. -/
theorem samples_in_range_witness :
    (0 : ℚ) ≤ 10 ∧
    ∃ x, sampleData (tableOf (fun p x : ℚ => p * x) 1 0 10) 0 (stepOf 0 10) (1 / 200) = some x ∧
      0 + stepOf 0 10 * (((1 : Nat) : ℚ) - 1) < x ∧
      x ≤ 0 + stepOf 0 10 * ((1 : Nat) : ℚ) ∧ 0 ≤ x ∧ x ≤ 10 :=
  ⟨by norm_num,
    (samples_in_range (0 : ℚ) 10 (fun p x => p * x) 1 (by norm_num)).1 (1 / 200) 1
      (scanData_of_bracket _ (tableOf_length _ _ _ _) _ 1 (by unfold N; omega)
        (fun j hj => by
          have hj0 : j = 0 := by omega
          subst hj0
          exact ⟨0, tableOf_zero _ _ _ _, by norm_num⟩)
        ⟨_, tableOf_get _ _ _ _ 1 (by unfold N; omega), by norm_num [stepOf, N]⟩)
      (le_refl 1) (by unfold N; omega)⟩

/-! ## Flat steps of the table, and the table invariant -/

/-- A scan (of either function) that stops at `k ≥ 1` gives the interpolation a
positive denominator. -/
theorem stop_denominator_pos (F : List α) (u : α) (k : Nat)
    (hs : scanData F u 0 = some k ∨ scanEllip F u 0 = some k) (h1 : 1 ≤ k) (hN : k ≤ N) :
    ∃ a b, readF F ((k : Int) - 1) = some a ∧ readF F (k : Int) = some b ∧
      a < u ∧ u ≤ b ∧ 0 < b - a := by
  have hbr : ∃ a b, F[k - 1]? = some a ∧ F[k]? = some b ∧ a < u ∧ u ≤ b := by
    rcases hs with hs | hs
    · exact scanData_bracket F u k hs h1 hN
    · exact scanEllip_bracket F u k hs h1
  obtain ⟨a, b, ha, hb, hau, hub⟩ := hbr
  refine ⟨a, b, ?_, ?_, hau, hub, by linarith⟩
  · rw [readF_pred F k h1]; exact ha
  · rw [readF_nat]; exact hb

/-- C7 (the claim as stated is false): there is no non-decreasing table `F[0..N]` with
`F[0] = 0` and a flat step, and no draw `u` in `(0, CFrange)`, for which the scan of
`generate_random_data` or of `generate_ellipticity` stops at an index `1 ≤ k ≤ N`
whose denominator `F[k] - F[k-1]` is zero. -/
theorem no_zero_denominator_at_stop :
    ¬ ∃ (F : List ℚ) (u : ℚ) (k : Nat),
        F.length = N + 1 ∧ F[0]? = some 0 ∧
        (∀ i, i < N → ∃ a b, F[i]? = some a ∧ F[i + 1]? = some b ∧ a ≤ b) ∧
        (∃ j, 1 ≤ j ∧ j ≤ N ∧ F[j]? = F[j - 1]?) ∧
        (∃ c, F[N]? = some c ∧ 0 < u ∧ u < c) ∧
        (scanData F u 0 = some k ∨ scanEllip F u 0 = some k) ∧ 1 ≤ k ∧ k ≤ N ∧
        ∃ a b, readF F ((k : Int) - 1) = some a ∧ readF F (k : Int) = some b ∧ b - a = 0 := by
  rintro ⟨F, u, k, _, _, _, _, _, hs, h1, hN, a, b, ha, hb, hzero⟩
  obtain ⟨a', b', ha', hb', _, _, hpos⟩ := stop_denominator_pos F u k hs h1 hN
  rw [ha] at ha'
  rw [hb] at hb'
  have e1 := Option.some.inj ha'
  have e2 := Option.some.inj hb'
  subst e1
  subst e2
  rw [hzero] at hpos
  exact lt_irrefl _ hpos

/-- C7 (amended): for every table `F` and every draw `u`, when the scan of
`generate_random_data` or the scan of `generate_ellipticity` stops at an index
`1 ≤ k ≤ N`, the reads `F[k-1]` and `F[k]` satisfy `F[k-1] < u ≤ F[k]`, so the
interpolation denominator `F[k] - F[k-1]` is positive, with or without flat steps in
the table. -/
theorem flat_step_no_zero_division (F : List α) (u : α) (k : Nat)
    (hs : scanData F u 0 = some k ∨ scanEllip F u 0 = some k) (h1 : 1 ≤ k) (hN : k ≤ N) :
    ∃ a b, readF F ((k : Int) - 1) = some a ∧ readF F (k : Int) = some b ∧
      a < u ∧ u ≤ b ∧ b - a ≠ 0 ∧ 0 < b - a := by
  obtain ⟨a, b, ha, hb, hau, hub, hpos⟩ := stop_denominator_pos F u k hs h1 hN
  exact ⟨a, b, ha, hb, hau, hub, ne_of_gt hpos, hpos⟩

/-- The table of `CDFunc(param, x) = 0` for `x ≤ 1/100`, `x - 1/100` beyond, on
`[0, 10]`: it has the flat step `F[0] = F[1] = 0`, and `F[2] = 1/100`. -/
theorem flat_table_entries :
    (tableOf (fun _ x : ℚ => if x ≤ 1 / 100 then 0 else x - 1 / 100) 0 0 10)[0]? = some 0 ∧
    (tableOf (fun _ x : ℚ => if x ≤ 1 / 100 then 0 else x - 1 / 100) 0 0 10)[1]? = some 0 ∧
    (tableOf (fun _ x : ℚ => if x ≤ 1 / 100 then 0 else x - 1 / 100) 0 0 10)[2]?
      = some (1 / 100) := by
  refine ⟨tableOf_zero _ _ _ _, ?_, ?_⟩
  · rw [tableOf_get _ _ _ _ 1 (by unfold N; omega)]
    norm_num [stepOf, N]
  · rw [tableOf_get _ _ _ _ 2 (by unfold N; omega)]
    norm_num [stepOf, N]

/-- Witness of `flat_step_no_zero_division`: on a table with the flat step
`F[0] = F[1] = 0`, the draw `u = 1/200` stops the scan at `k = 2`. -/
theorem flat_step_no_zero_division_witness :
    ∃ a b : ℚ,
      readF (tableOf (fun _ x : ℚ => if x ≤ 1 / 100 then 0 else x - 1 / 100) 0 0 10)
        (((2 : Nat) : Int) - 1) = some a ∧
      readF (tableOf (fun _ x : ℚ => if x ≤ 1 / 100 then 0 else x - 1 / 100) 0 0 10)
        ((2 : Nat) : Int) = some b ∧
      a < 1 / 200 ∧ 1 / 200 ≤ b ∧ b - a ≠ 0 ∧ 0 < b - a :=
  flat_step_no_zero_division
    (tableOf (fun _ x : ℚ => if x ≤ 1 / 100 then 0 else x - 1 / 100) 0 0 10) (1 / 200) 2
    (Or.inl (scanData_of_bracket _ (tableOf_length _ _ _ _) _ 2 (by unfold N; omega)
      (fun j hj => by
        have hj' : j = 0 ∨ j = 1 := by omega
        rcases hj' with h | h
        · subst h; exact ⟨0, flat_table_entries.1, by norm_num⟩
        · subst h; exact ⟨0, flat_table_entries.2.1, by norm_num⟩)
      ⟨_, flat_table_entries.2.2, by norm_num⟩))
    (by omega) (by unfold N; omega)

/-- C8: for `min_value ≤ max_value` and `CDFunc` non-decreasing in `x` on
`[min_value, max_value]`, the table of `generate_random_data` has `N + 1 = 1001`
entries with `F[0] = 0`, `F[i] ≤ F[i+1]` for `i < N`, and
`F[N] = CFrange = CDFunc(param, max_value) - CDFunc(param, min_value)`, where
`F[i] = CDFunc(param, min_value + i*h) - CDFunc(param, min_value)` and
`h = (max_value - min_value)/N`. -/
theorem table_invariant (min_value max_value : α) (CDFunc : α → α → α) (param : α)
    (hle : min_value ≤ max_value)
    (hmono : ∀ x y, min_value ≤ x → x ≤ y → y ≤ max_value → CDFunc param x ≤ CDFunc param y) :
    N = 1000 ∧ stepOf min_value max_value = (max_value - min_value) / (N : α) ∧
    (tableOf CDFunc param min_value max_value).length = N + 1 ∧
    (tableOf CDFunc param min_value max_value)[0]? = some 0 ∧
    (∀ i, i < N → ∃ a b, (tableOf CDFunc param min_value max_value)[i]? = some a ∧
        (tableOf CDFunc param min_value max_value)[i + 1]? = some b ∧ a ≤ b) ∧
    (tableOf CDFunc param min_value max_value)[N]?
      = some (CFrangeOf CDFunc param min_value max_value) ∧
    CFrangeOf CDFunc param min_value max_value
      = CDFunc param max_value - CDFunc param min_value ∧
    (∀ i, i ≤ N → (tableOf CDFunc param min_value max_value)[i]?
      = some (CDFunc param (min_value + (i : α) * stepOf min_value max_value)
          - CDFunc param min_value)) := by
  refine ⟨rfl, rfl, tableOf_length _ _ _ _, tableOf_zero _ _ _ _, ?_, tableOf_last _ _ _ _,
    rfl, fun i hi => tableOf_get _ _ _ _ i hi⟩
  intro i hi
  refine ⟨_, _, tableOf_get _ _ _ _ i (by omega), tableOf_get _ _ _ _ (i + 1) (by omega), ?_⟩
  have h1 := grid_mem min_value max_value hle i (by omega)
  have h2 := grid_mem min_value max_value hle (i + 1) (by omega)
  have hh := stepOf_nonneg min_value max_value hle
  have hstep : min_value + (i : α) * stepOf min_value max_value
      ≤ min_value + ((i + 1 : Nat) : α) * stepOf min_value max_value := by
    push_cast
    linarith
  have := hmono _ _ h1.1 hstep h2.2
  linarith

/-- Witness of `table_invariant`: the ramp `CDFunc(param, x) = param*x` with
`param = 1` on `[0, 10]`. -/
theorem table_invariant_witness :
    (0 : ℚ) ≤ 10 ∧
    (tableOf (fun p x : ℚ => p * x) 1 0 10).length = N + 1 ∧
    (tableOf (fun p x : ℚ => p * x) 1 0 10)[0]? = some 0 ∧
    (tableOf (fun p x : ℚ => p * x) 1 0 10)[N]?
      = some (CFrangeOf (fun p x : ℚ => p * x) 1 0 10) :=
  ⟨by norm_num,
    (table_invariant (0 : ℚ) 10 (fun p x => p * x) 1 (by norm_num)
      (fun x y _ hxy _ => by simpa using hxy)).2.2.1,
    (table_invariant (0 : ℚ) 10 (fun p x => p * x) 1 (by norm_num)
      (fun x y _ hxy _ => by simpa using hxy)).2.2.2.1,
    (table_invariant (0 : ℚ) 10 (fun p x => p * x) 1 (by norm_num)
      (fun x y _ hxy _ => by simpa using hxy)).2.2.2.2.2.1⟩

/-! ## The ellipticity generator: the ring loop and the galaxy loop -/

/-- One iteration of the ring loop. -/
theorem ringLoop_step (cos sin : α → α) (NP : Int) (module phi_0 inc : α) (k ind : Nat)
    (e1 e2 : Nat → α) (hk : (k : Int) < NP) :
    ringLoop cos sin NP module phi_0 inc k ind e1 e2
      = ringLoop cos sin NP module phi_0 inc (k + 1) (ind + 1 + 1)
          (Function.update (Function.update e1 ind (module * cos (phi_0 + (k : α) * inc)))
            (ind + 1) (-(module * cos (phi_0 + (k : α) * inc))))
          (Function.update (Function.update e2 ind (module * sin (phi_0 + (k : α) * inc)))
            (ind + 1) (-(module * sin (phi_0 + (k : α) * inc)))) := by
  rw [ringLoop, if_pos hk]
  have hread : ∀ (f : Nat → α) (v : α), Function.update f ind v (ind + 1 - 1) = v := by
    intro f v
    show Function.update f ind v ind = v
    exact Function.update_same _ _ _
  simp only [hread]

/-- What the ring loop writes: for `q < n` (the iterations left), the entries
`ind + 2q` and `ind + 2q + 1` hold the point of angle `phi_0 + (k+q)*inc` and its
negation; the other entries are unchanged and `ind` advances by `2n`. -/
theorem ringLoop_spec (cos sin : α → α) (NP : Int) (module phi_0 inc : α) :
    ∀ (n k ind : Nat) (e1 e2 : Nat → α), (NP - k).toNat = n →
      (ringLoop cos sin NP module phi_0 inc k ind e1 e2).2.2 = ind + 2 * n ∧
      (∀ q, q < n →
        (ringLoop cos sin NP module phi_0 inc k ind e1 e2).1 (ind + 2 * q)
            = module * cos (phi_0 + ((k + q : Nat) : α) * inc) ∧
        (ringLoop cos sin NP module phi_0 inc k ind e1 e2).1 (ind + 2 * q + 1)
            = -(module * cos (phi_0 + ((k + q : Nat) : α) * inc)) ∧
        (ringLoop cos sin NP module phi_0 inc k ind e1 e2).2.1 (ind + 2 * q)
            = module * sin (phi_0 + ((k + q : Nat) : α) * inc) ∧
        (ringLoop cos sin NP module phi_0 inc k ind e1 e2).2.1 (ind + 2 * q + 1)
            = -(module * sin (phi_0 + ((k + q : Nat) : α) * inc))) ∧
      (∀ j, (j < ind ∨ ind + 2 * n ≤ j) →
        (ringLoop cos sin NP module phi_0 inc k ind e1 e2).1 j = e1 j ∧
        (ringLoop cos sin NP module phi_0 inc k ind e1 e2).2.1 j = e2 j) := by
  intro n
  induction n with
  | zero =>
    intro k ind e1 e2 hn
    rw [ringLoop, if_neg (by omega)]
    exact ⟨rfl, fun q hq => by omega, fun j _ => ⟨rfl, rfl⟩⟩
  | succ n ih =>
    intro k ind e1 e2 hn
    rw [ringLoop_step cos sin NP module phi_0 inc k ind e1 e2 (by omega)]
    obtain ⟨h1, h2, h3⟩ := ih (k + 1) (ind + 1 + 1)
      (Function.update (Function.update e1 ind (module * cos (phi_0 + (k : α) * inc)))
        (ind + 1) (-(module * cos (phi_0 + (k : α) * inc))))
      (Function.update (Function.update e2 ind (module * sin (phi_0 + (k : α) * inc)))
        (ind + 1) (-(module * sin (phi_0 + (k : α) * inc))))
      (by omega)
    refine ⟨by rw [h1]; omega, ?_, ?_⟩
    · intro q hq
      rcases Nat.eq_zero_or_pos q with hq0 | hq0
      · subst hq0
        have f0 := h3 ind (Or.inl (by omega))
        have f1 := h3 (ind + 1) (Or.inl (by omega))
        have hne : ind ≠ ind + 1 := by omega
        simp only [Nat.mul_zero, Nat.add_zero]
        rw [f0.1, f0.2, f1.1, f1.2]
        simp [Function.update_noteq hne]
      · have hq' := h2 (q - 1) (by omega)
        have e1' : ind + 1 + 1 + 2 * (q - 1) = ind + 2 * q := by omega
        have e2' : k + 1 + (q - 1) = k + q := by omega
        rw [e1', e2'] at hq'
        exact hq'
    · intro j hj
      have f := h3 j (by omega)
      have hne1 : j ≠ ind + 1 := by omega
      have hne0 : j ≠ ind := by omega
      rw [f.1, f.2]
      simp [Function.update_noteq hne1, Function.update_noteq hne0]

theorem galaxyGen_shift {σ : Type} (rng rng_pos : σ → α × σ) (gen : σ) (g : Nat) :
    galaxyGen rng rng_pos (rng_pos (rng gen).2).2 g = galaxyGen rng rng_pos gen (g + 1) := by
  induction g with
  | zero => rfl
  | succ g ih =>
    show (rng_pos (rng (galaxyGen rng rng_pos (rng_pos (rng gen).2).2 g)).2).2
      = (rng_pos (rng (galaxyGen rng rng_pos gen (g + 1))).2).2
    rw [ih]

/-- What the galaxy loop writes: for each galaxy `g < n` (the iterations left) the
inversion of its draw returns some `module`, and the `2*NP` entries from
`ind + 2*NP*g` hold the ring of that galaxy; the other entries are unchanged. -/
theorem ellipLoop_spec {σ : Type} (rng rng_pos : σ → α × σ) (cos sin : α → α) (F : List α)
    (h inc : α) (ne NP : Int) :
    ∀ (n i : Nat) (gen : σ) (ind : Nat) (e1 e2 e1' e2' : Nat → α) (gen' : σ),
      (ne - i).toNat = n →
      ellipLoop rng rng_pos cos sin F h inc ne NP i gen ind e1 e2 = some (e1', e2', gen') →
      (∀ g q : Nat, g < n → q < NP.toNat →
        ∃ m, ellipModule F h (galaxyDraw rng rng_pos gen g) = some m ∧
          e1' (ind + 2 * (NP.toNat * g + q))
            = m * cos (galaxyPhase rng rng_pos gen g + (q : α) * inc) ∧
          e1' (ind + 2 * (NP.toNat * g + q) + 1)
            = -(m * cos (galaxyPhase rng rng_pos gen g + (q : α) * inc)) ∧
          e2' (ind + 2 * (NP.toNat * g + q))
            = m * sin (galaxyPhase rng rng_pos gen g + (q : α) * inc) ∧
          e2' (ind + 2 * (NP.toNat * g + q) + 1)
            = -(m * sin (galaxyPhase rng rng_pos gen g + (q : α) * inc))) ∧
      (∀ j, (j < ind ∨ ind + 2 * (NP.toNat * n) ≤ j) → e1' j = e1 j ∧ e2' j = e2 j) := by
  intro n
  induction n with
  | zero =>
    intro i gen ind e1 e2 e1' e2' gen' hn hrun
    rw [ellipLoop, if_neg (by omega)] at hrun
    have hrun' := Option.some.inj hrun
    have h1 : e1 = e1' := (Prod.mk.inj hrun').1
    have h2 : e2 = e2' := (Prod.mk.inj (Prod.mk.inj hrun').2).1
    subst h1
    subst h2
    exact ⟨fun g q hg _ => by omega, fun j _ => ⟨rfl, rfl⟩⟩
  | succ n ih =>
    intro i gen ind e1 e2 e1' e2' gen' hn hrun
    rw [ellipLoop, if_pos (by omega)] at hrun
    simp only at hrun
    cases hm : ellipModule F h (rng gen).1 with
    | none => rw [hm] at hrun; simp at hrun
    | some m =>
      rw [hm] at hrun
      simp only at hrun
      obtain ⟨r1, r2, r3⟩ := ringLoop_spec cos sin NP m (2 * PI * (rng_pos (rng gen).2).1) inc
        NP.toNat 0 ind e1 e2 (by omega)
      obtain ⟨ih1, ih2⟩ := ih (i + 1) _ _ _ _ e1' e2' gen' (by omega) hrun
      rw [r1] at ih1 ih2
      constructor
      · intro g q hg hq
        rcases Nat.eq_zero_or_pos g with hg0 | hg0
        · subst hg0
          refine ⟨m, hm, ?_⟩
          have hq' := r2 q hq
          simp only [Nat.zero_add] at hq'
          have hfr := ih2 (ind + 2 * q) (Or.inl (by omega))
          have hfr1 := ih2 (ind + 2 * q + 1) (Or.inl (by omega))
          simp only [Nat.mul_zero, Nat.zero_add]
          rw [hfr.1, hfr.2, hfr1.1, hfr1.2]
          exact hq'
        · obtain ⟨m', hm', hw⟩ := ih1 (g - 1) q (by omega) hq
          have hidx : ind + 2 * NP.toNat + 2 * (NP.toNat * (g - 1) + q)
              = ind + 2 * (NP.toNat * g + q) := by
            have : NP.toNat * g = NP.toNat * (g - 1) + NP.toNat := by
              rw [← Nat.mul_succ]
              congr 1
              omega
            omega
          have hdraw : galaxyDraw rng rng_pos (rng_pos (rng gen).2).2 (g - 1)
              = galaxyDraw rng rng_pos gen g := by
            unfold galaxyDraw
            rw [galaxyGen_shift, show g - 1 + 1 = g by omega]
          have hphase : galaxyPhase rng rng_pos (rng_pos (rng gen).2).2 (g - 1)
              = galaxyPhase rng rng_pos gen g := by
            unfold galaxyPhase
            rw [galaxyGen_shift, show g - 1 + 1 = g by omega]
          rw [hidx, hphase] at hw
          rw [hdraw] at hm'
          exact ⟨m', hm', hw⟩
      · intro j hj
        have hmul : NP.toNat * (n + 1) = NP.toNat * n + NP.toNat := Nat.mul_succ _ _
        have hfr := ih2 j (by omega)
        have hr := r3 j (by omega)
        rw [hfr.1, hfr.2]
        exact hr

theorem generate_ellipticity_eq {σ : Type} (rng rng_pos : σ → α × σ) (cos sin e_pdf : α → α)
    (gen : σ) (ne NP : Int) (e1 e2 : Nat → α) :
    generate_ellipticity rng rng_pos cos sin e_pdf gen ne NP e1 e2
      = ellipLoop rng rng_pos cos sin (ellipTable e_pdf (0.804 / (N : α))) (0.804 / (N : α))
          (PI / (NP : α)) ne NP 0 gen 0 e1 e2 := rfl

/-- The galaxy loop returns when the inversion of every draw does. -/
theorem ellipLoop_total {σ : Type} (rng rng_pos : σ → α × σ) (cos sin : α → α) (F : List α)
    (h inc : α) (ne NP : Int) :
    ∀ (n i : Nat) (gen : σ) (ind : Nat) (e1 e2 : Nat → α), (ne - i).toNat = n →
      (∀ g, g < n → ∃ m, ellipModule F h (galaxyDraw rng rng_pos gen g) = some m) →
      ∃ e1' e2' gen',
        ellipLoop rng rng_pos cos sin F h inc ne NP i gen ind e1 e2 = some (e1', e2', gen') := by
  intro n
  induction n with
  | zero =>
    intro i gen ind e1 e2 hn _
    rw [ellipLoop, if_neg (by omega)]
    exact ⟨e1, e2, gen, rfl⟩
  | succ n ih =>
    intro i gen ind e1 e2 hn hall
    rw [ellipLoop, if_pos (by omega)]
    simp only
    obtain ⟨m, hm⟩ := hall 0 (by omega)
    have hm' : ellipModule F h (rng gen).1 = some m := hm
    rw [hm']
    simp only
    apply ih (i + 1) _ _ _ _ (by omega)
    intro g hg
    obtain ⟨m2, hm2⟩ := hall (g + 1) (by omega)
    refine ⟨m2, ?_⟩
    rw [← hm2]
    unfold galaxyDraw
    rw [galaxyGen_shift]

/-- The unbounded scan stops at `k` when the entries before `k` are below `u` and
the entry `k` is not. -/
theorem scanEllip_of_bracket (F : List α) (u : α) (k : Nat)
    (hhi : ∃ b, F[k]? = some b ∧ u ≤ b) :
    ∀ (n j : Nat), j + n = k → (∀ i, j ≤ i → i < k → ∃ a, F[i]? = some a ∧ a < u) →
      scanEllip F u j = some k := by
  obtain ⟨b, hb, hub⟩ := hhi
  have hk : k < F.length := by
    by_contra hcon
    rw [List.getElem?_eq_none (by omega)] at hb
    simp at hb
  intro n
  induction n with
  | zero =>
    intro j hj _
    have hjk : j = k := by omega
    subst hjk
    rw [scanEllip, dif_pos hk]
    rw [List.getElem?_eq_getElem hk] at hb
    have hb' := Option.some.inj hb
    rw [if_neg (by rw [hb']; exact not_lt.mpr hub)]
  | succ n ih =>
    intro j hj hlo
    have hjl : j < F.length := by omega
    obtain ⟨a, ha, hau⟩ := hlo j (le_refl j) (by omega)
    rw [List.getElem?_eq_getElem hjl] at ha
    have ha' := Option.some.inj ha
    rw [scanEllip, dif_pos hjl, if_pos (by rw [ha']; exact hau)]
    exact ih (j + 1) (by omega) (fun i hi1 hi2 => hlo i (by omega) hi2)

theorem ellipModule_of_scan (F : List α) (h u : α) (k : Nat) (a b : α)
    (hs : scanEllip F u 0 = some k) (h1 : 1 ≤ k) (ha : F[k - 1]? = some a)
    (hb : F[k]? = some b) :
    ellipModule F h u = some (h * ((k : α) - 1) + h * (u - a) / (b - a)) := by
  unfold ellipModule
  rw [hs]
  simp only [Option.bind_eq_bind, Option.some_bind]
  rw [readF_pred F k h1, readF_nat, ha, hb]
  simp

/-- The draw `u = 0` stops the scan of `generate_ellipticity` at `k = 0`, and the read
`F[k-1]` is then the read `F[-1]`, outside the table. -/
theorem ellipModule_zero (F : List α) (hF : F[0]? = some 0) (h : α) :
    scanEllip F 0 0 = some 0 ∧ ellipModule F h 0 = none := by
  have hs : scanEllip F (0 : α) 0 = some 0 :=
    scanEllip_of_bracket F 0 0 ⟨0, hF, le_refl _⟩ 0 0 rfl (fun i _ hi => by omega)
  refine ⟨hs, ?_⟩
  unfold ellipModule
  rw [hs]
  simp only [Option.bind_eq_bind, Option.some_bind]
  rw [readF_neg]
  rfl

/-- C9: for `ne ≥ 0` and `NP ≥ 1`, the output of `generate_ellipticity` satisfies
`e1[2j+1] = -e1[2j]` and `e2[2j+1] = -e2[2j]` for every `j < ne*NP`, whatever the
random source, the density and the functions `cos` and `sin` are. -/
theorem ellipticity_pairs_antipodal {σ : Type} (rng rng_pos : σ → α × σ)
    (cos sin e_pdf : α → α) (gen gen' : σ) (ne NP : Int) (e1 e2 e1' e2' : Nat → α)
    (hne : 0 ≤ ne) (hNP : 1 ≤ NP)
    (hrun : generate_ellipticity rng rng_pos cos sin e_pdf gen ne NP e1 e2
      = some (e1', e2', gen')) :
    ∀ j : Nat, (j : Int) < ne * NP →
      e1' (2 * j + 1) = -e1' (2 * j) ∧ e2' (2 * j + 1) = -e2' (2 * j) := by
  intro j hj
  rw [generate_ellipticity_eq] at hrun
  obtain ⟨hw, _⟩ := ellipLoop_spec rng rng_pos cos sin _ _ _ ne NP (ne - (0 : Nat)).toNat 0 gen 0
    e1 e2 e1' e2' gen' rfl hrun
  have hP : 1 ≤ NP.toNat := by omega
  have hlt : j < NP.toNat * ne.toNat := by
    have h1 : ((NP.toNat : Int)) = NP := Int.toNat_of_nonneg (by omega)
    have h2 : ((ne.toNat : Int)) = ne := Int.toNat_of_nonneg hne
    have h3 : (j : Int) < ((NP.toNat * ne.toNat : Nat) : Int) := by
      push_cast
      rw [h1, h2, mul_comm]
      exact hj
    exact_mod_cast h3
  have hg : j / NP.toNat < (ne - (0 : Nat)).toNat := by
    have : j / NP.toNat < ne.toNat := Nat.div_lt_of_lt_mul hlt
    simpa using this
  obtain ⟨m, _, w1, w2, w3, w4⟩ := hw (j / NP.toNat) (j % NP.toNat) hg
    (Nat.mod_lt _ (by omega))
  rw [Nat.div_add_mod, Nat.zero_add] at w1 w2 w3 w4
  rw [w1, w2, w3, w4]
  exact ⟨rfl, rfl⟩

/-- On the density `e_pdf(x) = x`, the draw `u = 1e-7` is inverted inside the first
step of the table of `generate_ellipticity`. -/
theorem id_table_module_defined :
    ∃ m : ℚ, ellipModule (ellipTable (fun x : ℚ => x) (0.804 / (N : ℚ))) (0.804 / (N : ℚ))
      (1 / 10000000) = some m := by
  have hN1 : 1 ≤ N := by unfold N; omega
  have h0 := ellipTable_get (fun x : ℚ => x) (0.804 / (N : ℚ)) 0 (Nat.zero_le _)
  have h1 := ellipTable_get (fun x : ℚ => x) (0.804 / (N : ℚ)) 1 hN1
  rw [if_pos rfl] at h0
  rw [if_neg (by omega), (CDF_id_error (((1 : Nat) : ℚ) * (0.804 / (N : ℚ)))
    (by norm_num [N])).1] at h1
  have hs : scanEllip (ellipTable (fun x : ℚ => x) (0.804 / (N : ℚ))) (1 / 10000000) 0
      = some 1 := by
    apply scanEllip_of_bracket _ _ 1 ⟨_, h1, by norm_num [N, idRatio]⟩ 1 0 rfl
    intro i _ hi
    have hi0 : i = 0 := by omega
    subst hi0
    exact ⟨0, h0, by norm_num⟩
  exact ⟨_, ellipModule_of_scan _ _ _ 1 _ _ hs (le_refl 1) h0 h1⟩

/-- Witness of `ellipticity_pairs_antipodal`: one galaxy (`ne = 1`) with one pair
(`NP = 1`) on the density `e_pdf(x) = x`, the draws `u = 1e-7` and `1/2`. -/
theorem ellipticity_pairs_antipodal_witness :
    ∃ (e1' e2' : Nat → ℚ) (gen' : Unit),
      generate_ellipticity (fun g : Unit => ((1 / 10000000 : ℚ), g))
        (fun g : Unit => ((1 / 2 : ℚ), g)) (fun _ => 1) (fun _ => 0) (fun x => x) () 1 1
        (fun _ => 0) (fun _ => 0) = some (e1', e2', gen') ∧
      ∀ j : Nat, (j : Int) < 1 * 1 →
        e1' (2 * j + 1) = -e1' (2 * j) ∧ e2' (2 * j + 1) = -e2' (2 * j) := by
  obtain ⟨e1', e2', gen', hrun⟩ := ellipLoop_total (fun g : Unit => ((1 / 10000000 : ℚ), g))
    (fun g : Unit => ((1 / 2 : ℚ), g)) (fun _ => 1) (fun _ => 0)
    (ellipTable (fun x : ℚ => x) (0.804 / (N : ℚ))) (0.804 / (N : ℚ)) (PI / ((1 : Int) : ℚ))
    1 1 ((1 : Int) - (0 : Nat)).toNat 0 () 0 (fun _ => 0) (fun _ => 0) rfl
    (fun g _ => id_table_module_defined)
  exact ⟨e1', e2', gen', hrun,
    ellipticity_pairs_antipodal _ _ _ _ _ () gen' 1 1 _ _ e1' e2' (by norm_num) (by norm_num)
      hrun⟩

/-- C10 (code defect): for every density `e_pdf`, the draw `u = 0` of `[0, 1)` stops
the scan `while (u > F[k]) k++` at `k = 0`; the interpolation then reads `F[k-1]`, the
read `F[-1]` outside the table, and neither `module` nor the output of
`generate_ellipticity` is defined. -/
theorem zero_draw_module_undefined (e_pdf cos sin : α → α) (NP : Int) (e1 e2 : Nat → α) :
    scanEllip (ellipTable e_pdf (0.804 / (N : α))) 0 0 = some 0 ∧
      readF (ellipTable e_pdf (0.804 / (N : α))) (((0 : Nat) : Int) - 1) = none ∧
      ellipModule (ellipTable e_pdf (0.804 / (N : α))) (0.804 / (N : α)) 0 = none ∧
      generate_ellipticity (fun g : Unit => ((0 : α), g)) (fun g : Unit => ((1 / 2 : α), g))
        cos sin e_pdf () 1 NP e1 e2 = none := by
  have h0 := ellipTable_get e_pdf (0.804 / (N : α)) 0 (Nat.zero_le _)
  rw [if_pos rfl] at h0
  have hz := ellipModule_zero (ellipTable e_pdf (0.804 / (N : α))) h0 (0.804 / (N : α))
  refine ⟨hz.1, readF_neg _, hz.2, ?_⟩
  rw [generate_ellipticity_eq, ellipLoop, if_pos (by norm_num)]
  simp only
  rw [hz.2]

/-! ## The integrator is homogeneous in the density -/

theorem CDFrun_of_first (pdf : α → α) (b : α) (k : Nat) (h6 : 6 ≤ k) (h30 : k ≤ JMAX)
    (hk : convergedAt pdf b k) (hmin : ∀ j, 6 ≤ j → j < k → ¬ convergedAt pdf b j) :
    CDFrun pdf b = (estimate pdf b k, false) := by
  rcases CDFrun_spec pdf b with ⟨m, hm6, hm30, hm, hmmin, hres⟩ | ⟨hall, _⟩
  · have hmk : m = k := by
      rcases Nat.lt_trichotomy m k with h | h | h
      · exact absurd hm (hmin m hm6 h)
      · exact h
      · exact absurd hk (hmmin k h6 h)
    rw [hres, hmk]
  · exact absurd hk (hall k h6 h30)

theorem CDFrun_of_none (pdf : α → α) (b : α)
    (hall : ∀ k, 6 ≤ k → k ≤ JMAX → ¬ convergedAt pdf b k) : CDFrun pdf b = (0, true) := by
  rcases CDFrun_spec pdf b with ⟨m, hm6, hm30, hm, _, _⟩ | ⟨_, hres⟩
  · exact absurd hm (hall m hm6 hm30)
  · exact hres

theorem refineStep_scale (pdf : α → α) (b c : α) (k : Nat) (hk : 2 ≤ k) (s : α) :
    refineStep (fun x => c * pdf x) b k (c * s) = c * refineStep pdf b k s := by
  rw [refineStep_eq _ b k hk, refineStep_eq pdf b k hk, ← Finset.mul_sum]
  ring

theorem estimate_scale (pdf : α → α) (b c : α) (k : Nat) :
    estimate (fun x => c * pdf x) b k = c * estimate pdf b k := by
  induction k with
  | zero => show 0.5 * b * (c * pdf b) = c * (0.5 * b * pdf b); ring
  | succ k ih =>
    by_cases hk : k = 0
    · subst hk
      rw [estimate_one, estimate_one]; ring
    · rw [estimate_succ _ b k (by omega), estimate_succ pdf b k (by omega), ih,
        refineStep_scale pdf b c (k + 1) (by omega)]

theorem convergedAt_scale (pdf : α → α) (b c : α) (hc : 0 < c) (k : Nat) :
    convergedAt (fun x => c * pdf x) b k ↔ convergedAt pdf b k := by
  unfold convergedAt
  rw [estimate_scale, estimate_scale]
  exact converged_mul c hc _ _

/-- C18: for every density `pdf`, bound `b` and constant `c > 0`,
`CDF(x -> c*pdf(x), b) = c * CDF(pdf, b)`; both runs leave the loop by the same exit
(the same refinement level, or both by the fallback `0.0` with the diagnostic). -/
theorem CDF_homogeneous (pdf : α → α) (b c : α) (hc : 0 < c) :
    CDF (fun x => c * pdf x) b = c * CDF pdf b ∧
    (CDFrun (fun x => c * pdf x) b).2 = (CDFrun pdf b).2 ∧
    (∀ k, 6 ≤ k → k ≤ 30 → (CDFrun pdf b = (estimate pdf b k, false) →
      CDFrun (fun x => c * pdf x) b = (c * estimate pdf b k, false))) ∧
    (CDFrun pdf b = (0.0, true) → CDFrun (fun x => c * pdf x) b = (0.0, true)) := by
  have key : CDFrun (fun x => c * pdf x) b = (c * (CDFrun pdf b).1, (CDFrun pdf b).2) := by
    rcases CDFrun_spec pdf b with ⟨k, h6, h30, hk, hmin, hres⟩ | ⟨hall, hres⟩
    · rw [hres, CDFrun_of_first _ b k h6 h30 ((convergedAt_scale pdf b c hc k).mpr hk)
        (fun j hj6 hjk hcv => hmin j hj6 hjk ((convergedAt_scale pdf b c hc j).mp hcv)),
        estimate_scale]
    · rw [hres, CDFrun_of_none _ b
        (fun k h6 h30 hcv => hall k h6 h30 ((convergedAt_scale pdf b c hc k).mp hcv))]
      simp
  refine ⟨by unfold CDF; rw [key], by rw [key], ?_, ?_⟩
  · intro k _ _ hres
    rw [key, hres]
  · intro hres
    rw [key, hres]
    norm_num

/-- Witness of `CDF_homogeneous`: the density `pdf(x) = x`, `b = 1`, `c = 2`. -/
theorem CDF_homogeneous_witness :
    (0 : ℚ) < 2 ∧ CDF (fun x : ℚ => 2 * (fun y : ℚ => y) x) 1 = 2 * CDF (fun y : ℚ => y) 1 :=
  ⟨by norm_num, (CDF_homogeneous (fun y : ℚ => y) 1 2 (by norm_num)).1⟩

/-! ## The ellipticity generator: geometry of the rings -/

theorem linesOf_eof (fp : FILE) (h : fp.eof = true) : linesOf fp = [] := by
  rw [linesOf, dif_pos h]

theorem linesOf_open (fp : FILE) (h : fp.eof = false) :
    linesOf fp = match (fgets 100 fp).1 with
      | none => []
      | some l => l :: linesOf (fgets 100 fp).2 := by
  rw [linesOf, dif_neg (by simp [h])]

theorem extraRead_eof (fp : FILE) (h : fp.eof = true) : extraRead fp = false := by
  rw [extraRead, dif_pos h]

theorem extraRead_open (fp : FILE) (h : fp.eof = false) :
    extraRead fp = match (fgets 100 fp).1 with
      | none => true
      | some _ => extraRead (fgets 100 fp).2 := by
  rw [extraRead, dif_neg (by simp [h])]

/-- A call of `fgets` that reads no character sets the end-of-file indicator. -/
theorem fgets_none_eof (n : Nat) (fp : FILE) (h : (fgets n fp).1 = none) :
    (fgets n fp).2.eof = true := by
  unfold fgets at h ⊢
  cases hr : fp.rest with
  | nil => simp
  | cons c cs => rw [hr] at h; simp at h

/-- On a file that is not at its end and whose next read fails, no line is left. -/
theorem linesOf_eq_nil_iff (fp : FILE) (h : fp.eof = false) :
    linesOf fp = [] ↔ (fgets 100 fp).1 = none := by
  rw [linesOf_open fp h]
  cases (fgets 100 fp).1 <;> simp

/-- The first of the lines left in a file: the result of the next call of `fgets`. -/
theorem linesOf_cons (fp : FILE) (l : List Char) (ls : List (List Char))
    (h : linesOf fp = l :: ls) :
    fp.eof = false ∧ (fgets 100 fp).1 = some l ∧ linesOf (fgets 100 fp).2 = ls := by
  have he : fp.eof = false := by
    cases hb : fp.eof
    · rfl
    · rw [linesOf_eof fp hb] at h; simp at h
  rw [linesOf_open fp he] at h
  cases hr : (fgets 100 fp).1 with
  | none => rw [hr] at h; simp at h
  | some l' =>
    rw [hr] at h
    simp only [List.cons.injEq] at h
    exact ⟨he, by rw [h.1], h.2⟩

/-- An empty file makes the loop run an iteration in which nothing is read. -/
theorem extraRead_fopen_nil : extraRead (fopen []) = true := by
  rw [extraRead_open _ rfl]
  rfl

/-- A call of `fgets` with room for at least one character shortens the file, unless it
meets the end of the file. -/
theorem getLine_left : ∀ (n : Nat) (cs : List Char),
    (getLine (n + 1) cs).2.1.length + (if (getLine (n + 1) cs).2.2 = true then 0 else 1)
      ≤ cs.length := by
  intro n
  induction n with
  | zero =>
    intro cs
    cases cs with
    | nil => simp [getLine]
    | cons c cs => by_cases hc : c = '\n' <;> simp [getLine, hc]
  | succ n ih =>
    intro cs
    cases cs with
    | nil => simp [getLine]
    | cons c cs =>
      have := ih cs
      by_cases hc : c = '\n'
      · simp [getLine, hc]
      · simp only [getLine, hc, if_false, List.length_cons]
        omega

/-- On characters that end with a newline character, a call of `fgets` does not meet the
end of the file, and leaves nothing or characters that end with a newline character. -/
theorem getLine_newline_end : ∀ (n : Nat) (cs : List Char), cs.getLast? = some '\n' →
    (getLine n cs).2.2 = false ∧
      ((getLine n cs).2.1 = [] ∨ (getLine n cs).2.1.getLast? = some '\n') := by
  intro n
  induction n with
  | zero =>
    intro cs h
    exact ⟨rfl, Or.inr h⟩
  | succ n ih =>
    intro cs h
    cases cs with
    | nil => simp at h
    | cons c cs =>
      by_cases hc : c = '\n'
      · simp only [getLine, hc, if_true]
        refine ⟨trivial, ?_⟩
        cases cs with
        | nil => exact Or.inl rfl
        | cons d ds =>
          right
          rw [List.getLast?_cons_cons] at h
          exact h
      · cases cs with
        | nil =>
          simp only [List.getLast?_singleton, Option.some.injEq] at h
          exact absurd h hc
        | cons d ds =>
          rw [List.getLast?_cons_cons] at h
          simp only [getLine, hc, if_false]
          exact ih (d :: ds) h

/-- A file that is empty or ends with a newline character makes a loop
`while (!feof(fp))` run an iteration in which `fgets` reads no character. -/
theorem extraRead_of_newline_end : ∀ (m : Nat) (cs : List Char), cs.length ≤ m →
    cs = [] ∨ cs.getLast? = some '\n' → extraRead { rest := cs, eof := false } = true := by
  intro m
  induction m with
  | zero =>
    intro cs hlen _
    have : cs = [] := List.length_eq_zero.mp (by omega)
    subst this
    rw [extraRead_open _ rfl]
    rfl
  | succ m ih =>
    intro cs hlen h
    cases cs with
    | nil =>
      rw [extraRead_open _ rfl]
      rfl
    | cons c cs =>
      have hl : (c :: cs).getLast? = some '\n' := by
        rcases h with h | h
        · simp at h
        · exact h
      obtain ⟨hflag, hrest⟩ := getLine_newline_end 99 (c :: cs) hl
      have hlt := getLine_left 98 (c :: cs)
      simp only [Nat.reduceAdd] at hlt
      rw [hflag] at hlt
      simp only [Bool.false_eq_true, if_false, List.length_cons] at hlt hlen
      rw [extraRead_open _ rfl]
      have hf : fgets 100 { rest := c :: cs, eof := false }
          = (some (getLine 99 (c :: cs)).1,
              { rest := (getLine 99 (c :: cs)).2.1, eof := false }) := by
        simp [fgets, hflag]
      rw [hf]
      exact ih _ (by omega) hrest

/-- A file that ends with a newline character is not at its end after the read of its
last line. -/
theorem extraRead_fopen_newline (file : List Char) (h : file.getLast? = some '\n') :
    extraRead (fopen file) = true :=
  extraRead_of_newline_end file.length file (le_refl _) (Or.inr h)

/-! ## The multi-epoch reader: the reading loop -/

/-- An iteration of the reading loop in which both calls of `fgets` read a line that
holds a value, at an index `i` inside the scratch arrays. -/
theorem skaIter_some (sscanf_lf : List Char → Option α) (sqrt : α → α)
    (ntimes nbaselines : Nat) (threshold : α) (l1 l2 : List Char) (u v : α)
    (line : Option (List Char)) (st : SkaState α)
    (h1 : sscanf_lf (cstring l1) = some u) (h2 : sscanf_lf (cstring l2) = some v)
    (hi : st.i < numCoords ntimes nbaselines) (hk : st.k ≤ st.i) :
    skaIter sscanf_lf sqrt ntimes nbaselines threshold (some l1) (some l2) line st
      = some (cstring l2, skaStep sqrt ntimes nbaselines threshold u v st) := by
  have hk' : st.k < numCoords ntimes nbaselines := by omega
  have hni : ¬ numCoords ntimes nbaselines ≤ st.i := by omega
  unfold skaIter skaStep skaEpoch0 skaFirstEpoch
  simp only [h1, h2, hni, if_false]
  by_cases h : st.i < nbaselines
  · simp only [h, if_true]
    by_cases hm : sqrt (u * u + v * v) > threshold
    · simp only [hm, if_true, hk']
    · simp only [hm, if_false]
  · simp only [h, if_false]

/-- An iteration of the reading loop at an index `i` outside the scratch arrays: the
stores `temp_uu[i]=xp; temp_vv[i]=yp;` are outside the arrays. -/
theorem skaIter_overrun (sscanf_lf : List Char → Option α) (sqrt : α → α)
    (ntimes nbaselines : Nat) (threshold : α) (r1 r2 : Option (List Char))
    (line : Option (List Char)) (st : SkaState α)
    (hi : numCoords ntimes nbaselines ≤ st.i) :
    skaIter sscanf_lf sqrt ntimes nbaselines threshold r1 r2 line st = none := by
  unfold skaIter
  cases r1 <;> cases line <;> simp [hi]

theorem skaStep_i (sqrt : α → α) (ntimes nbaselines : Nat) (threshold : α) (u v : α)
    (st : SkaState α) : (skaStep sqrt ntimes nbaselines threshold u v st).i = st.i + 1 := by
  unfold skaStep skaFirstEpoch
  by_cases h : st.i < nbaselines
  · by_cases hm : sqrt (u * u + v * v) > threshold
    · by_cases he : st.i = nbaselines <;> simp [h, hm, he]
    · by_cases he : st.i = nbaselines <;> simp [h, hm, he]
  · by_cases he : st.i = nbaselines <;> simp [h, he]

theorem skaStep_k_le (sqrt : α → α) (ntimes nbaselines : Nat) (threshold : α) (u v : α)
    (st : SkaState α) (hk : st.k ≤ st.i) :
    (skaStep sqrt ntimes nbaselines threshold u v st).k
      ≤ (skaStep sqrt ntimes nbaselines threshold u v st).i := by
  rw [skaStep_i]
  unfold skaStep skaFirstEpoch
  by_cases h : st.i < nbaselines
  · by_cases hm : sqrt (u * u + v * v) > threshold
    · by_cases he : st.i = nbaselines <;> simp [h, hm, he] <;> omega
    · by_cases he : st.i = nbaselines <;> simp [h, hm, he] <;> omega
  · by_cases he : st.i = nbaselines <;> simp [h, he] <;> omega

/-- The reading loop on two files whose lines hold the values `U` and `V`, equally
many, as many as the scratch arrays have cells left: it reads the lines in pairs; when
the read of the last line sets the end-of-file indicator of neither file, it runs one
more iteration, whose stores are outside the scratch arrays. -/
theorem skaLoop_unroll (sscanf_lf : List Char → Option α) (sqrt : α → α)
    (ntimes nbaselines : Nat) (threshold : α) :
    ∀ (U V : List α) (fp1 fp2 : FILE) (line : Option (List Char)) (st : SkaState α),
      ((linesOf fp1).map cstring).map sscanf_lf = U.map some →
      ((linesOf fp2).map cstring).map sscanf_lf = V.map some →
      U.length = V.length → st.i + U.length = numCoords ntimes nbaselines → st.k ≤ st.i →
      skaLoop sscanf_lf sqrt ntimes nbaselines threshold fp1 fp2 line st
        = if extraRead fp1 = true ∧ extraRead fp2 = true then none
          else some (skaFeed sqrt ntimes nbaselines threshold (U.zip V) st) := by
  intro U
  induction U with
  | nil =>
    intro V fp1 fp2 line st hU hV hlen hi hk
    have hVnil : V = [] := List.length_eq_zero.mp hlen.symm
    subst hVnil
    have hl1 : linesOf fp1 = [] := by simpa using hU
    have hl2 : linesOf fp2 = [] := by simpa using hV
    rw [skaLoop]
    by_cases h : fp1.eof = true ∨ fp2.eof = true
    · rw [dif_pos h]
      have hno : ¬ (extraRead fp1 = true ∧ extraRead fp2 = true) := by
        rintro ⟨e1, e2⟩
        rcases h with h | h
        · rw [extraRead_eof fp1 h] at e1; simp at e1
        · rw [extraRead_eof fp2 h] at e2; simp at e2
      rw [if_neg hno]
      rfl
    · rw [dif_neg h]
      have he1 : fp1.eof = false := by
        cases hb : fp1.eof
        · rfl
        · exact absurd (Or.inl hb) h
      have he2 : fp2.eof = false := by
        cases hb : fp2.eof
        · rfl
        · exact absurd (Or.inr hb) h
      have hr1 := (linesOf_eq_nil_iff fp1 he1).mp hl1
      have hr2 := (linesOf_eq_nil_iff fp2 he2).mp hl2
      have hx1 : extraRead fp1 = true := by rw [extraRead_open fp1 he1, hr1]
      have hx2 : extraRead fp2 = true := by rw [extraRead_open fp2 he2, hr2]
      rw [if_pos ⟨hx1, hx2⟩,
        skaIter_overrun sscanf_lf sqrt ntimes nbaselines threshold _ _ line st
          (by simp at hi; omega)]
  | cons u us ih =>
    intro V fp1 fp2 line st hU hV hlen hi hk
    cases V with
    | nil => simp at hlen
    | cons v vs =>
      have hlen' : us.length = vs.length := by simpa using hlen
      obtain ⟨l1, ls1, hl1⟩ : ∃ l ls, linesOf fp1 = l :: ls := by
        cases hl : linesOf fp1 with
        | nil => rw [hl] at hU; simp at hU
        | cons l ls => exact ⟨l, ls, rfl⟩
      obtain ⟨l2, ls2, hl2⟩ : ∃ l ls, linesOf fp2 = l :: ls := by
        cases hl : linesOf fp2 with
        | nil => rw [hl] at hV; simp at hV
        | cons l ls => exact ⟨l, ls, rfl⟩
      obtain ⟨he1, hr1, ht1⟩ := linesOf_cons fp1 l1 ls1 hl1
      obtain ⟨he2, hr2, ht2⟩ := linesOf_cons fp2 l2 ls2 hl2
      rw [hl1] at hU
      rw [hl2] at hV
      simp only [List.map_cons, List.cons.injEq] at hU hV
      have hlen1 : us.length + 1 = (u :: us).length := rfl
      rw [skaLoop, dif_neg (by simp [he1, he2]), hr1, hr2,
        skaIter_some sscanf_lf sqrt ntimes nbaselines threshold l1 l2 u v line st hU.1 hV.1
          (by simp only [List.length_cons] at hi; omega) hk]
      simp only
      rw [ih vs (fgets 100 fp1).2 (fgets 100 fp2).2 (some (cstring l2)) _
        (by rw [ht1]; exact hU.2) (by rw [ht2]; exact hV.2) hlen'
        (by rw [skaStep_i]; simp only [List.length_cons] at hi; omega)
        (skaStep_k_le sqrt ntimes nbaselines threshold u v st hk)]
      have hx1 : extraRead fp1 = extraRead (fgets 100 fp1).2 := by
        rw [extraRead_open fp1 he1, hr1]
      have hx2 : extraRead fp2 = extraRead (fgets 100 fp2).2 := by
        rw [extraRead_open fp2 he2, hr2]
      rw [hx1, hx2]
      rfl

theorem retainedUpTo_succ (sqrt : α → α) (U V : List α) (threshold : α) (n : Nat) :
    retainedUpTo sqrt U V threshold (n + 1)
      = retainedUpTo sqrt U V threshold n
        ++ (if modulusAt sqrt U V n > threshold then [n] else []) := by
  unfold retainedUpTo
  rw [List.range_succ, List.filter_append]
  congr 1
  by_cases h : modulusAt sqrt U V n > threshold
  · simp [h]
  · simp [h]

theorem skaInv_init (sqrt : α → α) (U V : List α) (ntimes nbaselines : Nat) (threshold : α)
    (x0 y0 : Nat → α) :
    SkaInv sqrt U V ntimes nbaselines threshold x0 y0 0 (skaInit x0 y0) := by
  have hR : retainedUpTo sqrt U V threshold 0 = [] := by
    simp [retainedUpTo]
  constructor <;> simp [skaInit, hR]

/-- An iteration of the reading loop past the first epoch keeps every variable of the
first epoch and stores the line in the scratch arrays. -/
theorem skaInv_step_later (sqrt : α → α) (U V : List α) (ntimes nbaselines : Nat)
    (threshold : α) (x0 y0 : Nat → α) (n : Nat) (st : SkaState α)
    (hinv : SkaInv sqrt U V ntimes nbaselines threshold x0 y0 n st) (hn : nbaselines ≤ n) :
    SkaInv sqrt U V ntimes nbaselines threshold x0 y0 (n + 1)
      (skaStep sqrt ntimes nbaselines threshold (U.getD n 0) (V.getD n 0) st) := by
  have hmin : min n nbaselines = nbaselines := Nat.min_eq_right hn
  have hmin' : min (n + 1) nbaselines = nbaselines := Nat.min_eq_right (by omega)
  have hi := hinv.hi
  have hnot : ¬ st.i < nbaselines := by omega
  have hst : skaStep sqrt ntimes nbaselines threshold (U.getD n 0) (V.getD n 0) st
      = { st with
          xp := some (U.getD n 0), yp := some (V.getD n 0)
          temp_uu := Function.update st.temp_uu st.i (some (U.getD n 0))
          temp_vv := Function.update st.temp_vv st.i (some (V.getD n 0))
          newbaselines := if st.i = nbaselines then some st.k else st.newbaselines
          i := st.i + 1 } := by
    unfold skaStep
    simp only [hnot, if_false]
    by_cases he : st.i = nbaselines <;> simp [he]
  rw [hst]
  have hmm : min (n + 1) nbaselines = min n nbaselines := hmin'.trans hmin.symm
  constructor
  · simp [hi]
  · rw [hmm]; exact hinv.hk
  · rw [hmm]; exact hinv.hindex
  · intro j hj
    show Function.update st.temp_uu st.i (some (U.getD n 0)) j = _
    by_cases hjn : j = n
    · subst hjn; rw [hi]; simp
    · rw [Function.update_noteq (by omega)]; exact hinv.huu j (by omega)
  · intro j hj
    show Function.update st.temp_vv st.i (some (V.getD n 0)) j = _
    by_cases hjn : j = n
    · subst hjn; rw [hi]; simp
    · rw [Function.update_noteq (by omega)]; exact hinv.hvv j (by omega)
  · rw [hmm]; exact hinv.hx
  · rw [hmm]; exact hinv.hy
  · exact hinv.hxframe
  · exact hinv.hyframe
  · show (if st.i = nbaselines then some st.k else st.newbaselines) = _
    rw [if_pos (show nbaselines < n + 1 by omega)]
    by_cases he : st.i = nbaselines
    · rw [if_pos he, hinv.hk, hmin]
    · rw [if_neg he, hinv.hnew, if_pos (by omega)]
  · rw [hmm]; exact hinv.hmaxB
  · rw [hmm]; exact hinv.hmaxx
  · rw [hmm]; exact hinv.hminx
  · rw [hmm]; exact hinv.hmaxy
  · rw [hmm]; exact hinv.hminy

/-- An iteration of the first epoch on a line whose modulus does not exceed the
threshold only stores the line in the scratch arrays. -/
theorem skaInv_step_skip (sqrt : α → α) (U V : List α) (ntimes nbaselines : Nat)
    (threshold : α) (x0 y0 : Nat → α) (n : Nat) (st : SkaState α)
    (hinv : SkaInv sqrt U V ntimes nbaselines threshold x0 y0 n st) (hn : n < nbaselines)
    (hmod : ¬ modulusAt sqrt U V n > threshold) :
    SkaInv sqrt U V ntimes nbaselines threshold x0 y0 (n + 1)
      (skaStep sqrt ntimes nbaselines threshold (U.getD n 0) (V.getD n 0) st) := by
  have hmin : min n nbaselines = n := Nat.min_eq_left (by omega)
  have hmin' : min (n + 1) nbaselines = n + 1 := Nat.min_eq_left (by omega)
  have hi := hinv.hi
  have hlt : st.i < nbaselines := by omega
  have hne : ¬ st.i = nbaselines := by omega
  have hmod' : ¬ sqrt (U.getD n 0 * U.getD n 0 + V.getD n 0 * V.getD n 0) > threshold := hmod
  have hst : skaStep sqrt ntimes nbaselines threshold (U.getD n 0) (V.getD n 0) st
      = { st with
          xp := some (U.getD n 0), yp := some (V.getD n 0)
          temp_uu := Function.update st.temp_uu st.i (some (U.getD n 0))
          temp_vv := Function.update st.temp_vv st.i (some (V.getD n 0))
          i := st.i + 1 } := by
    unfold skaStep skaFirstEpoch
    simp only [hlt, if_true, hmod', if_false, hne]
  rw [hst]
  have hR : retainedUpTo sqrt U V threshold (min (n + 1) nbaselines)
      = retainedUpTo sqrt U V threshold (min n nbaselines) := by
    rw [hmin, hmin', retainedUpTo_succ, if_neg hmod, List.append_nil]
  constructor
  · simp [hi]
  · rw [hR]; exact hinv.hk
  · rw [hR]; exact hinv.hindex
  · intro j hj
    show Function.update st.temp_uu st.i (some (U.getD n 0)) j = _
    by_cases hjn : j = n
    · subst hjn; rw [hi]; simp
    · rw [Function.update_noteq (by omega)]; exact hinv.huu j (by omega)
  · intro j hj
    show Function.update st.temp_vv st.i (some (V.getD n 0)) j = _
    by_cases hjn : j = n
    · subst hjn; rw [hi]; simp
    · rw [Function.update_noteq (by omega)]; exact hinv.hvv j (by omega)
  · rw [hR]; exact hinv.hx
  · rw [hR]; exact hinv.hy
  · exact hinv.hxframe
  · exact hinv.hyframe
  · show st.newbaselines = _
    rw [hinv.hnew, if_neg (by omega), if_neg (by omega)]
  · rw [hR]; exact hinv.hmaxB
  · rw [hR]; exact hinv.hmaxx
  · rw [hR]; exact hinv.hminx
  · rw [hR]; exact hinv.hmaxy
  · rw [hR]; exact hinv.hminy

/-- An iteration of the first epoch on a line whose modulus exceeds the threshold
retains the baseline: it is appended to `index`, stored in `x` and `y` at `k*ntimes`,
and taken into `maxB` and the extents. -/
theorem skaInv_step_retain (sqrt : α → α) (U V : List α) (ntimes nbaselines : Nat)
    (threshold : α) (x0 y0 : Nat → α) (n : Nat) (st : SkaState α)
    (hinv : SkaInv sqrt U V ntimes nbaselines threshold x0 y0 n st) (hn : n < nbaselines)
    (hnt : 1 ≤ ntimes) (hmod : modulusAt sqrt U V n > threshold) :
    SkaInv sqrt U V ntimes nbaselines threshold x0 y0 (n + 1)
      (skaStep sqrt ntimes nbaselines threshold (U.getD n 0) (V.getD n 0) st) := by
  have hmin : min n nbaselines = n := Nat.min_eq_left (by omega)
  have hmin' : min (n + 1) nbaselines = n + 1 := Nat.min_eq_left (by omega)
  have hi := hinv.hi
  have hlt : st.i < nbaselines := by omega
  have hne : ¬ st.i = nbaselines := by omega
  have hmod' : sqrt (U.getD n 0 * U.getD n 0 + V.getD n 0 * V.getD n 0) > threshold := hmod
  have hst : skaStep sqrt ntimes nbaselines threshold (U.getD n 0) (V.getD n 0) st
      = { st with
          xp := some (U.getD n 0), yp := some (V.getD n 0)
          temp_uu := Function.update st.temp_uu st.i (some (U.getD n 0))
          temp_vv := Function.update st.temp_vv st.i (some (V.getD n 0))
          index := Function.update st.index st.k (some st.i)
          maxB := updMax (modulusAt sqrt U V n) st.maxB
          x := Function.update st.x (st.k * ntimes) (U.getD n 0)
          y := Function.update st.y (st.k * ntimes) (V.getD n 0)
          k := st.k + 1
          maxx := updMax (U.getD n 0) st.maxx
          minx := updMin (U.getD n 0) st.minx
          maxy := updMax (V.getD n 0) st.maxy
          miny := updMin (V.getD n 0) st.miny
          i := st.i + 1 } := by
    unfold skaStep skaFirstEpoch
    simp only [hlt, if_true, hmod', hne, if_false]
    rfl
  rw [hst]
  have hR : retainedUpTo sqrt U V threshold (min (n + 1) nbaselines)
      = retainedUpTo sqrt U V threshold (min n nbaselines) ++ [n] := by
    rw [hmin, hmin', retainedUpTo_succ, if_pos hmod]
  have hk := hinv.hk
  have hget_old : ∀ j, j < st.k →
      (retainedUpTo sqrt U V threshold (min n nbaselines) ++ [n]).getD j 0
        = (retainedUpTo sqrt U V threshold (min n nbaselines)).getD j 0 := by
    intro j hj
    rw [List.getD_append _ _ _ _ (by omega)]
  have hget_new : (retainedUpTo sqrt U V threshold (min n nbaselines) ++ [n]).getD st.k 0 = n := by
    rw [List.getD_append_right _ _ _ _ (by omega), hk]
    simp
  have hmul : ∀ j, j < st.k → j * ntimes ≠ st.k * ntimes := by
    intro j hj heq
    have := Nat.eq_of_mul_eq_mul_right (by omega) heq
    omega
  constructor
  · simp [hi]
  · rw [hR, List.length_append]; simp [hk]
  · intro j hj
    rw [hR]
    show Function.update st.index st.k (some st.i) j = _
    by_cases hjk : j = st.k
    · subst hjk; rw [hget_new, hi]; simp
    · have hj' : j < st.k := by
        have : j < st.k + 1 := hj
        omega
      rw [Function.update_noteq hjk, hget_old j hj']
      exact hinv.hindex j hj'
  · intro j hj
    show Function.update st.temp_uu st.i (some (U.getD n 0)) j = _
    by_cases hjn : j = n
    · subst hjn; rw [hi]; simp
    · rw [Function.update_noteq (by omega)]; exact hinv.huu j (by omega)
  · intro j hj
    show Function.update st.temp_vv st.i (some (V.getD n 0)) j = _
    by_cases hjn : j = n
    · subst hjn; rw [hi]; simp
    · rw [Function.update_noteq (by omega)]; exact hinv.hvv j (by omega)
  · intro j hj
    rw [hR]
    show Function.update st.x (st.k * ntimes) (U.getD n 0) (j * ntimes) = _
    by_cases hjk : j = st.k
    · subst hjk; rw [hget_new]; simp
    · have hj' : j < st.k := by
        have : j < st.k + 1 := hj
        omega
      rw [Function.update_noteq (hmul j hj'), hget_old j hj']
      exact hinv.hx j hj'
  · intro j hj
    rw [hR]
    show Function.update st.y (st.k * ntimes) (V.getD n 0) (j * ntimes) = _
    by_cases hjk : j = st.k
    · subst hjk; rw [hget_new]; simp
    · have hj' : j < st.k := by
        have : j < st.k + 1 := hj
        omega
      rw [Function.update_noteq (hmul j hj'), hget_old j hj']
      exact hinv.hy j hj'
  · intro m hm
    show Function.update st.x (st.k * ntimes) (U.getD n 0) m = _
    rw [Function.update_noteq (hm st.k (Nat.lt_succ_self _))]
    exact hinv.hxframe m (fun j hj => hm j (Nat.lt_succ_of_lt hj))
  · intro m hm
    show Function.update st.y (st.k * ntimes) (V.getD n 0) m = _
    rw [Function.update_noteq (hm st.k (Nat.lt_succ_self _))]
    exact hinv.hyframe m (fun j hj => hm j (Nat.lt_succ_of_lt hj))
  · show st.newbaselines = _
    rw [hinv.hnew, if_neg (by omega), if_neg (by omega)]
  · rw [hR, List.foldl_append]
    show updMax (modulusAt sqrt U V n) st.maxB = _
    rw [hinv.hmaxB]; rfl
  · rw [hR, List.foldl_append]
    show updMax (U.getD n 0) st.maxx = _
    rw [hinv.hmaxx]; rfl
  · rw [hR, List.foldl_append]
    show updMin (U.getD n 0) st.minx = _
    rw [hinv.hminx]; rfl
  · rw [hR, List.foldl_append]
    show updMax (V.getD n 0) st.maxy = _
    rw [hinv.hmaxy]; rfl
  · rw [hR, List.foldl_append]
    show updMin (V.getD n 0) st.miny = _
    rw [hinv.hminy]; rfl

theorem skaInv_step (sqrt : α → α) (U V : List α) (ntimes nbaselines : Nat)
    (threshold : α) (x0 y0 : Nat → α) (n : Nat) (st : SkaState α) (hnt : 1 ≤ ntimes)
    (hinv : SkaInv sqrt U V ntimes nbaselines threshold x0 y0 n st) :
    SkaInv sqrt U V ntimes nbaselines threshold x0 y0 (n + 1)
      (skaStep sqrt ntimes nbaselines threshold (U.getD n 0) (V.getD n 0) st) := by
  by_cases hn : n < nbaselines
  · by_cases hmod : modulusAt sqrt U V n > threshold
    · exact skaInv_step_retain sqrt U V ntimes nbaselines threshold x0 y0 n st hinv hn hnt hmod
    · exact skaInv_step_skip sqrt U V ntimes nbaselines threshold x0 y0 n st hinv hn hmod
  · exact skaInv_step_later sqrt U V ntimes nbaselines threshold x0 y0 n st hinv (by omega)

/-- The state after the iterations that read the first `n` lines of both files. -/
theorem skaInv_feed (sqrt : α → α) (U V : List α) (ntimes nbaselines : Nat)
    (threshold : α) (x0 y0 : Nat → α) (hnt : 1 ≤ ntimes) (hlen : U.length = V.length) :
    ∀ n, n ≤ U.length →
      SkaInv sqrt U V ntimes nbaselines threshold x0 y0 n
        (skaFeed sqrt ntimes nbaselines threshold ((U.zip V).take n) (skaInit x0 y0)) := by
  intro n
  induction n with
  | zero =>
    intro _
    simp only [List.take_zero, skaFeed, List.foldl_nil]
    exact skaInv_init sqrt U V ntimes nbaselines threshold x0 y0
  | succ n ih =>
    intro hn
    have hnU : n < U.length := by omega
    have hnV : n < V.length := by omega
    have hz : n < (U.zip V).length := by simp; omega
    have hget : (U.zip V)[n]? = some (U.getD n 0, V.getD n 0) := by
      rw [List.getElem?_eq_getElem hz, List.getElem_zip]
      simp [List.getD_eq_getElem?_getD, List.getElem?_eq_getElem hnU,
        List.getElem?_eq_getElem hnV]
    have htake : (U.zip V).take (n + 1) = (U.zip V).take n ++ [(U.getD n 0, V.getD n 0)] := by
      rw [List.take_succ, hget]
      rfl
    rw [htake]
    unfold skaFeed
    rw [List.foldl_append]
    exact skaInv_step sqrt U V ntimes nbaselines threshold x0 y0 n _ hnt
      (ih (by omega))

/-- The index `i` after the iterations that read the values `ps`. -/
theorem skaFeed_i (sqrt : α → α) (ntimes nbaselines : Nat) (threshold : α) :
    ∀ (ps : List (α × α)) (st : SkaState α),
      (skaFeed sqrt ntimes nbaselines threshold ps st).i = st.i + ps.length := by
  intro ps
  induction ps with
  | nil => intro st; rfl
  | cons p ps ih =>
    intro st
    unfold skaFeed
    rw [List.foldl_cons]
    have := ih (skaStep sqrt ntimes nbaselines threshold p.1 p.2 st)
    unfold skaFeed at this
    rw [this, skaStep_i, List.length_cons]
    omega

/-- The reading loop of `read_coord_ska` on two files whose lines hold the
`ntimes * nbaselines` values `U` and `V` (`ntimes ≥ 1`, the product within the range of
`unsigned int`), when the read of the last line meets the end of one of the files: it
returns, in the state that the values of the files determine. -/
theorem skaLoop_post (sscanf_lf : List Char → Option α) (sqrt : α → α) (file1 file2 : List Char)
    (U V : List α) (ntimes nbaselines : Nat) (threshold : α) (x0 y0 : Nat → α)
    (hnt : 1 ≤ ntimes)
    (hf1 : (linesRead file1).map sscanf_lf = U.map some)
    (hf2 : (linesRead file2).map sscanf_lf = V.map some)
    (hU : U.length = ntimes * nbaselines) (hV : V.length = ntimes * nbaselines)
    (hrange : ntimes * nbaselines < 2 ^ 32)
    (hend : extraRead (fopen file1) = false ∨ extraRead (fopen file2) = false) :
    ∃ st, skaLoop sscanf_lf sqrt ntimes nbaselines threshold (fopen file1) (fopen file2) none
        (skaInit x0 y0) = some st ∧
      SkaPost sqrt U V ntimes nbaselines threshold x0 y0 st := by
  have hlen : U.length = V.length := by rw [hU, hV]
  have hnb : nbaselines ≤ U.length := by
    rw [hU]; exact Nat.le_mul_of_pos_left _ (by omega)
  have hinv := skaInv_feed sqrt U V ntimes nbaselines threshold x0 y0 hnt hlen U.length
    (le_refl _)
  have htake : (U.zip V).take U.length = U.zip V := by
    apply List.take_of_length_le
    simp [hlen]
  rw [htake] at hinv
  have hmin : min U.length nbaselines = nbaselines := Nat.min_eq_right hnb
  have hnum : numCoords ntimes nbaselines = U.length := by
    unfold numCoords
    rw [Nat.mod_eq_of_lt hrange, hU]
  have hno : ¬ (extraRead (fopen file1) = true ∧ extraRead (fopen file2) = true) := by
    rintro ⟨e1, e2⟩
    rcases hend with h | h
    · rw [h] at e1; simp at e1
    · rw [h] at e2; simp at e2
  rw [skaLoop_unroll sscanf_lf sqrt ntimes nbaselines threshold U V (fopen file1) (fopen file2)
    none (skaInit x0 y0) hf1 hf2 hlen (by rw [hnum]; simp [skaInit]) (by simp [skaInit]),
    if_neg hno]
  refine ⟨_, rfl, ?_⟩
  constructor
  · rw [hinv.hk, hmin]
  · intro j hj
    have := hinv.hindex j (by rw [hinv.hk, hmin]; exact hj)
    rw [hmin] at this
    exact this
  · exact hinv.huu
  · exact hinv.hvv
  · intro j hj
    have := hinv.hx j (by rw [hinv.hk, hmin]; exact hj)
    rw [hmin] at this
    exact this
  · intro j hj
    have := hinv.hy j (by rw [hinv.hk, hmin]; exact hj)
    rw [hmin] at this
    exact this
  · intro m hm
    exact hinv.hxframe m (fun j hj => hm j (by rw [hinv.hk, hmin] at hj; exact hj))
  · intro m hm
    exact hinv.hyframe m (fun j hj => hm j (by rw [hinv.hk, hmin] at hj; exact hj))
  · exact hinv.hnew
  · have := hinv.hmaxB; rw [hmin] at this; exact this
  · have := hinv.hmaxx; rw [hmin] at this; exact this
  · have := hinv.hminx; rw [hmin] at this; exact this
  · have := hinv.hmaxy; rw [hmin] at this; exact this
  · have := hinv.hminy; rw [hmin] at this; exact this

/-- The reading loop of `read_coord_ska` on two files whose lines hold the
`ntimes * nbaselines` values `U` and `V` (the product within the range of
`unsigned int`), when the read of the last line meets the end of neither file: the
loop runs one more iteration, in which both calls of `fgets` read nothing and
`temp_uu[num_coords]`, `temp_vv[num_coords]` are stored outside the scratch arrays. -/
theorem skaLoop_overrun (sscanf_lf : List Char → Option α) (sqrt : α → α)
    (file1 file2 : List Char) (U V : List α) (ntimes nbaselines : Nat) (threshold : α)
    (x0 y0 : Nat → α)
    (hf1 : (linesRead file1).map sscanf_lf = U.map some)
    (hf2 : (linesRead file2).map sscanf_lf = V.map some)
    (hU : U.length = ntimes * nbaselines) (hV : V.length = ntimes * nbaselines)
    (hrange : ntimes * nbaselines < 2 ^ 32)
    (hend : extraRead (fopen file1) = true ∧ extraRead (fopen file2) = true) :
    skaLoop sscanf_lf sqrt ntimes nbaselines threshold (fopen file1) (fopen file2) none
        (skaInit x0 y0) = none := by
  have hlen : U.length = V.length := by rw [hU, hV]
  have hnum : numCoords ntimes nbaselines = U.length := by
    unfold numCoords
    rw [Nat.mod_eq_of_lt hrange, hU]
  rw [skaLoop_unroll sscanf_lf sqrt ntimes nbaselines threshold U V (fopen file1) (fopen file2)
    none (skaInit x0 y0) hf1 hf2 hlen (by rw [hnum]; simp [skaInit]) (by simp [skaInit]),
    if_pos hend]

/-! ## The multi-epoch reader: running maxima and minima -/

theorem updMax_eq_max (v m : α) : updMax v m = max v m := by
  unfold updMax
  by_cases h : v > m
  · rw [if_pos h, max_eq_left (le_of_lt h)]
  · rw [if_neg h, max_eq_right (not_lt.mp h)]

theorem updMin_eq_min (v m : α) : updMin v m = min v m := by
  unfold updMin
  by_cases h : v < m
  · rw [if_pos h, min_eq_left (le_of_lt h)]
  · rw [if_neg h, min_eq_right (not_lt.mp h)]

/-- A running maximum over a list: it is at least the start value and every value
of the list, and it is the start value or a value of the list. -/
theorem foldl_updMax_spec (f : Nat → α) : ∀ (l : List Nat) (m0 : α),
    m0 ≤ l.foldl (fun m b => updMax (f b) m) m0 ∧
    (∀ b, b ∈ l → f b ≤ l.foldl (fun m b => updMax (f b) m) m0) ∧
    (l.foldl (fun m b => updMax (f b) m) m0 = m0 ∨
      ∃ b, b ∈ l ∧ l.foldl (fun m b => updMax (f b) m) m0 = f b) := by
  intro l
  induction l with
  | nil => intro m0; simp
  | cons a l ih =>
    intro m0
    obtain ⟨h1, h2, h3⟩ := ih (updMax (f a) m0)
    have hle : m0 ≤ updMax (f a) m0 := by rw [updMax_eq_max]; exact le_max_right _ _
    have hfa : f a ≤ updMax (f a) m0 := by rw [updMax_eq_max]; exact le_max_left _ _
    simp only [List.foldl_cons]
    refine ⟨le_trans hle h1, ?_, ?_⟩
    · intro b hb
      rcases List.mem_cons.mp hb with h | h
      · rw [h]; exact le_trans hfa h1
      · exact h2 b h
    · rcases h3 with h | ⟨b, hb, h⟩
      · rw [h]
        by_cases hgt : f a > m0
        · right; exact ⟨a, List.mem_cons_self _ _, by unfold updMax; rw [if_pos hgt]⟩
        · left; unfold updMax; rw [if_neg hgt]
      · right; exact ⟨b, List.mem_cons_of_mem _ hb, h⟩

/-- A running minimum over a list. -/
theorem foldl_updMin_spec (f : Nat → α) : ∀ (l : List Nat) (m0 : α),
    l.foldl (fun m b => updMin (f b) m) m0 ≤ m0 ∧
    (∀ b, b ∈ l → l.foldl (fun m b => updMin (f b) m) m0 ≤ f b) ∧
    (l.foldl (fun m b => updMin (f b) m) m0 = m0 ∨
      ∃ b, b ∈ l ∧ l.foldl (fun m b => updMin (f b) m) m0 = f b) := by
  intro l
  induction l with
  | nil => intro m0; simp
  | cons a l ih =>
    intro m0
    obtain ⟨h1, h2, h3⟩ := ih (updMin (f a) m0)
    have hle : updMin (f a) m0 ≤ m0 := by rw [updMin_eq_min]; exact min_le_right _ _
    have hfa : updMin (f a) m0 ≤ f a := by rw [updMin_eq_min]; exact min_le_left _ _
    simp only [List.foldl_cons]
    refine ⟨le_trans h1 hle, ?_, ?_⟩
    · intro b hb
      rcases List.mem_cons.mp hb with h | h
      · rw [h]; exact le_trans h1 hfa
      · exact h2 b h
    · rcases h3 with h | ⟨b, hb, h⟩
      · rw [h]
        by_cases hlt : f a < m0
        · right; exact ⟨a, List.mem_cons_self _ _, by unfold updMin; rw [if_pos hlt]⟩
        · left; unfold updMin; rw [if_neg hlt]
      · right; exact ⟨b, List.mem_cons_of_mem _ hb, h⟩

/-- The running extents take one more value. -/
theorem extInv_step (mx mn v : α) (S : α → Prop) (h : ExtInv mx mn S) :
    ExtInv (updMax v mx) (updMin v mn) (fun w => S w ∨ w = v) := by
  rw [updMax_eq_max, updMin_eq_min]
  constructor
  · exact le_trans (min_le_right _ _) h.hmn0
  · exact le_trans h.hmx0 (le_max_right _ _)
  · intro w hw
    rcases hw with hw | hw
    · exact ⟨le_trans (min_le_right _ _) (h.hbound w hw).1,
        le_trans (h.hbound w hw).2 (le_max_right _ _)⟩
    · rw [hw]; exact ⟨min_le_left _ _, le_max_left _ _⟩
  · rcases le_total v mx with hle | hle
    · rw [max_eq_right hle]
      rcases h.hmx with h0 | hS
      · exact Or.inl h0
      · exact Or.inr (Or.inl hS)
    · rw [max_eq_left hle]; exact Or.inr (Or.inr rfl)
  · rcases le_total v mn with hle | hle
    · rw [min_eq_left hle]; exact Or.inr (Or.inr rfl)
    · rw [min_eq_right hle]
      rcases h.hmn with h0 | hS
      · exact Or.inl h0
      · exact Or.inr (Or.inl hS)

theorem extInv_congr (mx mn : α) (S S' : α → Prop) (h : ExtInv mx mn S)
    (hS : ∀ w, S w ↔ S' w) : ExtInv mx mn S' := by
  constructor
  · exact h.hmn0
  · exact h.hmx0
  · intro v hv; exact h.hbound v ((hS v).mpr hv)
  · rcases h.hmx with h0 | hs
    · exact Or.inl h0
    · exact Or.inr ((hS _).mp hs)
  · rcases h.hmn with h0 | hs
    · exact Or.inl h0
    · exact Or.inr ((hS _).mp hs)

theorem extInv_of_folds (f : Nat → α) (l : List Nat) :
    ExtInv (l.foldl (fun m b => updMax (f b) m) 0) (l.foldl (fun m b => updMin (f b) m) 0)
      (fun w => ∃ b, b ∈ l ∧ w = f b) := by
  obtain ⟨a1, a2, a3⟩ := foldl_updMax_spec f l 0
  obtain ⟨b1, b2, b3⟩ := foldl_updMin_spec f l 0
  constructor
  · exact b1
  · exact a1
  · rintro v ⟨b, hb, rfl⟩
    exact ⟨b2 b hb, a2 b hb⟩
  · rcases a3 with h | ⟨b, hb, h⟩
    · exact Or.inl h
    · exact Or.inr ⟨b, hb, h⟩
  · rcases b3 with h | ⟨b, hb, h⟩
    · exact Or.inl h
    · exact Or.inr ⟨b, hb, h⟩

/-! ## The multi-epoch reader: the retained baselines -/

theorem retained_mem (sqrt : α → α) (U V : List α) (threshold : α) (n b : Nat) :
    b ∈ retainedUpTo sqrt U V threshold n ↔ b < n ∧ modulusAt sqrt U V b > threshold := by
  unfold retainedUpTo
  simp [List.mem_filter]

theorem retained_getD_mem (sqrt : α → α) (U V : List α) (threshold : α) (n j : Nat)
    (hj : j < (retainedUpTo sqrt U V threshold n).length) :
    (retainedUpTo sqrt U V threshold n).getD j 0 ∈ retainedUpTo sqrt U V threshold n := by
  rw [List.getD_eq_getElem _ _ hj]
  exact List.getElem_mem _

theorem retained_getD_lt (sqrt : α → α) (U V : List α) (threshold : α) (n j : Nat)
    (hj : j < (retainedUpTo sqrt U V threshold n).length) :
    (retainedUpTo sqrt U V threshold n).getD j 0 < n :=
  ((retained_mem sqrt U V threshold n _).mp (retained_getD_mem sqrt U V threshold n j hj)).1

theorem retained_length_le (sqrt : α → α) (U V : List α) (threshold : α) (n : Nat) :
    (retainedUpTo sqrt U V threshold n).length ≤ n := by
  unfold retainedUpTo
  exact le_trans (List.length_filter_le _ _) (by simp)

theorem mem_iff_getD (l : List Nat) (b : Nat) :
    b ∈ l ↔ ∃ j, j < l.length ∧ l.getD j 0 = b := by
  constructor
  · intro h
    obtain ⟨j, hj, hb⟩ := List.getElem_of_mem h
    exact ⟨j, hj, by rw [List.getD_eq_getElem _ _ hj]; exact hb⟩
  · rintro ⟨j, hj, rfl⟩
    rw [List.getD_eq_getElem _ _ hj]
    exact List.getElem_mem _

/-- The state after the reading loop is the state of the second loop at its entry:
the epoch `0` of every retained baseline is written. -/
theorem skaOut_of_post (sqrt : α → α) (U V : List α) (ntimes nbaselines : Nat)
    (threshold : α) (x0 y0 : Nat → α) (st : SkaState α)
    (hp : SkaPost sqrt U V ntimes nbaselines threshold x0 y0 st) :
    SkaOut sqrt U V ntimes nbaselines threshold x0 y0 st.newbaselines st.maxB
      1 0 st := by
  have hw : ∀ e j, skaWritten (retainedUpTo sqrt U V threshold nbaselines).length 1 0 e j
      ↔ e = 0 ∧ j < (retainedUpTo sqrt U V threshold nbaselines).length := by
    intro e j
    unfold skaWritten
    omega
  constructor
  · exact hp.hindex
  · exact hp.huu
  · exact hp.hvv
  · intro e j hej
    obtain ⟨he, hj⟩ := (hw e j).mp hej
    subst he
    simpa using hp.hx j hj
  · intro e j hej
    obtain ⟨he, hj⟩ := (hw e j).mp hej
    subst he
    simpa using hp.hy j hj
  · intro m hm
    apply hp.hxframe m
    intro j hj
    simpa using hm 0 j ((hw 0 j).mpr ⟨rfl, hj⟩)
  · intro m hm
    apply hp.hyframe m
    intro j hj
    simpa using hm 0 j ((hw 0 j).mpr ⟨rfl, hj⟩)
  · rw [hp.hmaxx, hp.hminx]
    apply extInv_congr _ _ _ _ (extInv_of_folds (fun b => U.getD b 0) _)
    intro w
    constructor
    · rintro ⟨b, hb, rfl⟩
      obtain ⟨j, hj, hjb⟩ := (mem_iff_getD _ b).mp hb
      exact ⟨0, j, (hw 0 j).mpr ⟨rfl, hj⟩, by rw [hjb]; simp⟩
    · rintro ⟨e, j, hej, rfl⟩
      obtain ⟨he, hj⟩ := (hw e j).mp hej
      subst he
      exact ⟨_, retained_getD_mem sqrt U V threshold nbaselines j hj, by simp⟩
  · rw [hp.hmaxy, hp.hminy]
    apply extInv_congr _ _ _ _ (extInv_of_folds (fun b => V.getD b 0) _)
    intro w
    constructor
    · rintro ⟨b, hb, rfl⟩
      obtain ⟨j, hj, hjb⟩ := (mem_iff_getD _ b).mp hb
      exact ⟨0, j, (hw 0 j).mpr ⟨rfl, hj⟩, by rw [hjb]; simp⟩
    · rintro ⟨e, j, hej, rfl⟩
      obtain ⟨he, hj⟩ := (hw e j).mp hej
      subst he
      exact ⟨_, retained_getD_mem sqrt U V threshold nbaselines j hj, by simp⟩
  · rfl
  · rfl

/-! ## The multi-epoch reader: the second loop -/

/-- The flat index `j*n + e` with `e < n` determines `j` and `e`. -/
theorem flat_index_inj (n j e j' e' : Nat) (he : e < n) (he' : e' < n)
    (h : j * n + e = j' * n + e') : j = j' ∧ e = e' := by
  have hn : 0 < n := by omega
  have h1 : (j * n + e) / n = j := by
    rw [Nat.mul_comm, Nat.mul_add_div hn, Nat.div_eq_of_lt he, Nat.add_zero]
  have h2 : (j' * n + e') / n = j' := by
    rw [Nat.mul_comm, Nat.mul_add_div hn, Nat.div_eq_of_lt he', Nat.add_zero]
  have hj : j = j' := by rw [← h1, ← h2, h]
  subst hj
  exact ⟨rfl, by omega⟩

theorem skaWritten_succ (k nt i e j : Nat) :
    skaWritten k nt (i + 1) e j ↔ skaWritten k nt i e j ∨ (e = nt ∧ j = i) := by
  unfold skaWritten
  omega

theorem skaWritten_next (k nt e j : Nat) :
    skaWritten k (nt + 1) 0 e j ↔ skaWritten k nt k e j := by
  unfold skaWritten
  omega

/-- One iteration of the loop over the retained baselines in the epoch `nt`. -/
theorem skaOut_step (sqrt : α → α) (U V : List α) (ntimes nbaselines : Nat)
    (threshold : α) (x0 y0 : Nat → α) (nw : Option Nat) (mB : α) (nt i : Nat)
    (st : SkaState α) (hnt : nt < ntimes)
    (hi : i < (retainedUpTo sqrt U V threshold nbaselines).length)
    (ho : SkaOut sqrt U V ntimes nbaselines threshold x0 y0 nw mB nt i st) :
    SkaOut sqrt U V ntimes nbaselines threshold x0 y0 nw mB nt (i + 1)
      { st with
        xp := some (U.getD (nt * nbaselines
          + (retainedUpTo sqrt U V threshold nbaselines).getD i 0) 0)
        yp := some (V.getD (nt * nbaselines
          + (retainedUpTo sqrt U V threshold nbaselines).getD i 0) 0)
        maxx := updMax (U.getD (nt * nbaselines
          + (retainedUpTo sqrt U V threshold nbaselines).getD i 0) 0) st.maxx
        minx := updMin (U.getD (nt * nbaselines
          + (retainedUpTo sqrt U V threshold nbaselines).getD i 0) 0) st.minx
        maxy := updMax (V.getD (nt * nbaselines
          + (retainedUpTo sqrt U V threshold nbaselines).getD i 0) 0) st.maxy
        miny := updMin (V.getD (nt * nbaselines
          + (retainedUpTo sqrt U V threshold nbaselines).getD i 0) 0) st.miny
        k := i * ntimes + nt
        x := Function.update st.x (i * ntimes + nt) (U.getD (nt * nbaselines
          + (retainedUpTo sqrt U V threshold nbaselines).getD i 0) 0)
        y := Function.update st.y (i * ntimes + nt) (V.getD (nt * nbaselines
          + (retainedUpTo sqrt U V threshold nbaselines).getD i 0) 0) } := by
  have hne : ∀ e j, skaWritten (retainedUpTo sqrt U V threshold nbaselines).length nt i e j →
      j * ntimes + e ≠ i * ntimes + nt := by
    intro e j hw heq
    have he : e < ntimes := by
      unfold skaWritten at hw
      omega
    obtain ⟨h1, h2⟩ := flat_index_inj ntimes j e i nt he hnt heq
    unfold skaWritten at hw
    omega
  constructor
  · exact ho.hindex
  · exact ho.huu
  · exact ho.hvv
  · intro e j hw
    show Function.update st.x (i * ntimes + nt) _ (j * ntimes + e) = _
    rcases (skaWritten_succ _ _ _ _ _).mp hw with h | ⟨he, hj⟩
    · rw [Function.update_noteq (hne e j h)]
      exact ho.hx e j h
    · subst he; subst hj
      simp
  · intro e j hw
    show Function.update st.y (i * ntimes + nt) _ (j * ntimes + e) = _
    rcases (skaWritten_succ _ _ _ _ _).mp hw with h | ⟨he, hj⟩
    · rw [Function.update_noteq (hne e j h)]
      exact ho.hy e j h
    · subst he; subst hj
      simp
  · intro m hm
    show Function.update st.x (i * ntimes + nt) _ m = _
    rw [Function.update_noteq (hm nt i ((skaWritten_succ _ _ _ _ _).mpr (Or.inr ⟨rfl, rfl⟩)))]
    exact ho.hxframe m (fun e j h => hm e j ((skaWritten_succ _ _ _ _ _).mpr (Or.inl h)))
  · intro m hm
    show Function.update st.y (i * ntimes + nt) _ m = _
    rw [Function.update_noteq (hm nt i ((skaWritten_succ _ _ _ _ _).mpr (Or.inr ⟨rfl, rfl⟩)))]
    exact ho.hyframe m (fun e j h => hm e j ((skaWritten_succ _ _ _ _ _).mpr (Or.inl h)))
  · apply extInv_congr _ _ _ _ (extInv_step _ _ (U.getD (nt * nbaselines
      + (retainedUpTo sqrt U V threshold nbaselines).getD i 0) 0) _ ho.hextx)
    intro w
    constructor
    · rintro (⟨e, j, hw, rfl⟩ | rfl)
      · exact ⟨e, j, (skaWritten_succ _ _ _ _ _).mpr (Or.inl hw), rfl⟩
      · exact ⟨nt, i, (skaWritten_succ _ _ _ _ _).mpr (Or.inr ⟨rfl, rfl⟩), rfl⟩
    · rintro ⟨e, j, hw, rfl⟩
      rcases (skaWritten_succ _ _ _ _ _).mp hw with h | ⟨he, hj⟩
      · exact Or.inl ⟨e, j, h, rfl⟩
      · subst he; subst hj; exact Or.inr rfl
  · apply extInv_congr _ _ _ _ (extInv_step _ _ (V.getD (nt * nbaselines
      + (retainedUpTo sqrt U V threshold nbaselines).getD i 0) 0) _ ho.hexty)
    intro w
    constructor
    · rintro (⟨e, j, hw, rfl⟩ | rfl)
      · exact ⟨e, j, (skaWritten_succ _ _ _ _ _).mpr (Or.inl hw), rfl⟩
      · exact ⟨nt, i, (skaWritten_succ _ _ _ _ _).mpr (Or.inr ⟨rfl, rfl⟩), rfl⟩
    · rintro ⟨e, j, hw, rfl⟩
      rcases (skaWritten_succ _ _ _ _ _).mp hw with h | ⟨he, hj⟩
      · exact Or.inl ⟨e, j, h, rfl⟩
      · subst he; subst hj; exact Or.inr rfl
  · exact ho.hnew
  · exact ho.hmaxB

/-- The loop over the retained baselines in the epoch `nt` returns and completes the
epoch. -/
theorem skaInner_spec (sqrt : α → α) (U V : List α) (ntimes nbaselines : Nat)
    (threshold : α) (x0 y0 : Nat → α) (nw : Option Nat) (mB : α) (nt : Nat)
    (hnt : nt < ntimes) (hU : U.length = ntimes * nbaselines) :
    ∀ (d i : Nat) (st : SkaState α),
      i + d = (retainedUpTo sqrt U V threshold nbaselines).length →
      SkaOut sqrt U V ntimes nbaselines threshold x0 y0 nw mB nt i st →
      ∃ st', skaInner ntimes U.length (nt * nbaselines) nt
          (retainedUpTo sqrt U V threshold nbaselines).length i st = some st' ∧
        SkaOut sqrt U V ntimes nbaselines threshold x0 y0 nw mB nt
          (retainedUpTo sqrt U V threshold nbaselines).length st' := by
  intro d
  induction d with
  | zero =>
    intro i st hi ho
    rw [skaInner, if_neg (by omega)]
    refine ⟨_, rfl, ?_⟩
    have hik : i = (retainedUpTo sqrt U V threshold nbaselines).length := by omega
    rw [← hik]
    exact { hindex := ho.hindex, huu := ho.huu, hvv := ho.hvv, hx := ho.hx, hy := ho.hy,
            hxframe := ho.hxframe, hyframe := ho.hyframe, hextx := ho.hextx,
            hexty := ho.hexty, hnew := ho.hnew, hmaxB := ho.hmaxB }
  | succ d ih =>
    intro i st hi ho
    have hik : i < (retainedUpTo sqrt U V threshold nbaselines).length := by omega
    have hkn := retained_length_le sqrt U V threshold nbaselines
    have hRlt := retained_getD_lt sqrt U V threshold nbaselines i hik
    have hnbM : nbaselines ≤ U.length := by
      rw [hU]; exact Nat.le_mul_of_pos_left _ (by omega)
    have hcell : nt * nbaselines + (retainedUpTo sqrt U V threshold nbaselines).getD i 0
        < U.length := by
      have h1 : (nt + 1) * nbaselines ≤ ntimes * nbaselines :=
        Nat.mul_le_mul_right _ (by omega)
      rw [hU]
      have h2 : (nt + 1) * nbaselines = nt * nbaselines + nbaselines := by ring
      omega
    rw [skaInner, if_pos hik]
    have hidx : readCell U.length st.index i
        = some ((retainedUpTo sqrt U V threshold nbaselines).getD i 0) := by
      unfold readCell
      rw [if_pos (by omega), ho.hindex i hik]
    have huu : readCell U.length st.temp_uu
        (nt * nbaselines + (retainedUpTo sqrt U V threshold nbaselines).getD i 0)
        = some (U.getD (nt * nbaselines
          + (retainedUpTo sqrt U V threshold nbaselines).getD i 0) 0) := by
      unfold readCell
      rw [if_pos hcell, ho.huu _ hcell]
    have hvv : readCell U.length st.temp_vv
        (nt * nbaselines + (retainedUpTo sqrt U V threshold nbaselines).getD i 0)
        = some (V.getD (nt * nbaselines
          + (retainedUpTo sqrt U V threshold nbaselines).getD i 0) 0) := by
      unfold readCell
      rw [if_pos hcell, ho.hvv _ hcell]
    rw [hidx]
    simp only [huu, hvv]
    exact ih (i + 1) _ (by omega)
      (skaOut_step sqrt U V ntimes nbaselines threshold x0 y0 nw mB nt i st hnt hik ho)

/-- The loop over the epochs `nt .. ntimes-1` returns and completes every epoch, when
`newbaselines` holds the number of retained baselines. -/
theorem skaOuter_spec (sqrt : α → α) (U V : List α) (ntimes nbaselines : Nat)
    (threshold : α) (x0 y0 : Nat → α) (mB : α)
    (hU : U.length = ntimes * nbaselines) :
    ∀ (d nt : Nat) (st : SkaState α), nt + d = ntimes → 1 ≤ nt →
      SkaOut sqrt U V ntimes nbaselines threshold x0 y0
        (some (retainedUpTo sqrt U V threshold nbaselines).length) mB nt 0 st →
      ∃ st', skaOuter ntimes nbaselines U.length nt ((nt - 1) * nbaselines) st = some st' ∧
        SkaOut sqrt U V ntimes nbaselines threshold x0 y0
          (some (retainedUpTo sqrt U V threshold nbaselines).length) mB ntimes 0 st' := by
  intro d
  induction d with
  | zero =>
    intro nt st hd _ ho
    rw [skaOuter, if_neg (by omega)]
    have : nt = ntimes := by omega
    subst this
    exact ⟨st, rfl, ho⟩
  | succ d ih =>
    intro nt st hd h1 ho
    rw [skaOuter, if_pos (by omega), ho.hnew]
    simp only
    have hstart : (nt - 1) * nbaselines + nbaselines = nt * nbaselines := by
      have : nt = (nt - 1) + 1 := by omega
      conv_rhs => rw [this, Nat.add_mul, Nat.one_mul]
    rw [hstart]
    obtain ⟨st1, hrun, ho1⟩ := skaInner_spec sqrt U V ntimes nbaselines threshold x0 y0 _ mB
      nt (by omega) hU _ 0 st (Nat.zero_add _) ho
    rw [hrun]
    simp only
    have ho2 : SkaOut sqrt U V ntimes nbaselines threshold x0 y0
        (some (retainedUpTo sqrt U V threshold nbaselines).length) mB (nt + 1) 0 st1 := by
      exact
        { hindex := ho1.hindex, huu := ho1.huu, hvv := ho1.hvv
          hx := fun e j hw => ho1.hx e j ((skaWritten_next _ _ _ _).mp hw)
          hy := fun e j hw => ho1.hy e j ((skaWritten_next _ _ _ _).mp hw)
          hxframe := fun m hm =>
            ho1.hxframe m (fun e j hw => hm e j ((skaWritten_next _ _ _ _).mpr hw))
          hyframe := fun m hm =>
            ho1.hyframe m (fun e j hw => hm e j ((skaWritten_next _ _ _ _).mpr hw))
          hextx := extInv_congr _ _ _ _ ho1.hextx (fun w =>
            ⟨fun ⟨e, j, hw, h⟩ => ⟨e, j, (skaWritten_next _ _ _ _).mpr hw, h⟩,
             fun ⟨e, j, hw, h⟩ => ⟨e, j, (skaWritten_next _ _ _ _).mp hw, h⟩⟩)
          hexty := extInv_congr _ _ _ _ ho1.hexty (fun w =>
            ⟨fun ⟨e, j, hw, h⟩ => ⟨e, j, (skaWritten_next _ _ _ _).mpr hw, h⟩,
             fun ⟨e, j, hw, h⟩ => ⟨e, j, (skaWritten_next _ _ _ _).mp hw, h⟩⟩)
          hnew := ho1.hnew, hmaxB := ho1.hmaxB }
    have := ih (nt + 1) st1 (by omega) (by omega) ho2
    simpa using this

/-! ## The multi-epoch reader: the whole function -/

/-- The run of `read_coord_ska` on two files whose lines hold the `ntimes * nbaselines`
values `U` and `V` (`ntimes ≥ 1`, the product within the range of `unsigned int`), when
the read of the last line meets the end of one of the files: it returns, its outputs
are the variables of a final state `st`, and `st` is described by the values of the
files, with every epoch of every retained baseline written. -/
theorem read_coord_ska_run [FloorRing α] (sscanf_lf : List Char → Option α) (sqrt : α → α)
    (file1 file2 : List Char) (U V : List α) (ntimes nbaselines : Nat) (x0 y0 : Nat → α)
    (threshold : α) (hnt : 1 ≤ ntimes)
    (hf1 : (linesRead file1).map sscanf_lf = U.map some)
    (hf2 : (linesRead file2).map sscanf_lf = V.map some)
    (hU : U.length = ntimes * nbaselines) (hV : V.length = ntimes * nbaselines)
    (hrange : ntimes * nbaselines < 2 ^ 32)
    (hend : extraRead (fopen file1) = false ∨ extraRead (fopen file2) = false) :
    ∃ st : SkaState α,
      read_coord_ska sscanf_lf sqrt file1 file2 ntimes nbaselines x0 y0 threshold
        = some { nbaselines := st.newbaselines, x := st.x, y := st.y,
                 len := ((Int.ceil (max (max st.maxx (-st.minx)) (max st.maxy (-st.miny))) : Int) : α),
                 maxB := st.maxB } ∧
      SkaOut sqrt U V ntimes nbaselines threshold x0 y0
        (if nbaselines < U.length then
          some (retainedUpTo sqrt U V threshold nbaselines).length else none)
        ((retainedUpTo sqrt U V threshold nbaselines).foldl
          (fun m b => updMax (modulusAt sqrt U V b) m) 0)
        ntimes 0 st := by
  obtain ⟨st, hloop, hp⟩ := skaLoop_post sscanf_lf sqrt file1 file2 U V ntimes nbaselines
    threshold x0 y0 hnt hf1 hf2 hU hV hrange hend
  have hnum : numCoords ntimes nbaselines = U.length := by
    unfold numCoords
    rw [Nat.mod_eq_of_lt hrange, hU]
  have hne : U ≠ [] := by
    intro hnil
    have h1 : linesOf (fopen file1) = [] := by
      rw [hnil] at hf1
      simpa [linesRead] using hf1
    have h2 : linesOf (fopen file2) = [] := by
      have hVnil : V = [] := List.length_eq_zero.mp (by rw [hV, ← hU, hnil]; rfl)
      rw [hVnil] at hf2
      simpa [linesRead] using hf2
    have e1 : extraRead (fopen file1) = true := by
      rw [extraRead_open _ rfl, (linesOf_eq_nil_iff _ rfl).mp h1]
    have e2 : extraRead (fopen file2) = true := by
      rw [extraRead_open _ rfl, (linesOf_eq_nil_iff _ rfl).mp h2]
    rcases hend with h | h
    · rw [h] at e1; simp at e1
    · rw [h] at e2; simp at e2
  have ho := skaOut_of_post sqrt U V ntimes nbaselines threshold x0 y0 st hp
  rw [hp.hnew, hp.hmaxB] at ho
  unfold read_coord_ska
  simp only [hloop, hnum]
  by_cases h1 : ntimes = 1
  · subst h1
    rw [skaOuter, if_neg (by omega)]
    exact ⟨st, rfl, ho⟩
  · have hnew : nbaselines < U.length := by
      have hpos : 0 < nbaselines := by
        rcases Nat.eq_zero_or_pos nbaselines with h0 | h0
        · exfalso
          apply hne
          exact List.length_eq_zero.mp (by rw [hU, h0, Nat.mul_zero])
        · exact h0
      rw [hU]
      have h2 : 2 ≤ ntimes := by omega
      calc nbaselines < 2 * nbaselines := by omega
        _ ≤ ntimes * nbaselines := Nat.mul_le_mul_right _ h2
    rw [if_pos hnew] at ho
    obtain ⟨st', hrun, ho'⟩ := skaOuter_spec sqrt U V ntimes nbaselines threshold x0 y0 _ hU
      (ntimes - 1) 1 st (by omega) (le_refl 1) ho
    simp only [Nat.sub_self, Nat.zero_mul] at hrun
    rw [hrun]
    rw [if_pos hnew]
    exact ⟨st', rfl, ho'⟩

/-- The run of `read_coord_ska` on two files whose lines hold the `ntimes * nbaselines`
values `U` and `V`, when the read of the last line meets the end of neither file (both
files end with a newline character, or both are empty): the reading loop stores
`temp_uu[num_coords]` and `temp_vv[num_coords]` outside the scratch arrays, and the run
is undefined. -/
theorem read_coord_ska_overrun [FloorRing α] (sscanf_lf : List Char → Option α)
    (sqrt : α → α) (file1 file2 : List Char) (U V : List α) (ntimes nbaselines : Nat)
    (x0 y0 : Nat → α) (threshold : α)
    (hf1 : (linesRead file1).map sscanf_lf = U.map some)
    (hf2 : (linesRead file2).map sscanf_lf = V.map some)
    (hU : U.length = ntimes * nbaselines) (hV : V.length = ntimes * nbaselines)
    (hrange : ntimes * nbaselines < 2 ^ 32)
    (hend : extraRead (fopen file1) = true ∧ extraRead (fopen file2) = true) :
    read_coord_ska sscanf_lf sqrt file1 file2 ntimes nbaselines x0 y0 threshold = none := by
  unfold read_coord_ska
  simp only [skaLoop_overrun sscanf_lf sqrt file1 file2 U V ntimes nbaselines threshold x0 y0
    hf1 hf2 hU hV hrange hend]

/-- On two files that end with a newline character and whose lines hold the
`ntimes * nbaselines` values `U` and `V`, the run of `read_coord_ska` is undefined. -/
theorem read_coord_ska_newline_terminated [FloorRing α] (sscanf_lf : List Char → Option α)
    (sqrt : α → α) (file1 file2 : List Char) (U V : List α) (ntimes nbaselines : Nat)
    (x0 y0 : Nat → α) (threshold : α)
    (hf1 : (linesRead file1).map sscanf_lf = U.map some)
    (hf2 : (linesRead file2).map sscanf_lf = V.map some)
    (hU : U.length = ntimes * nbaselines) (hV : V.length = ntimes * nbaselines)
    (hrange : ntimes * nbaselines < 2 ^ 32)
    (hnl1 : file1.getLast? = some '\n') (hnl2 : file2.getLast? = some '\n') :
    read_coord_ska sscanf_lf sqrt file1 file2 ntimes nbaselines x0 y0 threshold = none :=
  read_coord_ska_overrun sscanf_lf sqrt file1 file2 U V ntimes nbaselines x0 y0 threshold
    hf1 hf2 hU hV hrange
    ⟨extraRead_fopen_newline file1 hnl1, extraRead_fopen_newline file2 hnl2⟩

/-! ## The multi-epoch reader: number of retained baselines and maximum modulus -/

/-- The number of retained baselines is the number of epoch-0 baselines whose modulus
exceeds the threshold. -/
theorem retained_length_eq_count (sqrt : α → α) (U V : List α) (threshold : α) (n : Nat) :
    (retainedUpTo sqrt U V threshold n).length
      = ((List.range n).filter
          (fun b => decide (sqrt (U.getD b 0 * U.getD b 0 + V.getD b 0 * V.getD b 0)
            > threshold))).length := rfl

/-- The value stored in `*nbaselines` by a defined run of `read_coord_ska`: the number
of epoch-0 baselines above the threshold when the files hold more than one epoch, an
indeterminate value otherwise. -/
theorem nbaselines_written [FloorRing α] (sscanf_lf : List Char → Option α) (sqrt : α → α)
    (file1 file2 : List Char) (U V : List α) (ntimes nbaselines : Nat) (x0 y0 : Nat → α)
    (threshold : α) (hnt : 1 ≤ ntimes)
    (hf1 : (linesRead file1).map sscanf_lf = U.map some)
    (hf2 : (linesRead file2).map sscanf_lf = V.map some)
    (hU : U.length = ntimes * nbaselines) (hV : V.length = ntimes * nbaselines)
    (hrange : ntimes * nbaselines < 2 ^ 32)
    (hend : extraRead (fopen file1) = false ∨ extraRead (fopen file2) = false) :
    ∃ r, read_coord_ska sscanf_lf sqrt file1 file2 ntimes nbaselines x0 y0 threshold = some r ∧
      r.nbaselines = (if nbaselines < U.length then
          some (retainedUpTo sqrt U V threshold nbaselines).length else none) := by
  obtain ⟨st, hrun, ho⟩ := read_coord_ska_run sscanf_lf sqrt file1 file2 U V ntimes nbaselines
    x0 y0 threshold hnt hf1 hf2 hU hV hrange hend
  exact ⟨_, hrun, ho.hnew⟩

theorem sqrt_25 : Real.sqrt (3 * 3 + 4 * 4) = 5 := by
  rw [show (3 * 3 + 4 * 4 : ℝ) = 5 ^ 2 by norm_num]
  exact Real.sqrt_sq (by norm_num)

/-- C11 (code defect): for `ntimes = 1`, one baseline `(u, v) = (3, 4)` of modulus `5`
above the threshold `1`, and two files of one line each (`3` and `4`) that do not end
with a newline character, the reading loop ends before the test `i == *nbaselines` is
reached: `newbaselines` is never assigned and the value stored in `*nbaselines` is
indeterminate, whereas one baseline exceeds the threshold. -/
theorem nbaselines_indeterminate_single_epoch :
    (linesRead ['3']).map scanDigits = [some (3 : ℝ)] ∧
    (linesRead ['4']).map scanDigits = [some (4 : ℝ)] ∧
    (retainedUpTo Real.sqrt [3] [4] 1 1).length = 1 ∧
    ∃ r, read_coord_ska scanDigits Real.sqrt ['3'] ['4'] 1 1 (fun _ => 0) (fun _ => 0) 1
        = some r ∧ r.nbaselines = none := by
  have hf1 : (linesRead ['3']).map scanDigits = [some (3 : ℝ)] := by
    simp [linesRead, linesOf, fopen, fgets, getLine, cstring, scanDigits]
  have hf2 : (linesRead ['4']).map scanDigits = [some (4 : ℝ)] := by
    simp [linesRead, linesOf, fopen, fgets, getLine, cstring, scanDigits]
  have hend : extraRead (fopen ['3']) = false := by
    simp [extraRead, fopen, fgets, getLine]
  refine ⟨hf1, hf2, ?_, ?_⟩
  · have h : modulusAt Real.sqrt [3] [4] 0 > 1 := by
      show Real.sqrt (3 * 3 + 4 * 4) > 1
      rw [sqrt_25]; norm_num
    have := retainedUpTo_succ Real.sqrt [3] [4] 1 0
    rw [if_pos h] at this
    rw [this]
    simp [retainedUpTo]
  · obtain ⟨r, hrun, hnb⟩ := nbaselines_written scanDigits Real.sqrt ['3'] ['4'] [3] [4] 1 1
      (fun _ => 0) (fun _ => 0) 1 (le_refl 1) hf1 hf2 rfl rfl (by norm_num) (Or.inl hend)
    refine ⟨r, hrun, ?_⟩
    rw [hnb, if_neg]
    simp

/-- C13 (the claim as stated is false): with two epochs of one baseline, `(3, 4)` of
modulus `5` at epoch 0, and the threshold `10`, `read_coord_ska` returns `0`, not the
maximum modulus `5` of the epoch-0 baselines: `maxB` is updated only for baselines
above the threshold.  The files hold the lines `3`, `6` and `4`, `8`, the last line
without a newline character. -/
theorem maxB_ignores_baselines_below_threshold :
    (linesRead ['3', '\n', '6']).map scanDigits = [some (3 : ℝ), some 6] ∧
    (linesRead ['4', '\n', '8']).map scanDigits = [some (4 : ℝ), some 8] ∧
    modulusAt Real.sqrt [3, 6] [4, 8] 0 = 5 ∧
    ∃ r, read_coord_ska scanDigits Real.sqrt ['3', '\n', '6'] ['4', '\n', '8'] 2 1
        (fun _ => 0) (fun _ => 0) 10 = some r ∧ r.maxB = 0 := by
  have hf1 : (linesRead ['3', '\n', '6']).map scanDigits = [some (3 : ℝ), some 6] := by
    simp [linesRead, linesOf, fopen, fgets, getLine, cstring, scanDigits]
  have hf2 : (linesRead ['4', '\n', '8']).map scanDigits = [some (4 : ℝ), some 8] := by
    simp [linesRead, linesOf, fopen, fgets, getLine, cstring, scanDigits]
  have hend : extraRead (fopen ['3', '\n', '6']) = false := by
    simp [extraRead, fopen, fgets, getLine]
  have hm : modulusAt Real.sqrt [3, 6] [4, 8] 0 = 5 := sqrt_25
  refine ⟨hf1, hf2, hm, ?_⟩
  obtain ⟨st, hrun, ho⟩ := read_coord_ska_run scanDigits Real.sqrt ['3', '\n', '6']
    ['4', '\n', '8'] [3, 6] [4, 8] 2 1 (fun _ => 0) (fun _ => 0) 10 (by norm_num) hf1 hf2
    rfl rfl (by norm_num) (Or.inl hend)
  refine ⟨_, hrun, ?_⟩
  show st.maxB = 0
  rw [ho.hmaxB]
  have h : ¬ modulusAt Real.sqrt [3, 6] [4, 8] 0 > 10 := by rw [hm]; norm_num
  have := retainedUpTo_succ Real.sqrt [3, 6] [4, 8] 10 0
  rw [if_neg h] at this
  rw [this]
  simp [retainedUpTo]

/-- C13 (amended): for `ntimes ≥ 1`, a product `ntimes * nbaselines` within the range
of `unsigned int`, and two files whose lines hold `ntimes * nbaselines` values each,
the read of the last line meeting the end of one of the files (that file does not end
with a newline character), `read_coord_ska` returns the maximum of
`sqrt(u_b^2 + v_b^2)` over the epoch-0 baselines `b` whose modulus exceeds `threshold`,
and `0` when there is none; `sqrt` has no negative value. -/
theorem maxB_over_retained [FloorRing α] (sscanf_lf : List Char → Option α) (sqrt : α → α)
    (file1 file2 : List Char) (U V : List α) (ntimes nbaselines : Nat) (x0 y0 : Nat → α)
    (threshold : α) (hnt : 1 ≤ ntimes)
    (hf1 : (linesRead file1).map sscanf_lf = U.map some)
    (hf2 : (linesRead file2).map sscanf_lf = V.map some)
    (hU : U.length = ntimes * nbaselines) (hV : V.length = ntimes * nbaselines)
    (hrange : ntimes * nbaselines < 2 ^ 32)
    (hend : extraRead (fopen file1) = false ∨ extraRead (fopen file2) = false)
    (hsqrt : ∀ t, 0 ≤ sqrt t) :
    ∃ r, read_coord_ska sscanf_lf sqrt file1 file2 ntimes nbaselines x0 y0 threshold = some r ∧
      (∀ b, b < nbaselines → modulusAt sqrt U V b > threshold →
        modulusAt sqrt U V b ≤ r.maxB) ∧
      ((∃ b, b < nbaselines ∧ modulusAt sqrt U V b > threshold) →
        ∃ b, b < nbaselines ∧ modulusAt sqrt U V b > threshold ∧
          r.maxB = modulusAt sqrt U V b) ∧
      ((∀ b, b < nbaselines → ¬ modulusAt sqrt U V b > threshold) → r.maxB = 0) := by
  obtain ⟨st, hrun, ho⟩ := read_coord_ska_run sscanf_lf sqrt file1 file2 U V ntimes nbaselines
    x0 y0 threshold hnt hf1 hf2 hU hV hrange hend
  obtain ⟨f1, f2, f3⟩ := foldl_updMax_spec (fun b => modulusAt sqrt U V b)
    (retainedUpTo sqrt U V threshold nbaselines) 0
  refine ⟨_, hrun, ?_, ?_, ?_⟩
  · intro b hb hmod
    show modulusAt sqrt U V b ≤ st.maxB
    rw [ho.hmaxB]
    exact f2 b ((retained_mem sqrt U V threshold nbaselines b).mpr ⟨hb, hmod⟩)
  · rintro ⟨b, hb, hmod⟩
    show ∃ b, b < nbaselines ∧ modulusAt sqrt U V b > threshold ∧ st.maxB = modulusAt sqrt U V b
    rw [ho.hmaxB]
    rcases f3 with h0 | ⟨c, hc, hcm⟩
    · have hle := f2 b ((retained_mem sqrt U V threshold nbaselines b).mpr ⟨hb, hmod⟩)
      rw [h0] at hle
      have hge : 0 ≤ modulusAt sqrt U V b := hsqrt _
      exact ⟨b, hb, hmod, by rw [h0]; exact le_antisymm hge hle⟩
    · obtain ⟨hc1, hc2⟩ := (retained_mem sqrt U V threshold nbaselines c).mp hc
      exact ⟨c, hc1, hc2, hcm⟩
  · intro hall
    show st.maxB = 0
    rw [ho.hmaxB]
    have hnil : retainedUpTo sqrt U V threshold nbaselines = [] := by
      apply List.eq_nil_iff_forall_not_mem.mpr
      intro b hb
      obtain ⟨h1, h2⟩ := (retained_mem sqrt U V threshold nbaselines b).mp hb
      exact hall b h1 h2
    rw [hnil]
    rfl

/-- Witness of `maxB_over_retained`: two epochs of one baseline, `(3, 4)` then
`(30, 40)`, in two files whose last line has no newline character, over the reals with
the square root of the reals. -/
theorem maxB_over_retained_witness :
    ∃ r, read_coord_ska scanDigits Real.sqrt ['3', '\n', '3', '0'] ['4', '\n', '4', '0'] 2 1
        (fun _ => 0) (fun _ => 0) 1 = some r ∧
      (∀ b, b < 1 → modulusAt Real.sqrt [3, 30] [4, 40] b > 1 →
        modulusAt Real.sqrt [3, 30] [4, 40] b ≤ r.maxB) := by
  obtain ⟨r, hrun, h1, _, _⟩ := maxB_over_retained scanDigits Real.sqrt
    ['3', '\n', '3', '0'] ['4', '\n', '4', '0'] [3, 30] [4, 40] 2 1
    (fun _ => 0) (fun _ => 0) 1 (by norm_num)
    (by simp [linesRead, linesOf, fopen, fgets, getLine, cstring, scanDigits])
    (by simp [linesRead, linesOf, fopen, fgets, getLine, cstring, scanDigits])
    rfl rfl (by norm_num)
    (Or.inl (by simp [extraRead, fopen, fgets, getLine])) Real.sqrt_nonneg
  exact ⟨r, hrun, h1⟩

/-! ## The multi-epoch reader: output layout and grid extent -/

theorem skaWritten_final (k ntimes e j : Nat) :
    skaWritten k ntimes 0 e j ↔ e < ntimes ∧ j < k := by
  unfold skaWritten
  omega

theorem getElem?_eq_some_getD (l : List α) (k : Nat) (h : k < l.length) :
    l[k]? = some (l.getD k 0) := by
  rw [List.getElem?_eq_getElem h, List.getD_eq_getElem _ _ h]

/-- The retained positions are increasing. -/
theorem retained_increasing (sqrt : α → α) (U V : List α) (threshold : α) (n i j : Nat)
    (hij : i < j) (hj : j < (retainedUpTo sqrt U V threshold n).length) :
    (retainedUpTo sqrt U V threshold n).getD i 0 < (retainedUpTo sqrt U V threshold n).getD j 0 := by
  have hp : (retainedUpTo sqrt U V threshold n).Pairwise (· < ·) := by
    unfold retainedUpTo
    exact List.Pairwise.filter _ (List.pairwise_lt_range n)
  rw [List.getD_eq_getElem _ _ (by omega), List.getD_eq_getElem _ _ hj]
  exact (List.pairwise_iff_getElem.mp hp) i j (by omega) hj hij

/-- The layout of the outputs of a defined run.  Let `idx_0 < idx_1 < ... < idx_(n'-1)`
be the epoch-0 positions of the baselines whose modulus exceeds `threshold`.  For
`ntimes ≥ 1` and two files whose lines hold `ntimes * nbaselines` values each, the read
of the last line meeting the end of one of the files, `read_coord_ska` returns with
`x[i*ntimes + nt] = U[nt*nb + idx_i]` and `y[i*ntimes + nt] = V[nt*nb + idx_i]` for
every `i < n'` and `nt < ntimes`, and every other output entry, in particular every
entry of flat index `≥ n'*ntimes`, keeps its contents. -/
theorem layout_of_defined_run [FloorRing α] (sscanf_lf : List Char → Option α) (sqrt : α → α)
    (file1 file2 : List Char) (U V : List α) (ntimes nbaselines : Nat) (x0 y0 : Nat → α)
    (threshold : α) (hnt : 1 ≤ ntimes)
    (hf1 : (linesRead file1).map sscanf_lf = U.map some)
    (hf2 : (linesRead file2).map sscanf_lf = V.map some)
    (hU : U.length = ntimes * nbaselines) (hV : V.length = ntimes * nbaselines)
    (hrange : ntimes * nbaselines < 2 ^ 32)
    (hend : extraRead (fopen file1) = false ∨ extraRead (fopen file2) = false) :
    (∀ b, b ∈ retainedUpTo sqrt U V threshold nbaselines ↔
      b < nbaselines ∧ sqrt (U.getD b 0 * U.getD b 0 + V.getD b 0 * V.getD b 0) > threshold) ∧
    (∀ i j, i < j → j < (retainedUpTo sqrt U V threshold nbaselines).length →
      (retainedUpTo sqrt U V threshold nbaselines).getD i 0
        < (retainedUpTo sqrt U V threshold nbaselines).getD j 0) ∧
    ∃ r, read_coord_ska sscanf_lf sqrt file1 file2 ntimes nbaselines x0 y0 threshold = some r ∧
      (∀ i nt, i < (retainedUpTo sqrt U V threshold nbaselines).length → nt < ntimes →
        U[nt * nbaselines + (retainedUpTo sqrt U V threshold nbaselines).getD i 0]?
          = some (r.x (i * ntimes + nt)) ∧
        V[nt * nbaselines + (retainedUpTo sqrt U V threshold nbaselines).getD i 0]?
          = some (r.y (i * ntimes + nt))) ∧
      (∀ m, (∀ i nt, i < (retainedUpTo sqrt U V threshold nbaselines).length → nt < ntimes →
          m ≠ i * ntimes + nt) → r.x m = x0 m ∧ r.y m = y0 m) ∧
      (∀ m, (retainedUpTo sqrt U V threshold nbaselines).length * ntimes ≤ m →
        r.x m = x0 m ∧ r.y m = y0 m) := by
  refine ⟨fun b => retained_mem sqrt U V threshold nbaselines b,
    fun i j hij hj => retained_increasing sqrt U V threshold nbaselines i j hij hj, ?_⟩
  obtain ⟨st, hrun, ho⟩ := read_coord_ska_run sscanf_lf sqrt file1 file2 U V ntimes nbaselines
    x0 y0 threshold hnt hf1 hf2 hU hV hrange hend
  have hframe : ∀ m, (∀ i nt, i < (retainedUpTo sqrt U V threshold nbaselines).length →
      nt < ntimes → m ≠ i * ntimes + nt) → st.x m = x0 m ∧ st.y m = y0 m := by
    intro m hm
    have hm' : ∀ e j, skaWritten (retainedUpTo sqrt U V threshold nbaselines).length ntimes 0 e j
        → m ≠ j * ntimes + e := by
      intro e j hw
      obtain ⟨he, hj⟩ := (skaWritten_final _ _ _ _).mp hw
      exact hm j e hj he
    exact ⟨ho.hxframe m hm', ho.hyframe m hm'⟩
  refine ⟨_, hrun, ?_, hframe, ?_⟩
  · intro i nt hi hnt'
    have hw := (skaWritten_final (retainedUpTo sqrt U V threshold nbaselines).length
      ntimes nt i).mpr ⟨hnt', hi⟩
    have hlt : nt * nbaselines + (retainedUpTo sqrt U V threshold nbaselines).getD i 0
        < ntimes * nbaselines := by
      have h1 := retained_getD_lt sqrt U V threshold nbaselines i hi
      have h2 : (nt + 1) * nbaselines ≤ ntimes * nbaselines :=
        Nat.mul_le_mul_right _ (by omega)
      have h3 : (nt + 1) * nbaselines = nt * nbaselines + nbaselines := by ring
      omega
    constructor
    · show _ = some (st.x (i * ntimes + nt))
      rw [ho.hx nt i hw]
      exact getElem?_eq_some_getD U _ (by omega)
    · show _ = some (st.y (i * ntimes + nt))
      rw [ho.hy nt i hw]
      exact getElem?_eq_some_getD V _ (by omega)
  · intro m hm
    apply hframe
    intro i nt hi hnt' heq
    have h1 : (i + 1) * ntimes ≤ (retainedUpTo sqrt U V threshold nbaselines).length * ntimes :=
      Nat.mul_le_mul_right _ (by omega)
    have h2 : (i + 1) * ntimes = i * ntimes + ntimes := by ring
    omega

/-- An instance of `layout_of_defined_run`: two epochs of one baseline, `(3, 4)` then
`(30, 40)`, in two files whose last line has no newline character. -/
theorem layout_of_defined_run_example :
    ∃ r, read_coord_ska scanDigits Real.sqrt ['3', '\n', '3', '0'] ['4', '\n', '4', '0'] 2 1
        (fun _ => 0) (fun _ => 0) 1 = some r ∧
      (∀ m, (retainedUpTo Real.sqrt [3, 30] [4, 40] 1 1).length * 2 ≤ m →
        r.x m = 0 ∧ r.y m = 0) := by
  obtain ⟨_, _, r, hrun, _, _, h3⟩ := layout_of_defined_run scanDigits Real.sqrt
    ['3', '\n', '3', '0'] ['4', '\n', '4', '0'] [3, 30] [4, 40] 2 1
    (fun _ => 0) (fun _ => 0) 1 (by norm_num)
    (by simp [linesRead, linesOf, fopen, fgets, getLine, cstring, scanDigits])
    (by simp [linesRead, linesOf, fopen, fgets, getLine, cstring, scanDigits])
    rfl rfl (by norm_num)
    (Or.inl (by simp [extraRead, fopen, fgets, getLine]))
  exact ⟨r, hrun, h3⟩

/-- C12 (code defect): for `ntimes = 3`, one baseline and the threshold `1`, on the
files of the lines `3`, `6`, `9` and `4`, `8`, `5`, each line ended by a newline
character, the baseline `(3, 4)` of modulus `5` is retained, and the claim gives
`x[nt] = U[nt]`, `y[nt] = V[nt]` for `nt < 3`.  After the three lines the end-of-file
indicator of neither file is set, the loop `while (!feof(fp1) && !feof(fp2))` runs a
fourth iteration, and the stores `temp_uu[3]`, `temp_vv[3]` fall outside the three
cells of the scratch arrays: the run is undefined. -/
theorem output_layout_overrun :
    (linesRead ['3', '\n', '6', '\n', '9', '\n']).map scanDigits
      = [some (3 : ℝ), some 6, some 9] ∧
    (linesRead ['4', '\n', '8', '\n', '5', '\n']).map scanDigits
      = [some (4 : ℝ), some 8, some 5] ∧
    (retainedUpTo Real.sqrt [3, 6, 9] [4, 8, 5] 1 1).length = 1 ∧
    read_coord_ska scanDigits Real.sqrt ['3', '\n', '6', '\n', '9', '\n']
      ['4', '\n', '8', '\n', '5', '\n'] 3 1 (fun _ => 0) (fun _ => 0) 1 = none := by
  have hf1 : (linesRead ['3', '\n', '6', '\n', '9', '\n']).map scanDigits
      = [some (3 : ℝ), some 6, some 9] := by
    simp [linesRead, linesOf, fopen, fgets, getLine, cstring, scanDigits]
  have hf2 : (linesRead ['4', '\n', '8', '\n', '5', '\n']).map scanDigits
      = [some (4 : ℝ), some 8, some 5] := by
    simp [linesRead, linesOf, fopen, fgets, getLine, cstring, scanDigits]
  refine ⟨hf1, hf2, ?_, ?_⟩
  · have h : modulusAt Real.sqrt [3, 6, 9] [4, 8, 5] 0 > 1 := by
      show Real.sqrt (3 * 3 + 4 * 4) > 1
      rw [sqrt_25]; norm_num
    have := retainedUpTo_succ Real.sqrt [3, 6, 9] [4, 8, 5] 1 0
    rw [if_pos h] at this
    rw [this]
    simp [retainedUpTo]
  · exact read_coord_ska_overrun scanDigits Real.sqrt _ _ [3, 6, 9] [4, 8, 5] 3 1
      (fun _ => 0) (fun _ => 0) 1 hf1 hf2 rfl rfl (by norm_num)
      ⟨by simp [extraRead, fopen, fgets, getLine], by simp [extraRead, fopen, fgets, getLine]⟩

/-- The extent `max(mx, -mn)` of running extents over the set `S`: it bounds the
absolute value of every value of `S`, and it is `0` or the absolute value of one. -/
theorem extInv_abs (mx mn : α) (S : α → Prop) (h : ExtInv mx mn S) :
    0 ≤ max mx (-mn) ∧ (∀ v, S v → |v| ≤ max mx (-mn)) ∧
      (max mx (-mn) = 0 ∨ ∃ v, S v ∧ max mx (-mn) = |v|) := by
  refine ⟨le_trans h.hmx0 (le_max_left _ _), ?_, ?_⟩
  · intro v hv
    obtain ⟨h1, h2⟩ := h.hbound v hv
    rw [abs_le]
    constructor
    · have : -mn ≤ max mx (-mn) := le_max_right _ _
      linarith
    · exact le_trans h2 (le_max_left _ _)
  · rcases max_choice mx (-mn) with hc | hc
    · rw [hc]
      rcases h.hmx with h0 | hS
      · exact Or.inl h0
      · exact Or.inr ⟨mx, hS, (abs_of_nonneg h.hmx0).symm⟩
    · rw [hc]
      rcases h.hmn with h0 | hS
      · left; rw [h0]; simp
      · exact Or.inr ⟨mn, hS, (abs_of_nonpos h.hmn0).symm⟩

/-- The grid extent of a defined run: for `ntimes ≥ 1` and two files whose lines hold
`ntimes * nbaselines` values each, the read of the last line meeting the end of one of
the files, `read_coord_ska` (built with `GRID`) stores in `*len` the value `ceil(E)`, where `E` is
the maximum of `|x[j]|` and `|y[j]|` over the output entries written (every epoch of
every retained baseline): `*len` is the least integer that is at least every `|x[j]|`
and `|y[j]|` written, and `0` when no baseline is retained. -/
theorem extent_of_defined_run [FloorRing α] (sscanf_lf : List Char → Option α) (sqrt : α → α)
    (file1 file2 : List Char) (U V : List α) (ntimes nbaselines : Nat) (x0 y0 : Nat → α)
    (threshold : α) (hnt : 1 ≤ ntimes)
    (hf1 : (linesRead file1).map sscanf_lf = U.map some)
    (hf2 : (linesRead file2).map sscanf_lf = V.map some)
    (hU : U.length = ntimes * nbaselines) (hV : V.length = ntimes * nbaselines)
    (hrange : ntimes * nbaselines < 2 ^ 32)
    (hend : extraRead (fopen file1) = false ∨ extraRead (fopen file2) = false) :
    ∃ (r : SkaResult α) (E : α),
      read_coord_ska sscanf_lf sqrt file1 file2 ntimes nbaselines x0 y0 threshold = some r ∧
      r.len = ((Int.ceil E : Int) : α) ∧
      (∀ i nt, i < (retainedUpTo sqrt U V threshold nbaselines).length → nt < ntimes →
        |r.x (i * ntimes + nt)| ≤ E ∧ |r.y (i * ntimes + nt)| ≤ E) ∧
      (0 < (retainedUpTo sqrt U V threshold nbaselines).length →
        ∃ i nt, i < (retainedUpTo sqrt U V threshold nbaselines).length ∧ nt < ntimes ∧
          (E = |r.x (i * ntimes + nt)| ∨ E = |r.y (i * ntimes + nt)|)) ∧
      ((retainedUpTo sqrt U V threshold nbaselines).length = 0 → E = 0 ∧ r.len = 0) ∧
      (∀ i nt, i < (retainedUpTo sqrt U V threshold nbaselines).length → nt < ntimes →
        |r.x (i * ntimes + nt)| ≤ r.len ∧ |r.y (i * ntimes + nt)| ≤ r.len) ∧
      (∀ z : Int, 0 < (retainedUpTo sqrt U V threshold nbaselines).length →
        (∀ i nt, i < (retainedUpTo sqrt U V threshold nbaselines).length → nt < ntimes →
          |r.x (i * ntimes + nt)| ≤ (z : α) ∧ |r.y (i * ntimes + nt)| ≤ (z : α)) →
        r.len ≤ (z : α)) := by
  obtain ⟨st, hrun, ho⟩ := read_coord_ska_run sscanf_lf sqrt file1 file2 U V ntimes nbaselines
    x0 y0 threshold hnt hf1 hf2 hU hV hrange hend
  obtain ⟨ax0, ax1, ax2⟩ := extInv_abs _ _ _ ho.hextx
  obtain ⟨ay0, ay1, ay2⟩ := extInv_abs _ _ _ ho.hexty
  have hbound : ∀ i nt, i < (retainedUpTo sqrt U V threshold nbaselines).length →
      nt < ntimes →
      |st.x (i * ntimes + nt)| ≤ max (max st.maxx (-st.minx)) (max st.maxy (-st.miny)) ∧
      |st.y (i * ntimes + nt)| ≤ max (max st.maxx (-st.minx)) (max st.maxy (-st.miny)) := by
    intro i nt hi hnt'
    have hw := (skaWritten_final (retainedUpTo sqrt U V threshold nbaselines).length
      ntimes nt i).mpr ⟨hnt', hi⟩
    constructor
    · exact le_trans (ax1 _ ⟨nt, i, hw, ho.hx nt i hw⟩) (le_max_left _ _)
    · exact le_trans (ay1 _ ⟨nt, i, hw, ho.hy nt i hw⟩) (le_max_right _ _)
  have hattain : 0 < (retainedUpTo sqrt U V threshold nbaselines).length →
      ∃ i nt, i < (retainedUpTo sqrt U V threshold nbaselines).length ∧ nt < ntimes ∧
        (max (max st.maxx (-st.minx)) (max st.maxy (-st.miny)) = |st.x (i * ntimes + nt)| ∨
         max (max st.maxx (-st.minx)) (max st.maxy (-st.miny)) = |st.y (i * ntimes + nt)|) := by
    intro hpos
    have hzero : max (max st.maxx (-st.minx)) (max st.maxy (-st.miny)) = 0 →
        ∃ i nt, i < (retainedUpTo sqrt U V threshold nbaselines).length ∧ nt < ntimes ∧
          (max (max st.maxx (-st.minx)) (max st.maxy (-st.miny)) = |st.x (i * ntimes + nt)| ∨
           max (max st.maxx (-st.minx)) (max st.maxy (-st.miny))
             = |st.y (i * ntimes + nt)|) := by
      intro h0
      refine ⟨0, 0, hpos, by omega, Or.inl ?_⟩
      have := (hbound 0 0 hpos (by omega)).1
      rw [h0] at this ⊢
      exact le_antisymm (abs_nonneg _) this
    rcases max_choice (max st.maxx (-st.minx)) (max st.maxy (-st.miny)) with hc | hc
    · rcases ax2 with h0 | ⟨v, ⟨e, j, hw, hv⟩, hmax⟩
      · exact hzero (by rw [hc, h0])
      · obtain ⟨he, hj⟩ := (skaWritten_final _ _ _ _).mp hw
        refine ⟨j, e, hj, he, Or.inl ?_⟩
        rw [hc, hmax, hv, ho.hx e j hw]
    · rcases ay2 with h0 | ⟨v, ⟨e, j, hw, hv⟩, hmax⟩
      · exact hzero (by rw [hc, h0])
      · obtain ⟨he, hj⟩ := (skaWritten_final _ _ _ _).mp hw
        refine ⟨j, e, hj, he, Or.inr ?_⟩
        rw [hc, hmax, hv, ho.hy e j hw]
  refine ⟨_, max (max st.maxx (-st.minx)) (max st.maxy (-st.miny)), hrun, rfl, hbound,
    hattain, ?_, ?_, ?_⟩
  · intro hk
    have hE : max (max st.maxx (-st.minx)) (max st.maxy (-st.miny)) = 0 := by
      have hx0 : max st.maxx (-st.minx) = 0 := by
        rcases ax2 with h0 | ⟨v, ⟨e, j, hw, _⟩, _⟩
        · exact h0
        · obtain ⟨_, hj⟩ := (skaWritten_final _ _ _ _).mp hw
          omega
      have hy0 : max st.maxy (-st.miny) = 0 := by
        rcases ay2 with h0 | ⟨v, ⟨e, j, hw, _⟩, _⟩
        · exact h0
        · obtain ⟨_, hj⟩ := (skaWritten_final _ _ _ _).mp hw
          omega
      rw [hx0, hy0, max_self]
    refine ⟨hE, ?_⟩
    show ((Int.ceil (max (max st.maxx (-st.minx)) (max st.maxy (-st.miny))) : Int) : α) = 0
    rw [hE]
    simp
  · intro i nt hi hnt'
    have hle := Int.le_ceil (max (max st.maxx (-st.minx)) (max st.maxy (-st.miny)))
    exact ⟨le_trans (hbound i nt hi hnt').1 hle, le_trans (hbound i nt hi hnt').2 hle⟩
  · intro z hpos hz
    show ((Int.ceil (max (max st.maxx (-st.minx)) (max st.maxy (-st.miny))) : Int) : α) ≤ (z : α)
    have hEz : max (max st.maxx (-st.minx)) (max st.maxy (-st.miny)) ≤ (z : α) := by
      obtain ⟨i, nt, hi, hnt', hE | hE⟩ := hattain hpos
      · rw [hE]; exact (hz i nt hi hnt').1
      · rw [hE]; exact (hz i nt hi hnt').2
    exact_mod_cast Int.ceil_le.mpr hEz

/-- An instance of `extent_of_defined_run`: two epochs of one baseline, `(3, 4)` then
`(30, 40)`, in two files whose last line has no newline character. -/
theorem extent_of_defined_run_example :
    ∃ (r : SkaResult ℝ) (E : ℝ),
      read_coord_ska scanDigits Real.sqrt ['3', '\n', '3', '0'] ['4', '\n', '4', '0'] 2 1
        (fun _ => 0) (fun _ => 0) 1 = some r ∧ r.len = ((Int.ceil E : Int) : ℝ) := by
  obtain ⟨r, E, hrun, hlen, _⟩ := extent_of_defined_run scanDigits Real.sqrt
    ['3', '\n', '3', '0'] ['4', '\n', '4', '0'] [3, 30] [4, 40] 2 1
    (fun _ => 0) (fun _ => 0) 1 (by norm_num)
    (by simp [linesRead, linesOf, fopen, fgets, getLine, cstring, scanDigits])
    (by simp [linesRead, linesOf, fopen, fgets, getLine, cstring, scanDigits])
    rfl rfl (by norm_num)
    (Or.inl (by simp [extraRead, fopen, fgets, getLine]))
  exact ⟨r, E, hrun, hlen⟩

/-- C17 (code defect): for `ntimes = 1`, three baselines `(3, 4)`, `(5, 2)`, `(8, 6)`
and the threshold `1`, on the files of the lines `3`, `5`, `8` and `4`, `2`, `6`, each
line ended by a newline character, every baseline is retained and the claim gives
`*len = 8`.  After the three lines the end-of-file indicator of neither file is set,
the loop `while (!feof(fp1) && !feof(fp2))` runs a fourth iteration, and the stores
`temp_uu[3]`, `temp_vv[3]` fall outside the three cells of the scratch arrays: the run
is undefined and stores no defined value in `*len`. -/
theorem grid_extent_overrun :
    (linesRead ['3', '\n', '5', '\n', '8', '\n']).map scanDigits
      = [some (3 : ℝ), some 5, some 8] ∧
    (linesRead ['4', '\n', '2', '\n', '6', '\n']).map scanDigits
      = [some (4 : ℝ), some 2, some 6] ∧
    extraRead (fopen ['3', '\n', '5', '\n', '8', '\n']) = true ∧
    extraRead (fopen ['4', '\n', '2', '\n', '6', '\n']) = true ∧
    read_coord_ska scanDigits Real.sqrt ['3', '\n', '5', '\n', '8', '\n']
      ['4', '\n', '2', '\n', '6', '\n'] 1 3 (fun _ => 0) (fun _ => 0) 1 = none := by
  have hf1 : (linesRead ['3', '\n', '5', '\n', '8', '\n']).map scanDigits
      = [some (3 : ℝ), some 5, some 8] := by
    simp [linesRead, linesOf, fopen, fgets, getLine, cstring, scanDigits]
  have hf2 : (linesRead ['4', '\n', '2', '\n', '6', '\n']).map scanDigits
      = [some (4 : ℝ), some 2, some 6] := by
    simp [linesRead, linesOf, fopen, fgets, getLine, cstring, scanDigits]
  have he1 : extraRead (fopen ['3', '\n', '5', '\n', '8', '\n']) = true := by
    simp [extraRead, fopen, fgets, getLine]
  have he2 : extraRead (fopen ['4', '\n', '2', '\n', '6', '\n']) = true := by
    simp [extraRead, fopen, fgets, getLine]
  exact ⟨hf1, hf2, he1, he2,
    read_coord_ska_overrun scanDigits Real.sqrt _ _ [3, 5, 8] [4, 2, 6] 1 3
      (fun _ => 0) (fun _ => 0) 1 hf1 hf2 rfl rfl (by norm_num) ⟨he1, he2⟩⟩

/-! ## The single-epoch reader: one line -/

theorem oskProcess_short (tokens : List (Token α)) (st : OskState α)
    (h : tokens.length ≤ 1) : oskProcess tokens st = st := by
  match tokens, h with
  | [], _ => rfl
  | [t0], _ =>
    unfold oskProcess
    by_cases hh : t0.hash = true
    · simp [hh]
    · simp [hh]

/-- A line that is neither counted nor incomplete changes no variable. -/
theorem oskProcess_skip (l : List (Token α)) (st : OskState α) (hd : isData l = false)
    (hinc : isIncomplete l = false) : oskProcess l st = st := by
  match l with
  | [] => rfl
  | [t0] => exact oskProcess_short _ st (by simp)
  | [t0, t1] =>
    have hh : t0.hash = true := by simpa [isIncomplete] using hinc
    simp [oskProcess, hh]
  | t0 :: t1 :: t2 :: rest =>
    have hh : t0.hash = true := by simpa [isData] using hd
    simp [oskProcess, hh]

/-- An incomplete line changes neither `i` nor `y` nor the extents of `y`. -/
theorem oskProcess_incomplete (l : List (Token α)) (st : OskState α)
    (hinc : isIncomplete l = true) :
    (oskProcess l st).i = st.i ∧ (oskProcess l st).y = st.y ∧
      (oskProcess l st).maxy = st.maxy ∧ (oskProcess l st).miny = st.miny ∧
      (∀ j, j ≠ st.i → (oskProcess l st).x j = st.x j) := by
  match l with
  | [] => simp [isIncomplete] at hinc
  | [t0] => simp [isIncomplete] at hinc
  | [t0, t1] =>
    have hh : t0.hash = false := by simpa [isIncomplete] using hinc
    refine ⟨by simp [oskProcess, hh], by simp [oskProcess, hh], by simp [oskProcess, hh],
      by simp [oskProcess, hh], ?_⟩
    intro j hj
    cases hn : t1.num with
    | none => simp [oskProcess, hh, hn]
    | some v => simp [oskProcess, hh, hn, Function.update_noteq hj]
  | t0 :: t1 :: t2 :: rest => simp [isIncomplete] at hinc

/-- A counted line: `x[i]` and `y[i]` take the numbers of its second and third token
(and keep their contents when the token is not a number), the extents take `x[i]` and
`y[i]`, and `i` is incremented. -/
theorem oskProcess_data (l : List (Token α)) (st : OskState α) (hd : isData l = true) :
    (oskProcess l st).i = st.i + 1 ∧
    (∀ j, j ≠ st.i → (oskProcess l st).x j = st.x j ∧ (oskProcess l st).y j = st.y j) ∧
    (∀ v, fieldX l = some v → (oskProcess l st).x st.i = v) ∧
    (∀ v, fieldY l = some v → (oskProcess l st).y st.i = v) ∧
    (oskProcess l st).maxx = updMax ((oskProcess l st).x st.i) st.maxx ∧
    (oskProcess l st).minx = updMin ((oskProcess l st).x st.i) st.minx ∧
    (oskProcess l st).maxy = updMax ((oskProcess l st).y st.i) st.maxy ∧
    (oskProcess l st).miny = updMin ((oskProcess l st).y st.i) st.miny := by
  match l with
  | [] => simp [isData] at hd
  | [t0] => simp [isData] at hd
  | [t0, t1] => simp [isData] at hd
  | t0 :: t1 :: t2 :: rest =>
    have hh : t0.hash = false := by simpa [isData] using hd
    cases h1 : t1.num <;> cases h2 : t2.num <;>
      simp [oskProcess, hh, h1, h2, fieldX, fieldY] <;>
      intro j hj <;> simp [Function.update_noteq hj]

/-! ## The single-epoch reader: the loop -/

theorem oskFeed_done (ncoords : Nat) : ∀ (L : List (List (Token α))) (st : OskState α),
    ¬ st.i < ncoords → oskFeed ncoords L st = st := by
  intro L
  induction L with
  | nil => intro st _; rfl
  | cons l L ih =>
    intro st h
    unfold oskFeed
    rw [List.foldl_cons]
    have hs : oskStep ncoords st l = st := by unfold oskStep; rw [if_neg h]
    rw [hs]
    exact ih st h

theorem oskFeed_cons (ncoords : Nat) (l : List (Token α)) (L : List (List (Token α)))
    (st : OskState α) (h : st.i < ncoords) :
    oskFeed ncoords (l :: L) st = oskFeed ncoords L (oskProcess l st) := by
  unfold oskFeed
  rw [List.foldl_cons]
  unfold oskStep
  rw [if_pos h]

/-- The loop of `read_coords_oskar` processes the lines read from the file in order
while `i < ncoords`; the iteration after the last line, in which `fgets` fails, finds in
the buffer the first token of the last line only and changes no variable. -/
theorem oskLoop_unroll (sscanf_lf : List Char → Option α) (ncoords : Nat) :
    ∀ (L : List (List Char)) (fp : FILE) (buf : Option (List (Token α))) (st : OskState α),
      linesOf fp = L →
      (fp.eof = false → (fgets 100 fp).1 = none → ∃ b, buf = some b ∧ b.length ≤ 1) →
      oskLoop sscanf_lf ncoords fp buf st
        = some (oskFeed ncoords (L.map (fun l => tokensOf sscanf_lf (cstring l))) st) := by
  intro L
  induction L with
  | nil =>
    intro fp buf st hL hbuf
    by_cases hi : st.i < ncoords
    · cases he : fp.eof with
      | true =>
        rw [oskLoop, dif_pos (Or.inl he)]
        rfl
      | false =>
        have hr := (linesOf_eq_nil_iff fp he).mp hL
        obtain ⟨b, hb, hlen⟩ := hbuf he hr
        rw [oskLoop, dif_neg (by simp [he, hi])]
        simp only [hr, hb]
        rw [oskProcess_short b st hlen, oskLoop, dif_pos (Or.inl (fgets_none_eof 100 fp hr))]
        rfl
    · rw [oskLoop, dif_pos (Or.inr hi)]
      rfl
  | cons l ls ih =>
    intro fp buf st hL _
    obtain ⟨he, hr, ht⟩ := linesOf_cons fp l ls hL
    by_cases hi : st.i < ncoords
    · rw [oskLoop, dif_neg (by simp [he, hi]), List.map_cons, oskFeed_cons ncoords _ _ st hi]
      simp only [hr]
      exact ih (fgets 100 fp).2 (some ((tokensOf sscanf_lf (cstring l)).take 1))
        (oskProcess (tokensOf sscanf_lf (cstring l)) st) ht
        (fun _ _ => ⟨_, rfl, by simp [List.length_take]⟩)
    · rw [oskLoop, dif_pos (Or.inr hi), oskFeed_done ncoords _ st hi]

theorem isData_not_incomplete (l : List (Token α)) (h : isIncomplete l = true) :
    isData l = false := by
  match l with
  | [] => rfl
  | [t0] => rfl
  | [t0, t1] => rfl
  | t0 :: t1 :: t2 :: rest => simp [isIncomplete] at h

theorem filter_isData_snoc (P : List (List (Token α))) (l : List (Token α)) :
    (P ++ [l]).filter isData = P.filter isData ++ (if isData l = true then [l] else []) := by
  rw [List.filter_append]
  congr 1
  by_cases h : isData l = true
  · simp [h]
  · simp [h]

/-- The state of the loop after the lines `P`, from the initial state. -/
theorem oskInv_feed (ncoords : Nat) (x0 y0 : Nat → α) : ∀ (P : List (List (Token α))),
    OskInv ncoords P (oskFeed ncoords P
      { i := 0, x := x0, y := y0, maxx := 0, minx := 0, maxy := 0, miny := 0 }) := by
  intro P
  induction P using List.reverseRecOn with
  | nil =>
    have hext : ExtInv (0 : α) 0 (fun w => ∃ j, j < 0 ∧ w = x0 j) :=
      { hmn0 := le_refl _, hmx0 := le_refl _, hbound := fun v ⟨j, hj, _⟩ => by omega,
        hmx := Or.inl rfl, hmn := Or.inl rfl }
    have hext' : ExtInv (0 : α) 0 (fun w => ∃ j, j < 0 ∧ w = y0 j) :=
      { hmn0 := le_refl _, hmx0 := le_refl _, hbound := fun v ⟨j, hj, _⟩ => by omega,
        hmx := Or.inl rfl, hmn := Or.inl rfl }
    exact { hi := by simp [oskFeed], hx := fun j hj => by simp [oskFeed] at hj,
            hy := fun j hj => by simp [oskFeed] at hj, hexty := hext', hextx := fun _ => hext }
  | append_singleton P l ih =>
    have hfeed : oskFeed ncoords (P ++ [l])
        { i := 0, x := x0, y := y0, maxx := 0, minx := 0, maxy := 0, miny := 0 }
        = oskStep ncoords (oskFeed ncoords P
          { i := 0, x := x0, y := y0, maxx := 0, minx := 0, maxy := 0, miny := 0 }) l := by
      unfold oskFeed
      rw [List.foldl_append]
      rfl
    rw [hfeed]
    generalize oskFeed ncoords P
      { i := 0, x := x0, y := y0, maxx := 0, minx := 0, maxy := 0, miny := 0 } = st at ih
    have hfil := filter_isData_snoc P l
    have hiP := ih.hi
    have hsub : ∀ f : (∀ l', l' ∈ P ++ [l] → isIncomplete l' = false),
        ∀ l', l' ∈ P → isIncomplete l' = false :=
      fun f l' hl' => f l' (List.mem_append_left _ hl')
    have hget : ∀ j, j < (P.filter isData).length →
        ((P ++ [l]).filter isData).getD j [] = (P.filter isData).getD j [] := by
      intro j hj
      rw [hfil, List.getD_append _ _ _ _ hj]
    by_cases hlt : st.i < ncoords
    · have hiD : st.i = (P.filter isData).length := by
        rw [hiP] at hlt ⊢
        omega
      have hstep : oskStep ncoords st l = oskProcess l st := by
        unfold oskStep; rw [if_pos hlt]
      rw [hstep]
      by_cases hd : isData l = true
      · obtain ⟨p1, p2, p3, p4, p5, p6, p7, p8⟩ := oskProcess_data l st hd
        have hlen : ((P ++ [l]).filter isData).length = (P.filter isData).length + 1 := by
          rw [hfil, if_pos hd, List.length_append]; rfl
        have hlast : ((P ++ [l]).filter isData).getD st.i [] = l := by
          rw [hfil, if_pos hd, List.getD_append_right _ _ _ _ (by omega), hiD]
          simp
        constructor
        · rw [p1, hlen, hiD]; omega
        · intro j hj v hv
          rw [p1] at hj
          by_cases hji : j = st.i
          · subst hji
            rw [hlast] at hv
            exact p3 v hv
          · rw [(p2 j hji).1]
            rw [hget j (by omega)] at hv
            exact ih.hx j (by omega) v hv
        · intro j hj v hv
          rw [p1] at hj
          by_cases hji : j = st.i
          · subst hji
            rw [hlast] at hv
            exact p4 v hv
          · rw [(p2 j hji).2]
            rw [hget j (by omega)] at hv
            exact ih.hy j (by omega) v hv
        · rw [p7, p8]
          apply extInv_congr _ _ _ _ (extInv_step _ _ ((oskProcess l st).y st.i) _ ih.hexty)
          intro w
          rw [p1]
          constructor
          · rintro (⟨j, hj, rfl⟩ | rfl)
            · exact ⟨j, by omega, ((p2 j (by omega)).2).symm⟩
            · exact ⟨st.i, by omega, rfl⟩
          · rintro ⟨j, hj, rfl⟩
            by_cases hji : j = st.i
            · subst hji; exact Or.inr rfl
            · exact Or.inl ⟨j, by omega, (p2 j hji).2⟩
        · intro hinc
          rw [p5, p6]
          apply extInv_congr _ _ _ _ (extInv_step _ _ ((oskProcess l st).x st.i) _
            (ih.hextx (hsub hinc)))
          intro w
          rw [p1]
          constructor
          · rintro (⟨j, hj, rfl⟩ | rfl)
            · exact ⟨j, by omega, ((p2 j (by omega)).1).symm⟩
            · exact ⟨st.i, by omega, rfl⟩
          · rintro ⟨j, hj, rfl⟩
            by_cases hji : j = st.i
            · subst hji; exact Or.inr rfl
            · exact Or.inl ⟨j, by omega, (p2 j hji).1⟩
      · have hd' : isData l = false := by
          cases h : isData l
          · rfl
          · exact absurd h hd
        have hfil' : (P ++ [l]).filter isData = P.filter isData := by
          rw [hfil, if_neg hd, List.append_nil]
        by_cases hinc : isIncomplete l = true
        · obtain ⟨q1, q2, q3, q4, q5⟩ := oskProcess_incomplete l st hinc
          constructor
          · rw [q1, hfil']; exact hiP
          · intro j hj v hv
            rw [q1] at hj
            rw [hfil'] at hv
            rw [q5 j (by omega)]
            exact ih.hx j hj v hv
          · intro j hj v hv
            rw [q1] at hj
            rw [hfil'] at hv
            rw [q2]
            exact ih.hy j hj v hv
          · rw [q1, q2, q3, q4]; exact ih.hexty
          · intro hall
            have := hall l (List.mem_append_right _ (List.mem_singleton_self l))
            rw [hinc] at this
            exact absurd this (by simp)
        · have hinc' : isIncomplete l = false := by
            cases h : isIncomplete l
            · rfl
            · exact absurd h hinc
          rw [oskProcess_skip l st hd' hinc']
          exact { hi := by rw [hfil']; exact hiP
                  hx := fun j hj v hv => ih.hx j hj v (by rw [hfil'] at hv; exact hv)
                  hy := fun j hj v hv => ih.hy j hj v (by rw [hfil'] at hv; exact hv)
                  hexty := ih.hexty
                  hextx := fun hall => ih.hextx (hsub hall) }
    · have hstep : oskStep ncoords st l = st := by
        unfold oskStep; rw [if_neg hlt]
      rw [hstep]
      have hge : ncoords ≤ (P.filter isData).length := by
        rw [hiP] at hlt
        omega
      have hlen : (P.filter isData).length ≤ ((P ++ [l]).filter isData).length := by
        rw [hfil, List.length_append]; omega
      have hi_le : st.i ≤ (P.filter isData).length := by rw [hiP]; omega
      exact { hi := by rw [hiP]; omega
              hx := fun j hj v hv => ih.hx j hj v (by rw [hget j (by omega)] at hv; exact hv)
              hy := fun j hj v hv => ih.hy j hj v (by rw [hget j (by omega)] at hv; exact hv)
              hexty := ih.hexty
              hextx := fun hall => ih.hextx (hsub hall) }

/-! ## The single-epoch reader: the whole function -/

/-- The first call of `fgets` on a file that is not empty reads a line. -/
theorem fgets_fopen_ne_none (file : List Char) (hne : file ≠ []) :
    (fgets 100 (fopen file)).1 ≠ none := by
  cases file with
  | nil => exact absurd rfl hne
  | cons c cs => simp [fgets, fopen]

/-- The lines read by `read_coords_oskar`, as the token lists of the lines that the
calls of `fgets` return. -/
theorem rowsRead_eq (sscanf_lf : List Char → Option α) (file : List Char) :
    rowsRead sscanf_lf file
      = (linesOf (fopen file)).map (fun l => tokensOf sscanf_lf (cstring l)) := by
  unfold rowsRead linesRead
  rw [List.map_map]
  rfl

/-- An empty file has no line. -/
theorem rowsRead_nil (sscanf_lf : List Char → Option α) : rowsRead sscanf_lf [] = [] := by
  rw [rowsRead_eq, linesOf_open _ rfl]
  rfl

/-- On a file that is not empty, `read_coords_oskar` returns the variables of the
state of its loop after the lines read from the file. -/
theorem read_coords_oskar_eq (sscanf_lf : List Char → Option α) (file : List Char)
    (ncoords : Nat) (x0 y0 : Nat → α) (hne : file ≠ []) :
    read_coords_oskar sscanf_lf file ncoords x0 y0
      = some
        { ret := toInt32 (oskFeed ncoords (rowsRead sscanf_lf file)
            { i := 0, x := x0, y := y0, maxx := 0, minx := 0, maxy := 0, miny := 0 }).i
          x := (oskFeed ncoords (rowsRead sscanf_lf file)
            { i := 0, x := x0, y := y0, maxx := 0, minx := 0, maxy := 0, miny := 0 }).x
          y := (oskFeed ncoords (rowsRead sscanf_lf file)
            { i := 0, x := x0, y := y0, maxx := 0, minx := 0, maxy := 0, miny := 0 }).y
          lenu :=
            if (oskFeed ncoords (rowsRead sscanf_lf file)
                { i := 0, x := x0, y := y0, maxx := 0, minx := 0, maxy := 0, miny := 0 }).maxx
              > -(oskFeed ncoords (rowsRead sscanf_lf file)
                { i := 0, x := x0, y := y0, maxx := 0, minx := 0, maxy := 0, miny := 0 }).minx
            then (oskFeed ncoords (rowsRead sscanf_lf file)
                { i := 0, x := x0, y := y0, maxx := 0, minx := 0, maxy := 0, miny := 0 }).maxx
            else -(oskFeed ncoords (rowsRead sscanf_lf file)
                { i := 0, x := x0, y := y0, maxx := 0, minx := 0, maxy := 0, miny := 0 }).minx
          lenv :=
            if (oskFeed ncoords (rowsRead sscanf_lf file)
                { i := 0, x := x0, y := y0, maxx := 0, minx := 0, maxy := 0, miny := 0 }).maxy
              > -(oskFeed ncoords (rowsRead sscanf_lf file)
                { i := 0, x := x0, y := y0, maxx := 0, minx := 0, maxy := 0, miny := 0 }).miny
            then (oskFeed ncoords (rowsRead sscanf_lf file)
                { i := 0, x := x0, y := y0, maxx := 0, minx := 0, maxy := 0, miny := 0 }).maxy
            else -(oskFeed ncoords (rowsRead sscanf_lf file)
                { i := 0, x := x0, y := y0, maxx := 0, minx := 0, maxy := 0, miny := 0 }).miny } := by
  unfold read_coords_oskar
  rw [oskLoop_unroll sscanf_lf ncoords (linesOf (fopen file)) (fopen file) none _ rfl
    (fun _ h => absurd h (fgets_fopen_ne_none file hne)), ← rowsRead_eq]

/-- The run of `read_coords_oskar` on a file that is not empty, or with
`ncoords = 0`: it returns, and its outputs are the variables of a final state
described by the lines read from the file. -/
theorem read_coords_oskar_run (sscanf_lf : List Char → Option α) (file : List Char)
    (ncoords : Nat) (x0 y0 : Nat → α) (hne : file ≠ [] ∨ ncoords = 0) :
    ∃ st : OskState α,
      read_coords_oskar sscanf_lf file ncoords x0 y0
        = some { ret := toInt32 st.i, x := st.x, y := st.y,
                 lenu := if st.maxx > -st.minx then st.maxx else -st.minx,
                 lenv := if st.maxy > -st.miny then st.maxy else -st.miny } ∧
      OskInv ncoords (rowsRead sscanf_lf file) st := by
  by_cases hl : file = []
  · have hn : ncoords = 0 := by
      rcases hne with h | h
      · exact absurd hl h
      · exact h
    subst hl
    subst hn
    refine ⟨{ i := 0, x := x0, y := y0, maxx := 0, minx := 0, maxy := 0, miny := 0 }, ?_, ?_⟩
    · unfold read_coords_oskar
      rw [oskLoop, dif_pos (Or.inr (by simp))]
    · rw [rowsRead_nil]
      exact oskInv_feed 0 x0 y0 []
  · exact ⟨_, read_coords_oskar_eq sscanf_lf file ncoords x0 y0 hl,
      oskInv_feed ncoords x0 y0 (rowsRead sscanf_lf file)⟩

theorem toInt32_of_lt (i : Nat) (h : i < 2 ^ 31) : toInt32 i = (i : Int) := by
  unfold toInt32
  have h1 : i % 2 ^ 32 = i := Nat.mod_eq_of_lt (by omega)
  rw [h1, if_pos h]

/-! ## The single-epoch reader: count, order and extents -/

theorem isData_of_isRow (l : List (Token α)) (h : isRow l = true) : isData l = true := by
  match l with
  | [] => simp [isRow] at h
  | [t0] => simp [isRow] at h
  | [t0, t1] => simp [isRow] at h
  | [t0, t1, t2] =>
    have : t0.hash = false := by
      simp only [isRow, Bool.and_eq_true] at h
      simpa using h.1.1
    simp [isData, this]
  | t0 :: t1 :: t2 :: t3 :: rest => simp [isRow] at h

set_option maxRecDepth 100000 in
/-- C14 (the claim as stated is false), with `ncoords = 5`.  On the file of the single
line `1 abc 2` (three tokens, the second one not a number), which has no well-formed
data row, `read_coords_oskar` returns `1`, not `min(ncoords, R) = 0`.  On the file of a
single comment line of 106 characters, `#` and 98 characters `x` followed by ` 1 2 3` and
a newline character, the first call of `fgets(line, 100, fp)` reads the 99 characters
`#x...x` and the second call reads ` 1 2 3`, which is counted:
`read_coords_oskar` returns `1` with `x[0] = 2` and `y[0] = 3`, not `0`. -/
theorem malformed_row_is_counted :
    (rowsRead scanDigits ['1', ' ', 'a', 'b', 'c', ' ', '2', '\n']
      = [[(⟨false, some 1⟩ : Token ℚ), ⟨false, none⟩, ⟨false, some 2⟩]] ∧
    ((rowsRead scanDigits ['1', ' ', 'a', 'b', 'c', ' ', '2', '\n']
      : List (List (Token ℚ))).filter isRow).length = 0 ∧
    ∃ r, read_coords_oskar (scanDigits : List Char → Option ℚ)
        ['1', ' ', 'a', 'b', 'c', ' ', '2', '\n'] 5 (fun _ => 0) (fun _ => 0) = some r ∧
      r.ret = 1) ∧
    (((tokensOf scanDigits
        ('#' :: List.replicate 98 'x' ++ [' ', '1', ' ', '2', ' ', '3', '\n'])
      : List (Token ℚ)).head?).map Token.hash = some true ∧
    rowsRead scanDigits ('#' :: List.replicate 98 'x' ++ [' ', '1', ' ', '2', ' ', '3', '\n'])
      = [[(⟨true, none⟩ : Token ℚ)], [⟨false, some 1⟩, ⟨false, some 2⟩, ⟨false, some 3⟩]] ∧
    ∃ r, read_coords_oskar (scanDigits : List Char → Option ℚ)
        ('#' :: List.replicate 98 'x' ++ [' ', '1', ' ', '2', ' ', '3', '\n'])
        5 (fun _ => 0) (fun _ => 0) = some r ∧
      r.ret = 1 ∧ r.x 0 = 2 ∧ r.y 0 = 3) := by
  have hrows : rowsRead scanDigits ['1', ' ', 'a', 'b', 'c', ' ', '2', '\n']
      = [[(⟨false, some 1⟩ : Token ℚ), ⟨false, none⟩, ⟨false, some 2⟩]] := by
    simp [rowsRead, linesRead, linesOf, fopen, fgets, getLine, cstring, tokensOf, strtokFrom,
      isDelim, scanDigits]
  have hlong : rowsRead scanDigits
      ('#' :: List.replicate 98 'x' ++ [' ', '1', ' ', '2', ' ', '3', '\n'])
      = [[(⟨true, none⟩ : Token ℚ)], [⟨false, some 1⟩, ⟨false, some 2⟩, ⟨false, some 3⟩]] := by
    simp [rowsRead, linesRead, linesOf, fopen, fgets, getLine, cstring, tokensOf, strtokFrom,
      isDelim, scanDigits, List.replicate]
  refine ⟨⟨hrows, ?_, ?_⟩, ?_, hlong, ?_⟩
  · rw [hrows]
    simp [isRow]
  · obtain ⟨st, hrun, hinv⟩ := read_coords_oskar_run (scanDigits : List Char → Option ℚ)
      ['1', ' ', 'a', 'b', 'c', ' ', '2', '\n'] 5 (fun _ => 0) (fun _ => 0) (Or.inl (by simp))
    refine ⟨_, hrun, ?_⟩
    show toInt32 st.i = 1
    have hi : st.i = 1 := by
      rw [hinv.hi, hrows]
      simp [isData]
    rw [hi]
    rfl
  · simp [tokensOf, strtokFrom, isDelim, List.replicate]
  · refine ⟨_, read_coords_oskar_eq _ _ 5 (fun _ => 0) (fun _ => 0) (by simp), ?_, ?_, ?_⟩
    · rw [hlong]
      simp [oskFeed, oskStep, oskProcess, toInt32]
    · rw [hlong]
      simp [oskFeed, oskStep, oskProcess]
    · rw [hlong]
      simp [oskFeed, oskStep, oskProcess]

/-- C14 (amended): on a file that is not empty (or for `ncoords = 0`), read by the
calls `fgets(line, 100, fp)` in lines of at most 99 characters (a longer line of the
file is read as several lines), `read_coords_oskar` returns `min(ncoords, R)` (when
below `2^31`), where `R` is the number of lines read with at least three tokens whose
first token does not start with `'#'`; this is the number of well-formed rows
`index x y` when every such line is one.  For every `j` below the return value, `x[j]`
and `y[j]` are the numbers read from the second and third token of the `j`-th such
line, when these tokens are numbers. -/
theorem oskar_count_and_order (sscanf_lf : List Char → Option α) (file : List Char)
    (ncoords : Nat) (x0 y0 : Nat → α) (hne : file ≠ [] ∨ ncoords = 0)
    (hrange : min ncoords ((rowsRead sscanf_lf file).filter isData).length < 2 ^ 31) :
    ((∀ l, l ∈ rowsRead sscanf_lf file → isData l = true → isRow l = true) →
      (rowsRead sscanf_lf file).filter isData = (rowsRead sscanf_lf file).filter isRow) ∧
    ∃ r, read_coords_oskar sscanf_lf file ncoords x0 y0 = some r ∧
      r.ret = ((min ncoords ((rowsRead sscanf_lf file).filter isData).length : Nat) : Int) ∧
      (∀ j, j < min ncoords ((rowsRead sscanf_lf file).filter isData).length →
        (∀ v, fieldX (((rowsRead sscanf_lf file).filter isData).getD j []) = some v →
          r.x j = v) ∧
        (∀ v, fieldY (((rowsRead sscanf_lf file).filter isData).getD j []) = some v →
          r.y j = v)) := by
  constructor
  · intro hall
    apply List.filter_congr
    intro l hl
    cases hd : isData l with
    | true => rw [hall l hl hd]
    | false =>
      cases hr : isRow l with
      | false => rfl
      | true => rw [isData_of_isRow l hr] at hd; exact absurd hd (by simp)
  · obtain ⟨st, hrun, hinv⟩ := read_coords_oskar_run sscanf_lf file ncoords x0 y0 hne
    refine ⟨_, hrun, ?_, ?_⟩
    · show toInt32 st.i = _
      rw [hinv.hi, toInt32_of_lt _ hrange]
    · intro j hj
      rw [← hinv.hi] at hj
      exact ⟨hinv.hx j hj, hinv.hy j hj⟩

/-- Witness of `oskar_count_and_order`: a comment line and the row `0 1 2`. -/
theorem oskar_count_and_order_witness :
    ∃ r, read_coords_oskar (scanDigits : List Char → Option ℚ)
        ['#', ' ', 'c', '\n', '0', ' ', '1', ' ', '2', '\n'] 10 (fun _ => 0) (fun _ => 0)
        = some r ∧
      r.ret = ((min 10 ((rowsRead (scanDigits : List Char → Option ℚ)
        ['#', ' ', 'c', '\n', '0', ' ', '1', ' ', '2', '\n']).filter isData).length : Nat)
          : Int) := by
  obtain ⟨r, hrun, hret, _⟩ := (oskar_count_and_order (scanDigits : List Char → Option ℚ)
    ['#', ' ', 'c', '\n', '0', ' ', '1', ' ', '2', '\n'] 10 (fun _ => 0) (fun _ => 0)
    (Or.inl (by simp)) (lt_of_le_of_lt (Nat.min_le_left _ _) (by norm_num))).2
  exact ⟨r, hrun, hret⟩

theorem ite_gt_eq_max (a b : α) : (if a > b then a else b) = max a b := by
  by_cases h : a > b
  · rw [if_pos h, max_eq_left (le_of_lt h)]
  · rw [if_neg h, max_eq_right (not_lt.mp h)]

set_option maxRecDepth 100000 in
/-- C15 (the claim as stated is false), with `ncoords = 5`.  On the file of the two
lines `1 100` and `2 1 1`, `read_coords_oskar` returns `1` with `x[0] = 1`, and stores
`100` in `*lenu`, not the maximum `1` of `|x[j]|` over the rows below the returned
count: the second token of the incomplete first line was taken into the extent.  On the
file of the single line `1 100`, 94 spaces, `7` and a newline character (a row `1 100 7`
of 101 characters), the first call of `fgets(line, 100, fp)` reads the 99 characters
before `7`, two tokens, and the second call reads `7`: `read_coords_oskar` returns `0`
and stores `100` in `*lenu`, not `0`. -/
theorem incomplete_row_enters_extent :
    (rowsRead scanDigits ['1', ' ', '1', '0', '0', '\n', '2', ' ', '1', ' ', '1', '\n']
      = [[(⟨false, some 1⟩ : Token ℚ), ⟨false, some 100⟩],
         [⟨false, some 2⟩, ⟨false, some 1⟩, ⟨false, some 1⟩]] ∧
    ∃ r, read_coords_oskar (scanDigits : List Char → Option ℚ)
        ['1', ' ', '1', '0', '0', '\n', '2', ' ', '1', ' ', '1', '\n']
        5 (fun _ => 0) (fun _ => 0) = some r ∧
      r.ret = 1 ∧ r.x 0 = 1 ∧ r.lenu = 100) ∧
    (rowsRead scanDigits (['1', ' ', '1', '0', '0'] ++ List.replicate 94 ' ' ++ ['7', '\n'])
      = [[(⟨false, some 1⟩ : Token ℚ), ⟨false, some 100⟩], [⟨false, some 7⟩]] ∧
    ∃ r, read_coords_oskar (scanDigits : List Char → Option ℚ)
        (['1', ' ', '1', '0', '0'] ++ List.replicate 94 ' ' ++ ['7', '\n'])
        5 (fun _ => 0) (fun _ => 0) = some r ∧
      r.ret = 0 ∧ r.lenu = 100) := by
  have hrows : rowsRead scanDigits
      ['1', ' ', '1', '0', '0', '\n', '2', ' ', '1', ' ', '1', '\n']
      = [[(⟨false, some 1⟩ : Token ℚ), ⟨false, some 100⟩],
         [⟨false, some 2⟩, ⟨false, some 1⟩, ⟨false, some 1⟩]] := by
    simp [rowsRead, linesRead, linesOf, fopen, fgets, getLine, cstring, tokensOf, strtokFrom,
      isDelim, scanDigits]
  have hlong : rowsRead scanDigits
      (['1', ' ', '1', '0', '0'] ++ List.replicate 94 ' ' ++ ['7', '\n'])
      = [[(⟨false, some 1⟩ : Token ℚ), ⟨false, some 100⟩], [⟨false, some 7⟩]] := by
    simp [rowsRead, linesRead, linesOf, fopen, fgets, getLine, cstring, tokensOf, strtokFrom,
      isDelim, scanDigits, List.replicate]
  refine ⟨⟨hrows, _, read_coords_oskar_eq _ _ 5 (fun _ => 0) (fun _ => 0) (by simp),
    ?_, ?_, ?_⟩, hlong, _, read_coords_oskar_eq _ _ 5 (fun _ => 0) (fun _ => 0) (by simp),
    ?_, ?_⟩
  · rw [hrows]
    simp [oskFeed, oskStep, oskProcess, toInt32]
  · rw [hrows]
    simp [oskFeed, oskStep, oskProcess]
  · rw [hrows]
    simp [oskFeed, oskStep, oskProcess, updMax, updMin]
    norm_num
  · rw [hlong]
    simp [oskFeed, oskStep, oskProcess, toInt32]
  · rw [hlong]
    simp [oskFeed, oskStep, oskProcess, updMax, updMin]
    norm_num

theorem oskProcess_sign (l : List (Token α)) (st : OskState α)
    (h : st.minx ≤ 0 ∧ 0 ≤ st.maxx) :
    (oskProcess l st).minx ≤ 0 ∧ 0 ≤ (oskProcess l st).maxx := by
  have hmax : ∀ v, 0 ≤ updMax v st.maxx := fun v => by
    rw [updMax_eq_max]; exact le_trans h.2 (le_max_right _ _)
  have hmin : ∀ v, updMin v st.minx ≤ 0 := fun v => by
    rw [updMin_eq_min]; exact le_trans (min_le_right _ _) h.1
  match l with
  | [] => exact h
  | [t0] => rw [oskProcess_short _ st (by simp)]; exact h
  | [t0, t1] =>
    cases hh : t0.hash
    · simp only [oskProcess, hh]
      exact ⟨hmin _, hmax _⟩
    · simp only [oskProcess, hh]
      exact h
  | t0 :: t1 :: t2 :: rest =>
    cases hh : t0.hash
    · simp only [oskProcess, hh]
      exact ⟨hmin _, hmax _⟩
    · simp only [oskProcess, hh]
      exact h

theorem oskFeed_sign (ncoords : Nat) : ∀ (L : List (List (Token α))) (st : OskState α),
    st.minx ≤ 0 ∧ 0 ≤ st.maxx →
    (oskFeed ncoords L st).minx ≤ 0 ∧ 0 ≤ (oskFeed ncoords L st).maxx := by
  intro L
  induction L with
  | nil => intro st h; exact h
  | cons l L ih =>
    intro st h
    unfold oskFeed
    rw [List.foldl_cons]
    apply ih
    unfold oskStep
    by_cases hi : st.i < ncoords
    · rw [if_pos hi]; exact oskProcess_sign l st h
    · rw [if_neg hi]; exact h

theorem read_coords_oskar_run_sign (sscanf_lf : List Char → Option α) (file : List Char)
    (ncoords : Nat) (x0 y0 : Nat → α) (hne : file ≠ [] ∨ ncoords = 0) :
    ∃ st : OskState α,
      read_coords_oskar sscanf_lf file ncoords x0 y0
        = some { ret := toInt32 st.i, x := st.x, y := st.y,
                 lenu := if st.maxx > -st.minx then st.maxx else -st.minx,
                 lenv := if st.maxy > -st.miny then st.maxy else -st.miny } ∧
      OskInv ncoords (rowsRead sscanf_lf file) st ∧ st.minx ≤ 0 ∧ 0 ≤ st.maxx := by
  by_cases hl : file = []
  · have hn : ncoords = 0 := by
      rcases hne with h | h
      · exact absurd hl h
      · exact h
    subst hl
    subst hn
    refine ⟨{ i := 0, x := x0, y := y0, maxx := 0, minx := 0, maxy := 0, miny := 0 },
      ?_, ?_, le_refl _, le_refl _⟩
    · unfold read_coords_oskar
      rw [oskLoop, dif_pos (Or.inr (by simp))]
    · rw [rowsRead_nil]
      exact oskInv_feed 0 x0 y0 []
  · have hs := oskFeed_sign ncoords (rowsRead sscanf_lf file)
      { i := 0, x := x0, y := y0, maxx := 0, minx := 0, maxy := 0, miny := 0 }
      ⟨le_refl _, le_refl _⟩
    exact ⟨_, read_coords_oskar_eq sscanf_lf file ncoords x0 y0 hl,
      oskInv_feed ncoords x0 y0 (rowsRead sscanf_lf file), hs.1, hs.2⟩

/-- The extent `max(mx, -mn)` over the entries `f 0 .. f (c-1)`: it bounds every
`|f j|`, it is `0` for `c = 0`, and it is some `|f j|` for `c > 0`. -/
theorem extent_over_entries (mx mn : α) (f : Nat → α) (c : Nat)
    (h : ExtInv mx mn (fun w => ∃ j, j < c ∧ w = f j)) :
    (∀ j, j < c → |f j| ≤ max mx (-mn)) ∧ (c = 0 → max mx (-mn) = 0) ∧
      (0 < c → ∃ j, j < c ∧ max mx (-mn) = |f j|) := by
  obtain ⟨_, a1, a2⟩ := extInv_abs mx mn _ h
  refine ⟨fun j hj => a1 _ ⟨j, hj, rfl⟩, ?_, ?_⟩
  · intro hc
    rcases a2 with h0 | ⟨v, ⟨j, hj, _⟩, _⟩
    · exact h0
    · omega
  · intro hc
    rcases a2 with h0 | ⟨v, ⟨j, hj, hv⟩, hmax⟩
    · refine ⟨0, hc, ?_⟩
      have := a1 _ ⟨0, hc, rfl⟩
      rw [h0] at this ⊢
      exact le_antisymm (abs_nonneg _) this
    · exact ⟨j, hj, by rw [hmax, hv]⟩

/-- C15 (amended): on a file that is not empty (or for `ncoords = 0`), read by the
calls `fgets(line, 100, fp)` in lines of at most 99 characters (a longer line of the
file is read as several lines), with `c` the returned count (the number of lines
counted, when below `2^31`): `*lenv` is the maximum of `|y[j]|` over `j < c` (`0` for
`c = 0`), and both `*lenu` and `*lenv` are non-negative; when no line read is incomplete
(two tokens, the first one not starting with `'#'`), `*lenu` is the maximum of `|x[j]|`
over `j < c` (`0` for `c = 0`). -/
theorem oskar_extents (sscanf_lf : List Char → Option α) (file : List Char) (ncoords : Nat)
    (x0 y0 : Nat → α) (hne : file ≠ [] ∨ ncoords = 0)
    (hrange : min ncoords ((rowsRead sscanf_lf file).filter isData).length < 2 ^ 31) :
    ∃ (r : OskResult α) (c : Nat), read_coords_oskar sscanf_lf file ncoords x0 y0 = some r ∧
      r.ret = (c : Int) ∧ 0 ≤ r.lenu ∧ 0 ≤ r.lenv ∧
      (∀ j, j < c → |r.y j| ≤ r.lenv) ∧ (c = 0 → r.lenv = 0) ∧
      (0 < c → ∃ j, j < c ∧ r.lenv = |r.y j|) ∧
      ((∀ l, l ∈ rowsRead sscanf_lf file → isIncomplete l = false) →
        (∀ j, j < c → |r.x j| ≤ r.lenu) ∧ (c = 0 → r.lenu = 0) ∧
        (0 < c → ∃ j, j < c ∧ r.lenu = |r.x j|)) := by
  obtain ⟨st, hrun, hinv, hs1, hs2⟩ := read_coords_oskar_run_sign sscanf_lf file ncoords x0 y0
    hne
  obtain ⟨y1, y2, y3⟩ := extent_over_entries _ _ _ _ hinv.hexty
  obtain ⟨y0', _, _⟩ := extInv_abs _ _ _ hinv.hexty
  refine ⟨_, st.i, hrun, ?_, ?_, ?_, ?_, ?_, ?_, ?_⟩
  · show toInt32 st.i = _
    rw [toInt32_of_lt _ (by rw [hinv.hi]; exact hrange)]
  · show 0 ≤ (if st.maxx > -st.minx then st.maxx else -st.minx)
    rw [ite_gt_eq_max]
    exact le_trans hs2 (le_max_left _ _)
  · show 0 ≤ (if st.maxy > -st.miny then st.maxy else -st.miny)
    rw [ite_gt_eq_max]
    exact y0'
  · intro j hj
    show |st.y j| ≤ (if st.maxy > -st.miny then st.maxy else -st.miny)
    rw [ite_gt_eq_max]
    exact y1 j hj
  · intro hc
    show (if st.maxy > -st.miny then st.maxy else -st.miny) = 0
    rw [ite_gt_eq_max]
    exact y2 hc
  · intro hc
    show ∃ j, j < st.i ∧ (if st.maxy > -st.miny then st.maxy else -st.miny) = |st.y j|
    rw [ite_gt_eq_max]
    exact y3 hc
  · intro hinc
    obtain ⟨x1, x2, x3⟩ := extent_over_entries _ _ _ _ (hinv.hextx hinc)
    refine ⟨?_, ?_, ?_⟩
    · intro j hj
      show |st.x j| ≤ (if st.maxx > -st.minx then st.maxx else -st.minx)
      rw [ite_gt_eq_max]
      exact x1 j hj
    · intro hc
      show (if st.maxx > -st.minx then st.maxx else -st.minx) = 0
      rw [ite_gt_eq_max]
      exact x2 hc
    · intro hc
      show ∃ j, j < st.i ∧ (if st.maxx > -st.minx then st.maxx else -st.minx) = |st.x j|
      rw [ite_gt_eq_max]
      exact x3 hc

/-- Witness of `oskar_extents`: a comment line and the row `0 1 2`. -/
theorem oskar_extents_witness :
    ∃ (r : OskResult ℚ) (c : Nat), read_coords_oskar (scanDigits : List Char → Option ℚ)
        ['#', ' ', 'c', '\n', '0', ' ', '1', ' ', '2', '\n'] 10 (fun _ => 0) (fun _ => 0)
        = some r ∧
      r.ret = (c : Int) ∧ 0 ≤ r.lenu ∧ 0 ≤ r.lenv := by
  obtain ⟨r, c, hrun, hret, hu, hv, _⟩ := oskar_extents (scanDigits : List Char → Option ℚ)
    ['#', ' ', 'c', '\n', '0', ' ', '1', ' ', '2', '\n'] 10 (fun _ => 0) (fun _ => 0)
    (Or.inl (by simp)) (lt_of_le_of_lt (Nat.min_le_left _ _) (by norm_num))
  exact ⟨r, c, hrun, hret, hu, hv⟩

end RadioLensfit
